import Mathlib

/-!
# FreeRTOS demo collection: delayed-task lists, tick handling and task selection

Shallow embedding of `6.任务延时列表/基础概念.c` (singly linked task lists, `vTaskDelay`,
`vTaskCheckDelayedTasks`, `SysTick_Handler`), of the priority bitmap lookup of
`7.时间片调度机制/demo4.c`, of the circular list primitives of `1.列表与列表项/demo5.c`,
and of the bank transfer and the ring buffer of `3.临界段/demo1.c` and `demo2.c`.

Pointers are natural-number addresses, `NULL` is `none`.  A C function that can
dereference `NULL` or loop forever returns an `Outcome`; loops are bounded by a
fuel argument that counts loop tests.
-/

namespace FreeRTOSDemo

/-- Result of running a C function: a final value, a `NULL` dereference, fuel exhausted, or
the use of a value that C leaves undefined. -/
inductive Outcome (α : Type) where
  | done : α → Outcome α
  | nullDeref : Outcome α
  | outOfFuel : Outcome α
  | undefined : Outcome α
  deriving Repr, DecidableEq

/-- The constant `UINT32_MAX`. -/
def UINT32_MAX : Nat := 4294967295

/-- Number of values of a `uint32_t`. -/
def WORD : Nat := 4294967296

/-! ## `基础概念.c`: data model -/

/-- The struct `Task_t` of `基础概念.c`. -/
structure Task_t where
  xWakeTime : Nat
  pxNext : Option Nat
  pcName : String
  bReady : Int
  deriving Repr, DecidableEq, Inhabited

/-- The struct `List_t` of `基础概念.c`: a head pointer. -/
structure List_t where
  pxHead : Option Nat
  deriving Repr, DecidableEq, Inhabited

/-- Task memory: every address holds a `Task_t`. -/
abbrev Mem := Nat → Task_t

/-- The assignment `p->pxNext = v`. -/
def setNext (mem : Mem) (p : Nat) (v : Option Nat) : Mem :=
  fun a => if a = p then { mem p with pxNext := v } else mem a

/-- The assignment `p->xWakeTime = v`. -/
def setWake (mem : Mem) (p : Nat) (v : Nat) : Mem :=
  fun a => if a = p then { mem p with xWakeTime := v } else mem a

/-- The assignment `p->bReady = v`. -/
def setReady (mem : Mem) (p : Nat) (v : Int) : Mem :=
  fun a => if a = p then { mem p with bReady := v } else mem a

/-- The global variables of `基础概念.c` together with the task memory. -/
structure State where
  xTickCount : Nat
  xNextTaskUnblockTime : Nat
  pxDelayedTaskList : List_t
  pxOverflowDelayedTaskList : List_t
  pxCurrentTask : Option Nat
  pxReadyList : List_t
  mem : Mem

/-! ## `基础概念.c`: operations -/

/-- The `while` loop of `vListInsert`: it advances `pxCurrent` and then copies the
advanced pointer into `pxPrev`.  Returns the final `(pxCurrent, pxPrev)`. -/
def vListInsert_loop : Nat → Mem → Nat → Option Nat → Option Nat →
    Outcome (Option Nat × Option Nat)
  | 0, _, _, _, _ => Outcome.outOfFuel
  | fuel + 1, mem, pxTask, pxCurrent, pxPrev =>
    match pxCurrent with
    | none => Outcome.done (pxCurrent, pxPrev)
    | some c =>
      if (mem c).xWakeTime ≤ (mem pxTask).xWakeTime then
        vListInsert_loop fuel mem pxTask (mem c).pxNext (mem c).pxNext
      else
        Outcome.done (pxCurrent, pxPrev)

/-- The function `vListInsert(pxList, pxTask)`; returns the memory and the list struct. -/
def vListInsert (fuel : Nat) (mem : Mem) (pxList : List_t) (pxTask : Nat) :
    Outcome (Mem × List_t) :=
  match pxList.pxHead with
  | none => Outcome.done (setNext mem pxTask none, { pxHead := some pxTask })
  | some c =>
    if (mem pxTask).xWakeTime < (mem c).xWakeTime then
      Outcome.done (setNext mem pxTask (some c), { pxHead := some pxTask })
    else
      match vListInsert_loop fuel mem pxTask (some c) none with
      | Outcome.done (_, pxPrev) =>
        let mem1 := setNext mem pxTask (some pxTask)
        match pxPrev with
        | none => Outcome.nullDeref
        | some p => Outcome.done (setNext mem1 p (some pxTask), pxList)
      | Outcome.nullDeref => Outcome.nullDeref
      | Outcome.outOfFuel => Outcome.outOfFuel
      | Outcome.undefined => Outcome.undefined

/-- The `while` loop of `vListRemove`; returns the final `(pxCurrent, pxPrev)`. -/
def vListRemove_loop : Nat → Mem → Nat → Option Nat → Option Nat →
    Outcome (Option Nat × Option Nat)
  | 0, _, _, _, _ => Outcome.outOfFuel
  | fuel + 1, mem, pxTask, pxCurrent, pxPrev =>
    match pxCurrent with
    | none => Outcome.done (pxCurrent, pxPrev)
    | some c =>
      if c ≠ pxTask then
        vListRemove_loop fuel mem pxTask (mem c).pxNext (some c)
      else
        Outcome.done (pxCurrent, pxPrev)

/-- The function `vListRemove(pxList, pxTask)`. -/
def vListRemove (fuel : Nat) (mem : Mem) (pxList : List_t) (pxTask : Nat) :
    Outcome (Mem × List_t) :=
  match vListRemove_loop fuel mem pxTask pxList.pxHead none with
  | Outcome.done (pxCurrent, pxPrev) =>
    if pxCurrent = some pxTask then
      match pxPrev with
      | none =>
        Outcome.done (setNext mem pxTask none, { pxHead := (mem pxTask).pxNext })
      | some p =>
        Outcome.done (setNext (setNext mem p (mem pxTask).pxNext) pxTask none, pxList)
    else
      Outcome.done (mem, pxList)
  | Outcome.nullDeref => Outcome.nullDeref
  | Outcome.outOfFuel => Outcome.outOfFuel
  | Outcome.undefined => Outcome.undefined

/-- The function `vTaskSwitchContext`. -/
def vTaskSwitchContext (fuel : Nat) (s : State) : Outcome State :=
  match s.pxReadyList.pxHead with
  | some h =>
    match vListRemove fuel s.mem s.pxReadyList h with
    | Outcome.done (mem1, l) =>
      Outcome.done { s with pxCurrentTask := some h, mem := mem1, pxReadyList := l }
    | Outcome.nullDeref => Outcome.nullDeref
    | Outcome.outOfFuel => Outcome.outOfFuel
    | Outcome.undefined => Outcome.undefined
  | none => Outcome.done { s with pxCurrentTask := none }

/-- The update of `xNextTaskUnblockTime` at the end of `vTaskDelay`. -/
def vTaskDelay_next (xNextTaskUnblockTime xTimeToWake : Nat) : Nat :=
  if xNextTaskUnblockTime = 0 ∨ xTimeToWake < xNextTaskUnblockTime then xTimeToWake
  else xNextTaskUnblockTime

/-- The function `vTaskDelay(xTicksToDelay)`. -/
def vTaskDelay (fuel : Nat) (xTicksToDelay : Nat) (s : State) : Outcome State :=
  match s.pxCurrentTask with
  | none => Outcome.nullDeref
  | some cur =>
    let mem1 := setReady s.mem cur 0
    let xTimeToWake := (s.xTickCount + xTicksToDelay) % WORD
    let mem2 := setWake mem1 cur xTimeToWake
    if xTimeToWake < s.xTickCount then
      match vListInsert fuel mem2 s.pxOverflowDelayedTaskList cur with
      | Outcome.done (mem3, l) =>
        vTaskSwitchContext fuel
          { s with mem := mem3, pxOverflowDelayedTaskList := l,
                   xNextTaskUnblockTime := vTaskDelay_next s.xNextTaskUnblockTime xTimeToWake }
      | Outcome.nullDeref => Outcome.nullDeref
      | Outcome.outOfFuel => Outcome.outOfFuel
      | Outcome.undefined => Outcome.undefined
    else
      match vListInsert fuel mem2 s.pxDelayedTaskList cur with
      | Outcome.done (mem3, l) =>
        vTaskSwitchContext fuel
          { s with mem := mem3, pxDelayedTaskList := l,
                   xNextTaskUnblockTime := vTaskDelay_next s.xNextTaskUnblockTime xTimeToWake }
      | Outcome.nullDeref => Outcome.nullDeref
      | Outcome.outOfFuel => Outcome.outOfFuel
      | Outcome.undefined => Outcome.undefined

/-- The recomputation of `xNextTaskUnblockTime` from the heads of the two delayed lists,
as written at the end of `vTaskCheckDelayedTasks` and in the wrap branch of
`SysTick_Handler`. -/
def updateNextUnblock (s : State) : State :=
  match s.pxDelayedTaskList.pxHead with
  | some h => { s with xNextTaskUnblockTime := (s.mem h).xWakeTime }
  | none =>
    match s.pxOverflowDelayedTaskList.pxHead with
    | some h => { s with xNextTaskUnblockTime := (s.mem h).xWakeTime }
    | none => { s with xNextTaskUnblockTime := UINT32_MAX }

/-- The `while` loop of `vTaskCheckDelayedTasks`. -/
def vTaskCheckDelayedTasks_loop : Nat → State → Outcome State
  | 0, _ => Outcome.outOfFuel
  | fuel + 1, s =>
    match s.pxDelayedTaskList.pxHead with
    | none => Outcome.done s
    | some h =>
      if (s.mem h).xWakeTime ≤ s.xTickCount then
        match vListRemove (fuel + 1) s.mem s.pxDelayedTaskList h with
        | Outcome.done (mem1, l1) =>
          let mem2 := setReady mem1 h 1
          match vListInsert (fuel + 1) mem2 s.pxReadyList h with
          | Outcome.done (mem3, l3) =>
            vTaskCheckDelayedTasks_loop fuel
              { s with mem := mem3, pxDelayedTaskList := l1, pxReadyList := l3 }
          | Outcome.nullDeref => Outcome.nullDeref
          | Outcome.outOfFuel => Outcome.outOfFuel
          | Outcome.undefined => Outcome.undefined
        | Outcome.nullDeref => Outcome.nullDeref
        | Outcome.outOfFuel => Outcome.outOfFuel
        | Outcome.undefined => Outcome.undefined
      else
        Outcome.done s

/-- The function `vTaskCheckDelayedTasks`. -/
def vTaskCheckDelayedTasks (fuel : Nat) (s : State) : Outcome State :=
  match vTaskCheckDelayedTasks_loop fuel s with
  | Outcome.done s1 => Outcome.done (updateNextUnblock s1)
  | Outcome.nullDeref => Outcome.nullDeref
  | Outcome.outOfFuel => Outcome.outOfFuel
  | Outcome.undefined => Outcome.undefined

/-- The first half of `SysTick_Handler`: `xTickCount++` and, when the counter became 0,
the exchange of the two head pointers followed by the recomputation of
`xNextTaskUnblockTime`. -/
def SysTick_advance (s : State) : State :=
  let s1 := { s with xTickCount := (s.xTickCount + 1) % WORD }
  if s1.xTickCount = 0 then
    let pxTemp := s1.pxDelayedTaskList.pxHead
    updateNextUnblock
      { s1 with pxDelayedTaskList := { pxHead := s1.pxOverflowDelayedTaskList.pxHead },
                pxOverflowDelayedTaskList := { pxHead := pxTemp } }
  else s1

/-- The function `SysTick_Handler`. -/
def SysTick_Handler (fuel : Nat) (s : State) : Outcome State :=
  let s1 := SysTick_advance s
  if s1.xTickCount ≥ s1.xNextTaskUnblockTime then vTaskCheckDelayedTasks fuel s1
  else Outcome.done s1

/-- Run `SysTick_Handler` `n` times, stopping at the first call that does not return. -/
def ticks (fuel : Nat) : Nat → State → Outcome State
  | 0, s => Outcome.done s
  | n + 1, s =>
    match SysTick_Handler fuel s with
    | Outcome.done s1 => ticks fuel n s1
    | Outcome.nullDeref => Outcome.nullDeref
    | Outcome.outOfFuel => Outcome.outOfFuel
    | Outcome.undefined => Outcome.undefined

/-! ## Abstraction: the sequence of tasks of a `NULL`-terminated list -/

/-- `IsList mem h l`: walking `pxNext` from `h` visits exactly the addresses `l`
and then reaches `NULL`. -/
def IsList (mem : Mem) : Option Nat → List Nat → Prop
  | h, [] => h = none
  | h, a :: l => h = some a ∧ IsList mem (mem a).pxNext l

/-- The wake times of a sequence of tasks. -/
def wakeTimes (mem : Mem) (l : List Nat) : List Nat := l.map fun a => (mem a).xWakeTime

/-- A memory holding the given tasks at addresses `0, 1, 2, ...`. -/
def memOf (ts : List Task_t) : Mem := fun a => ts.getD a default

/-- A task record with the given name, wake time and successor. -/
def mkTask (name : String) (wake : Nat) (next : Option Nat) (ready : Int) : Task_t :=
  { xWakeTime := wake, pxNext := next, pcName := name, bReady := ready }

/-- Decision procedure for `IsList` on a concrete sequence. -/
instance IsList.instDecidable (mem : Mem) : ∀ (h : Option Nat) (l : List Nat), Decidable (IsList mem h l)
  | h, [] => inferInstanceAs (Decidable (h = none))
  | h, a :: l =>
    have := IsList.instDecidable mem (mem a).pxNext l
    inferInstanceAs (Decidable (h = some a ∧ IsList mem (mem a).pxNext l))

/-- Insert the tasks of `ts` one after another with `vListInsert`. -/
def insertAll (fuel : Nat) : Mem → List_t → List Nat → Outcome (Mem × List_t)
  | mem, l, [] => Outcome.done (mem, l)
  | mem, l, t :: ts =>
    match vListInsert fuel mem l t with
    | Outcome.done (mem1, l1) => insertAll fuel mem1 l1 ts
    | Outcome.nullDeref => Outcome.nullDeref
    | Outcome.outOfFuel => Outcome.outOfFuel
    | Outcome.undefined => Outcome.undefined

/-- Task 0 ("A", wake time 3) is the only element of a list; task 1 ("B", wake time 5)
is detached. -/
def memTail : Mem := memOf [mkTask "A" 3 none 0, mkTask "B" 5 none 0]

/-- Tasks 0 ("A", 3) and 1 ("C", 7) form a sorted list; task 2 ("B", 5) is detached. -/
def memMiddle : Mem :=
  memOf [mkTask "A" 3 (some 1) 0, mkTask "C" 7 none 0, mkTask "B" 5 none 0]

/-- Three detached tasks with the keys 5, 3, 5 of Scenario A. -/
def memScenarioA : Mem :=
  memOf [mkTask "first5" 5 none 0, mkTask "three" 3 none 0, mkTask "second5" 5 none 0]

/-- Scenario B before the delay: `xTickCount = 0xFFFFFFFE`, both delayed lists and the
ready list empty, task 0 running, `xNextTaskUnblockTime = UINT32_MAX`. -/
def stateScenarioB : State :=
  { xTickCount := 4294967294, xNextTaskUnblockTime := 4294967295,
    pxDelayedTaskList := { pxHead := none }, pxOverflowDelayedTaskList := { pxHead := none },
    pxCurrentTask := some 0, pxReadyList := { pxHead := none },
    mem := memOf [mkTask "T" 0 none 1] }

/-- The initial state of the program (`xTickCount = 0`, `xNextTaskUnblockTime = 0`, all
lists empty) with task 0 running. -/
def stateFresh : State :=
  { xTickCount := 0, xNextTaskUnblockTime := 0,
    pxDelayedTaskList := { pxHead := none }, pxOverflowDelayedTaskList := { pxHead := none },
    pxCurrentTask := some 0, pxReadyList := { pxHead := none },
    mem := memOf [mkTask "T" 0 none 1] }

/-- The value the spec assigns to the next-unblock cursor: the wake time of the head of
the normal delayed list, else of the head of the overflow list, else `UINT32_MAX`. -/
def headWakeTime (s : State) : Nat :=
  match s.pxDelayedTaskList.pxHead with
  | some h => (s.mem h).xWakeTime
  | none =>
    match s.pxOverflowDelayedTaskList.pxHead with
    | some h => (s.mem h).xWakeTime
    | none => UINT32_MAX

/-- A set of addresses is closed when no `pxNext` pointer leads out of it. -/
def Closed (W : Nat → Prop) (mem : Mem) : Prop :=
  ∀ a b, W a → (mem a).pxNext = some b → W b

/-- A pointer is `NULL` or points into the set. -/
def InW (W : Nat → Prop) (o : Option Nat) : Prop := ∀ c, o = some c → W c

/-- The state one tick before the counter wraps in Scenario B: `xTickCount = 0xFFFFFFFF`,
task 0 (wake time 1) alone in the overflow list. -/
def stateBeforeWrap : State :=
  { xTickCount := 4294967295, xNextTaskUnblockTime := 1,
    pxDelayedTaskList := { pxHead := none }, pxOverflowDelayedTaskList := { pxHead := some 0 },
    pxCurrentTask := none, pxReadyList := { pxHead := none },
    mem := memOf [mkTask "T" 1 none 0] }

/-- Two due tasks: `xTickCount = 5`, the normal delayed list is task 0 (wake time 1),
task 1 (wake time 2); the overflow and ready lists are empty. -/
def stateTwoDue : State :=
  { xTickCount := 5, xNextTaskUnblockTime := 1,
    pxDelayedTaskList := { pxHead := some 0 }, pxOverflowDelayedTaskList := { pxHead := none },
    pxCurrentTask := none, pxReadyList := { pxHead := none },
    mem := memOf [mkTask "T0" 1 (some 1) 0, mkTask "T1" 2 none 0] }

/-- Three tasks at `xTickCount = 10` with both delayed lists empty and
`xNextTaskUnblockTime = UINT32_MAX`: task 0 runs, tasks 1 and 2 (which last woke at ticks
3 and 5) wait in the ready list. -/
def stateThreeTasks : State :=
  { xTickCount := 10, xNextTaskUnblockTime := 4294967295,
    pxDelayedTaskList := { pxHead := none }, pxOverflowDelayedTaskList := { pxHead := none },
    pxCurrentTask := some 0, pxReadyList := { pxHead := some 1 },
    mem := memOf [mkTask "T0" 0 none 1, mkTask "T1" 3 (some 2) 1, mkTask "T2" 5 none 1] }

/-- The current task calls `vTaskDelay(d)` and then `SysTick_Handler` runs `n` times. -/
def delayThenTicks (fuel d n : Nat) (s : State) : Outcome State :=
  match vTaskDelay fuel d s with
  | Outcome.done s1 => ticks fuel n s1
  | Outcome.nullDeref => Outcome.nullDeref
  | Outcome.outOfFuel => Outcome.outOfFuel
  | Outcome.undefined => Outcome.undefined

/-! ## `demo4.c`: highest ready priority -/

/-- The leading-zero scan of a word of `n` bits: the number of clear bits above the highest
set bit among bits `n-1 .. 0`. -/
def clzScan : Nat → Nat → Nat
  | 0, _ => 0
  | n + 1, x => if x.testBit n then 0 else 1 + clzScan n x

/-- Modelled from the spec: the compiler builtin `__builtin_clz` used by
`portGET_HIGHEST_PRIORITY` is not part of the sources.  It is the count-leading-zeros
primitive of a 32-bit word; its result for the argument 0 is undefined (`none`). -/
def builtin_clz (x : Nat) : Option Nat :=
  if x % WORD = 0 then none else some (clzScan 32 (x % WORD))

/-- The macro `portGET_HIGHEST_PRIORITY(uxTopPriority, uxReadyPriorities)` in its CLZ form:
`uxTopPriority = 31UL - (uint32_t)__builtin_clz(uxReadyPriorities)`. -/
def portGET_HIGHEST_PRIORITY (uxReadyPriorities : Nat) : Option Nat :=
  match builtin_clz uxReadyPriorities with
  | none => none
  | some z => some ((31 + WORD - z) % WORD)

/-! ## `demo5.c` and `demo4.c`: circular lists with a sentinel, task selection -/

/-- Address of a `ListItem_t`: the sentinel `xListEnd` embedded in list number `l`, or the
stand-alone item number `i`. -/
inductive ItemPtr where
  | listEnd : Nat → ItemPtr
  | item : Nat → ItemPtr
  deriving DecidableEq, Repr

/-- The struct `ListItem_t` (`struct xLIST_ITEM`) of `demo5.c`; `pvOwner` is the address of
the owning task control block, `pxContainer` the number of the containing list. -/
structure ListItem_t where
  xItemValue : Nat
  pxNext : Option ItemPtr
  pxPrevious : Option ItemPtr
  pvOwner : Option Nat
  pxContainer : Option Nat
  deriving DecidableEq, Repr, Inhabited

/-- The struct `List_t` (`struct xLIST`) of `demo5.c`. -/
structure xLIST where
  uxNumberOfItems : Nat
  pxIndex : Option ItemPtr
  xListEnd : ListItem_t
  deriving DecidableEq, Repr, Inhabited

/-- All lists and all list items.  List number `p` of the heap is `pxReadyTasksLists[p]`. -/
structure ListHeap where
  lists : Nat → xLIST
  items : Nat → ListItem_t

/-- Read the `ListItem_t` a pointer points to. -/
def readItem (heap : ListHeap) : ItemPtr → ListItem_t
  | ItemPtr.listEnd l => (heap.lists l).xListEnd
  | ItemPtr.item i => heap.items i

/-- Overwrite the `ListItem_t` a pointer points to. -/
def writeItem (heap : ListHeap) (p : ItemPtr) (v : ListItem_t) : ListHeap :=
  match p with
  | ItemPtr.listEnd l =>
    { heap with lists := fun k => if k = l then { heap.lists l with xListEnd := v }
                                  else heap.lists k }
  | ItemPtr.item i =>
    { heap with items := fun k => if k = i then v else heap.items k }

/-- The assignment `pxList->pxIndex = v`. -/
def setIndex (heap : ListHeap) (l : Nat) (v : Option ItemPtr) : ListHeap :=
  { heap with lists := fun k => if k = l then { heap.lists l with pxIndex := v }
                                else heap.lists k }

/-- The function `vListInitialise(pxList)` of `demo5.c`. -/
def vListInitialise (heap : ListHeap) (pxList : Nat) : ListHeap :=
  { heap with lists := fun k =>
      if k = pxList then
        { uxNumberOfItems := 0,
          pxIndex := some (ItemPtr.listEnd pxList),
          xListEnd := { (heap.lists pxList).xListEnd with
                          pxNext := some (ItemPtr.listEnd pxList),
                          pxPrevious := some (ItemPtr.listEnd pxList),
                          xItemValue := 4294967295 } }
      else heap.lists k }

/-- The function `vListInitialiseItem(pxItem)` of `demo5.c`. -/
def vListInitialiseItem (heap : ListHeap) (pxItem : ItemPtr) : ListHeap :=
  writeItem heap pxItem
    { xItemValue := 0, pxNext := none, pxPrevious := none, pxContainer := none,
      pvOwner := none }

/-- The function `vListInsertEnd(pxList, pxNewListItem)` of `demo5.c`. -/
def vListInsertEnd (heap : ListHeap) (pxList : Nat) (pxNewListItem : ItemPtr) :
    Outcome ListHeap :=
  match (heap.lists pxList).pxIndex with
  | none => Outcome.nullDeref
  | some pxIndex =>
    let h1 := writeItem heap pxNewListItem
      { readItem heap pxNewListItem with pxNext := some pxIndex }
    let h2 := writeItem h1 pxNewListItem
      { readItem h1 pxNewListItem with pxPrevious := (readItem h1 pxIndex).pxPrevious }
    match (readItem h2 pxIndex).pxPrevious with
    | none => Outcome.nullDeref
    | some prev =>
      let h3 := writeItem h2 prev { readItem h2 prev with pxNext := some pxNewListItem }
      let h4 := writeItem h3 pxIndex
        { readItem h3 pxIndex with pxPrevious := some pxNewListItem }
      let h5 := writeItem h4 pxNewListItem
        { readItem h4 pxNewListItem with pxContainer := some pxList }
      Outcome.done
        { h5 with lists := fun k =>
            if k = pxList then
              { h5.lists pxList with
                  uxNumberOfItems := ((h5.lists pxList).uxNumberOfItems + 1) % WORD }
            else h5.lists k }

/-- The function `vDebugGetNextEntry(ppxTCB, pxList)` of `demo4.c`; returns the heap and the
value stored through `ppxTCB`. -/
def vDebugGetNextEntry (heap : ListHeap) (pxList : Nat) : Outcome (ListHeap × Option Nat) :=
  match (heap.lists pxList).pxIndex with
  | none => Outcome.nullDeref
  | some i0 =>
    let h1 := setIndex heap pxList (readItem heap i0).pxNext
    match (h1.lists pxList).pxIndex with
    | none => Outcome.nullDeref
    | some i1 =>
      let h2 :=
        if i1 = ItemPtr.listEnd pxList then setIndex h1 pxList (readItem h1 i1).pxNext
        else h1
      match (h2.lists pxList).pxIndex with
      | none => Outcome.nullDeref
      | some i2 => Outcome.done (h2, (readItem h2 i2).pvOwner)

/-- The globals of `demo4.c`: the ready lists and items, the ready bitmap, the current
task and the debug counters. -/
structure SchedState where
  heap : ListHeap
  uxTopReadyPriority : Nat
  pxCurrentTCB : Option Nat
  g_task_select_count : Nat
  g_priority_reset_count : Nat
  g_current_priority_trace : Nat → Nat
  g_trace_index : Nat

/-- Modelled from the spec: the macro `listGetOwnerOfNextEntry(pxTCB, pxList)` called by
`vDebugTaskSelect` is not defined in the sources.  It is the cursor advance
(`advance_cursor`) whose function form in the same file is `vDebugGetNextEntry`. -/
def listGetOwnerOfNextEntry (heap : ListHeap) (pxList : Nat) :
    Outcome (ListHeap × Option Nat) :=
  vDebugGetNextEntry heap pxList

/-- The function `vDebugTaskSelect` of `demo4.c`, with the CLZ form of
`portGET_HIGHEST_PRIORITY`. -/
def vDebugTaskSelect (st : SchedState) : Outcome SchedState :=
  let st1 := { st with g_task_select_count := (st.g_task_select_count + 1) % WORD }
  match portGET_HIGHEST_PRIORITY st1.uxTopReadyPriority with
  | none => Outcome.undefined
  | some uxTopPriority =>
    let st2 :=
      if st1.g_trace_index < 1000 then
        { st1 with
            g_current_priority_trace := fun k =>
              if k = st1.g_trace_index then uxTopPriority % 256
              else st1.g_current_priority_trace k,
            g_trace_index := st1.g_trace_index + 1 }
      else st1
    match listGetOwnerOfNextEntry st2.heap uxTopPriority with
    | Outcome.done (heap, tcb) => Outcome.done { st2 with heap := heap, pxCurrentTCB := tcb }
    | Outcome.nullDeref => Outcome.nullDeref
    | Outcome.outOfFuel => Outcome.outOfFuel
    | Outcome.undefined => Outcome.undefined

/-- Call `vDebugTaskSelect` `n` times, stopping at the first call that does not return. -/
def selects : Nat → SchedState → Outcome SchedState
  | 0, st => Outcome.done st
  | n + 1, st =>
    match vDebugTaskSelect st with
    | Outcome.done st1 => selects n st1
    | Outcome.nullDeref => Outcome.nullDeref
    | Outcome.outOfFuel => Outcome.outOfFuel
    | Outcome.undefined => Outcome.undefined

/-- `Chain heap a xs z`: following `pxNext` from `a` visits the items `xs` in order and
then arrives at `z`. -/
def Chain (heap : ListHeap) : ItemPtr → List Nat → ItemPtr → Prop
  | a, [], z => (readItem heap a).pxNext = some z
  | a, x :: xs, z =>
    (readItem heap a).pxNext = some (ItemPtr.item x) ∧ Chain heap (ItemPtr.item x) xs z

/-- Decision procedure for `Chain` on a concrete sequence. -/
instance Chain.instDecidable (heap : ListHeap) :
    ∀ (a : ItemPtr) (xs : List Nat) (z : ItemPtr), Decidable (Chain heap a xs z)
  | a, [], z => inferInstanceAs (Decidable ((readItem heap a).pxNext = some z))
  | a, x :: xs, z =>
    have := Chain.instDecidable heap (ItemPtr.item x) xs z
    inferInstanceAs (Decidable ((readItem heap a).pxNext = some (ItemPtr.item x) ∧
      Chain heap (ItemPtr.item x) xs z))

/-- `Ring heap l xs`: list `l` holds exactly the items `xs`, in this order, between two
visits of its sentinel. -/
def Ring (heap : ListHeap) (l : Nat) (xs : List Nat) : Prop :=
  Chain heap (ItemPtr.listEnd l) xs (ItemPtr.listEnd l)

instance Ring.instDecidable (heap : ListHeap) (l : Nat) (xs : List Nat) :
    Decidable (Ring heap l xs) :=
  inferInstanceAs (Decidable (Chain heap (ItemPtr.listEnd l) xs (ItemPtr.listEnd l)))

/-- A heap in which nothing is initialised. -/
def emptyHeap : ListHeap := { lists := fun _ => default, items := fun _ => default }

/-- Make a task ready the way the demos describe task creation: initialise item `i`, set
its owner to the task control block `tcb`, and append it with `vListInsertEnd` to the
ready list of priority `prio`, setting bit `prio` of the bitmap
(`uxTopReadyPriority |= 1UL << prio`). -/
def addReadyTask (st : SchedState) (prio i tcb : Nat) : Outcome SchedState :=
  let h1 := vListInitialiseItem st.heap (ItemPtr.item i)
  let h2 := writeItem h1 (ItemPtr.item i) { readItem h1 (ItemPtr.item i) with pvOwner := some tcb }
  match vListInsertEnd h2 prio (ItemPtr.item i) with
  | Outcome.done h3 =>
    Outcome.done { st with heap := h3,
                           uxTopReadyPriority := (st.uxTopReadyPriority ||| (1 <<< prio)) % WORD }
  | Outcome.nullDeref => Outcome.nullDeref
  | Outcome.outOfFuel => Outcome.outOfFuel
  | Outcome.undefined => Outcome.undefined

/-- Scenario C before any task is created: ready lists 2 and 3 initialised, bitmap 0. -/
def scenarioC_init : SchedState :=
  { heap := vListInitialise (vListInitialise emptyHeap 2) 3,
    uxTopReadyPriority := 0, pxCurrentTCB := none, g_task_select_count := 0,
    g_priority_reset_count := 0, g_current_priority_trace := fun _ => 0, g_trace_index := 0 }

/-- The result of an `Outcome`, or a fallback when the call did not return. -/
def Outcome.getD {α : Type} (o : Outcome α) (d : α) : α :=
  match o with
  | Outcome.done a => a
  | _ => d

/-- Scenario C: the tasks 101 and 102 (items 1 and 2) at priority 2 and the task 103
(item 3) at priority 3, all ready. -/
def scenarioC : SchedState :=
  let s1 := (addReadyTask scenarioC_init 2 1 101).getD scenarioC_init
  let s2 := (addReadyTask s1 2 2 102).getD s1
  (addReadyTask s2 3 3 103).getD s2

/-- The pointer at position `j` of list `l` holding the items `xs`: item `xs[j]`, or the
sentinel when `j` is past the last item. -/
def ptrAt (l : Nat) (xs : List Nat) (j : Nat) : ItemPtr :=
  match xs[j]? with
  | some y => ItemPtr.item y
  | none => ItemPtr.listEnd l

/-- The position after `j` in round-robin order over `len` items: the sentinel (position
`len`) and the last item are followed by the first item. -/
def nextPos (len j : Nat) : Nat := if j + 1 < len then j + 1 else 0

/-- Modelled from the spec: the macro `portRESET_READY_PRIORITY(uxPriority, bitmap)` used by
`vDebugResetReadyPriority` is not defined in the sources.  It clears bit `uxPriority`, as
`taskRESET_READY_PRIORITY` of `5.支持多优先级/demo2.c` does with
`bitmap &= ~(1UL << priority)`. -/
def portRESET_READY_PRIORITY (uxPriority bitmap : Nat) : Nat :=
  bitmap &&& (WORD - 1 - (1 <<< uxPriority) % WORD)

/-- The situation of a task `c` that has to sleep for `r` more ticks and is the only
delayed task: its wake time is `r` ticks ahead modulo 2^32, it sits alone in the normal
list when that sum does not wrap and alone in the overflow list when it does, the
cursor equals its wake time and the ready list is empty. -/
def Sleeping (c r : Nat) (s : State) : Prop :=
  s.xTickCount < WORD ∧ r < WORD ∧
  (s.mem c).xWakeTime = (s.xTickCount + r) % WORD ∧
  (s.mem c).bReady = 0 ∧ (s.mem c).pxNext = none ∧
  s.xNextTaskUnblockTime = (s.mem c).xWakeTime ∧
  s.pxReadyList.pxHead = none ∧
  ((s.xTickCount + r < WORD ∧ s.pxDelayedTaskList.pxHead = some c ∧
      s.pxOverflowDelayedTaskList.pxHead = none) ∨
    (WORD ≤ s.xTickCount + r ∧ s.pxOverflowDelayedTaskList.pxHead = some c ∧
      s.pxDelayedTaskList.pxHead = none))

/-- The function `vDebugResetReadyPriority(uxPriority)` of `demo4.c`.  The misspelt names
`listCURREBT_LIST_LENGTH` and `pxReadyTaskLists` of the source are read as
`listCURRENT_LIST_LENGTH` (the field `uxNumberOfItems`) and `pxReadyTasksLists`; the shift
`1UL << uxPriority` inside `portRESET_READY_PRIORITY` is undefined from 32 on. -/
def vDebugResetReadyPriority (st : SchedState) (uxPriority : Nat) : Outcome SchedState :=
  let st1 := { st with g_priority_reset_count := (st.g_priority_reset_count + 1) % WORD }
  if (st1.heap.lists uxPriority).uxNumberOfItems = 0 then
    if uxPriority < 32 then
      Outcome.done
        { st1 with uxTopReadyPriority :=
            portRESET_READY_PRIORITY uxPriority st1.uxTopReadyPriority }
    else Outcome.undefined
  else Outcome.done st1

/-! ## Well-formed circular lists -/

/-- `Path f a xs z`: following the link `f` from `a` visits the items `xs` in order and
then arrives at `z`. -/
def Path (f : ItemPtr → Option ItemPtr) : ItemPtr → List Nat → ItemPtr → Prop
  | a, [], z => f a = some z
  | a, x :: xs, z => f a = some (ItemPtr.item x) ∧ Path f (ItemPtr.item x) xs z

/-- The `pxNext` link of a heap. -/
def nextOf (heap : ListHeap) : ItemPtr → Option ItemPtr := fun p => (readItem heap p).pxNext

/-- The `pxPrevious` link of a heap. -/
def prevOf (heap : ListHeap) : ItemPtr → Option ItemPtr :=
  fun p => (readItem heap p).pxPrevious

/-- The first node of a walk through the items `xs` that ends at `z`. -/
def firstNode : List Nat → ItemPtr → ItemPtr
  | [], z => z
  | x :: _, _ => ItemPtr.item x

/-- The last node of a walk that starts at `a` and goes through the items `xs`. -/
def lastNode : ItemPtr → List Nat → ItemPtr
  | a, [] => a
  | _, x :: xs => lastNode (ItemPtr.item x) xs

/-- `RingPrev heap l xs`: following `pxPrevious` from the sentinel of list `l` visits the
items `xs` in reverse order and then arrives at the sentinel again. -/
def RingPrev (heap : ListHeap) (l : Nat) (xs : List Nat) : Prop :=
  Path (prevOf heap) (ItemPtr.listEnd l) xs.reverse (ItemPtr.listEnd l)

/-- A well-formed list: the items `xs` are distinct, and they form the ring of list `l`
both along `pxNext` and, in reverse order, along `pxPrevious`. -/
def WellFormed (heap : ListHeap) (l : Nat) (xs : List Nat) : Prop :=
  xs.Nodup ∧ Ring heap l xs ∧ RingPrev heap l xs

/-- Follow the link `f` for `k` steps. -/
def walk (f : ItemPtr → Option ItemPtr) : Nat → ItemPtr → Option ItemPtr
  | 0, a => some a
  | k + 1, a =>
    match f a with
    | none => none
    | some b => walk f k b

/-- A call on a list item: `vListInitialiseItem(&item)` or `vListInsertEnd(&list, &item)`. -/
inductive ListOp where
  | initItem : Nat → ListOp
  | insertEnd : Nat → ListOp
  deriving DecidableEq, Repr

/-- Run a sequence of item calls on list `l`, stopping at the first call that does not
return. -/
def runOps (l : Nat) : List ListOp → ListHeap → Outcome ListHeap
  | [], heap => Outcome.done heap
  | ListOp.initItem i :: ops, heap => runOps l ops (vListInitialiseItem heap (ItemPtr.item i))
  | ListOp.insertEnd i :: ops, heap =>
    match vListInsertEnd heap l (ItemPtr.item i) with
    | Outcome.done h => runOps l ops h
    | Outcome.nullDeref => Outcome.nullDeref
    | Outcome.outOfFuel => Outcome.outOfFuel
    | Outcome.undefined => Outcome.undefined

/-- The items inserted by a sequence of calls, in call order. -/
def insertedItems : List ListOp → List Nat
  | [] => []
  | ListOp.initItem _ :: ops => insertedItems ops
  | ListOp.insertEnd i :: ops => i :: insertedItems ops

/-- The items initialised by a sequence of calls. -/
def initialisedItems : List ListOp → List Nat
  | [] => []
  | ListOp.initItem i :: ops => i :: initialisedItems ops
  | ListOp.insertEnd _ :: ops => initialisedItems ops

/-- A sequence of calls on distinct items, given the items `ys` already in the list: no
item is inserted twice and no item is initialised again once it is in the list. -/
def ValidOps : List Nat → List ListOp → Prop
  | _, [] => True
  | ys, ListOp.initItem i :: ops => i ∉ ys ∧ ValidOps ys ops
  | ys, ListOp.insertEnd i :: ops => i ∉ ys ∧ ValidOps (ys ++ [i]) ops

/-- The insertions of `main` of `demo5.c` as written: `taskList` is list 0, the tasks
LED_Task, UART_Task, SPI_Task and TINER_Task are the owners 1 to 4 (all of priority 1),
`ListItem1 .. ListItem4` are the items 1 to 4.  After the four `vListInitialiseItem`
calls and the assignments of `xItemValue` and `pvOwner`, `main` calls `vListInsertEnd`
with `&ListItem1`, `&ListItem2`, `&ListItem3` and again `&ListItem3`. -/
def demo5_main : Outcome ListHeap :=
  let h0 := vListInitialise emptyHeap 0
  let h1 := vListInitialiseItem h0 (ItemPtr.item 1)
  let h2 := vListInitialiseItem h1 (ItemPtr.item 2)
  let h3 := vListInitialiseItem h2 (ItemPtr.item 3)
  let h4 := vListInitialiseItem h3 (ItemPtr.item 4)
  let setOwner := fun (h : ListHeap) (i : Nat) =>
    writeItem h (ItemPtr.item i)
      { readItem h (ItemPtr.item i) with xItemValue := 1, pvOwner := some i }
  let h5 := setOwner (setOwner (setOwner (setOwner h4 1) 2) 3) 4
  runOps 0 [ListOp.insertEnd 1, ListOp.insertEnd 2, ListOp.insertEnd 3, ListOp.insertEnd 3] h5

/-- The calls of a small run: three items are initialised, the first two are inserted. -/
def opsExample : List ListOp :=
  [ListOp.initItem 1, ListOp.initItem 2, ListOp.initItem 3,
   ListOp.insertEnd 1, ListOp.insertEnd 2]

/-- List 2 of Scenario C after one cursor advance: the items 1 and 2, cursor on item 1. -/
def heapCursorMoved : ListHeap :=
  ((vDebugGetNextEntry scenarioC.heap 2).getD (scenarioC.heap, none)).1

/-- The heap `main` of `demo5.c` is left with after its four insertions. -/
def demo5_heap : ListHeap := demo5_main.getD emptyHeap

/-- Decision procedure for `Path` on a concrete sequence. -/
instance Path.instDecidable (f : ItemPtr → Option ItemPtr) :
    ∀ (a : ItemPtr) (xs : List Nat) (z : ItemPtr), Decidable (Path f a xs z)
  | a, [], z => inferInstanceAs (Decidable (f a = some z))
  | a, x :: xs, z =>
    have := Path.instDecidable f (ItemPtr.item x) xs z
    inferInstanceAs (Decidable (f a = some (ItemPtr.item x) ∧ Path f (ItemPtr.item x) xs z))

instance RingPrev.instDecidable (heap : ListHeap) (l : Nat) (xs : List Nat) :
    Decidable (RingPrev heap l xs) :=
  inferInstanceAs (Decidable (Path (prevOf heap) (ItemPtr.listEnd l) xs.reverse
    (ItemPtr.listEnd l)))

instance WellFormed.instDecidable (heap : ListHeap) (l : Nat) (xs : List Nat) :
    Decidable (WellFormed heap l xs) :=
  inferInstanceAs (Decidable (xs.Nodup ∧ Ring heap l xs ∧ RingPrev heap l xs))

/-- Decision procedure for `ValidOps` on a concrete sequence of calls. -/
instance ValidOps.instDecidable : ∀ (ys : List Nat) (ops : List ListOp),
    Decidable (ValidOps ys ops)
  | _, [] => inferInstanceAs (Decidable True)
  | ys, ListOp.initItem i :: ops =>
    have := ValidOps.instDecidable ys ops
    inferInstanceAs (Decidable (i ∉ ys ∧ ValidOps ys ops))
  | ys, ListOp.insertEnd i :: ops =>
    have := ValidOps.instDecidable (ys ++ [i]) ops
    inferInstanceAs (Decidable (i ∉ ys ∧ ValidOps (ys ++ [i]) ops))

/-- Advance the cursor of list `l` `n` times with `vDebugGetNextEntry`, collecting the
owners returned, in call order; stops at the first call that does not return. -/
def advances (l : Nat) : Nat → ListHeap → Outcome (ListHeap × List (Option Nat))
  | 0, heap => Outcome.done (heap, [])
  | n + 1, heap =>
    match vDebugGetNextEntry heap l with
    | Outcome.done (h1, owner) =>
      match advances l n h1 with
      | Outcome.done (h2, owners) => Outcome.done (h2, owner :: owners)
      | Outcome.nullDeref => Outcome.nullDeref
      | Outcome.outOfFuel => Outcome.outOfFuel
      | Outcome.undefined => Outcome.undefined
    | Outcome.nullDeref => Outcome.nullDeref
    | Outcome.outOfFuel => Outcome.outOfFuel
    | Outcome.undefined => Outcome.undefined

/-- One round of the polling loop of `demostrateIndexUsage` of `demo5.c`: advance
`pxIndex`, skip the sentinel, read the owner and print its name (which dereferences the
owner).  Returns the heap and the task whose name is printed. -/
def demostrateIndexUsage_step (heap : ListHeap) (pxList : Nat) : Outcome (ListHeap × Nat) :=
  match (heap.lists pxList).pxIndex with
  | none => Outcome.nullDeref
  | some i0 =>
    let h1 := setIndex heap pxList (readItem heap i0).pxNext
    match (h1.lists pxList).pxIndex with
    | none => Outcome.nullDeref
    | some i1 =>
      let h2 :=
        if i1 = ItemPtr.listEnd pxList then setIndex h1 pxList (readItem h1 i1).pxNext
        else h1
      match (h2.lists pxList).pxIndex with
      | none => Outcome.nullDeref
      | some i2 =>
        match (readItem h2 i2).pvOwner with
        | none => Outcome.nullDeref
        | some currentTask => Outcome.done (h2, currentTask)

/-- The owner of the item at position `p` of the sequence `xs`. -/
def ownerAt (heap : ListHeap) (xs : List Nat) (p : Nat) : Option Nat :=
  match xs[p]? with
  | some x => (heap.items x).pvOwner
  | none => none

/-- A heap in which every item `i` is owned by the task `100 + i`. -/
def heapOwned : ListHeap :=
  { lists := fun _ => default,
    items := fun i => { (default : ListItem_t) with pvOwner := some (100 + i) } }

/-- The error kinds of the spec (section 7). -/
inductive ListError where
  | NotInContainer
  | NoReadyTask
  deriving DecidableEq, Repr

/-- Modelled from the spec: the function `uxListRemove` is called in `demo3.c` but not
defined in the sources.  The spec (`remove`) says: it unlinks the node from whatever
list its `container` points to, decrements that list's `count`, clears `node.container`
and returns the resulting count; it fails with `NotInContainer` if `container` is already
empty.  The spec says nothing about the cursor, which is left alone. -/
def uxListRemove (heap : ListHeap) (pxItemToRemove : ItemPtr) :
    Outcome (Except ListError (ListHeap × Nat)) :=
  match (readItem heap pxItemToRemove).pxContainer with
  | none => Outcome.done (Except.error ListError.NotInContainer)
  | some l =>
    match (readItem heap pxItemToRemove).pxNext with
    | none => Outcome.nullDeref
    | some nx =>
      let h1 := writeItem heap nx
        { readItem heap nx with pxPrevious := (readItem heap pxItemToRemove).pxPrevious }
      match (readItem h1 pxItemToRemove).pxPrevious with
      | none => Outcome.nullDeref
      | some pv =>
        let h2 := writeItem h1 pv
          { readItem h1 pv with pxNext := (readItem h1 pxItemToRemove).pxNext }
        let count := ((h2.lists l).uxNumberOfItems + WORD - 1) % WORD
        let h3 : ListHeap :=
          { h2 with lists := fun k =>
              if k = l then { h2.lists l with uxNumberOfItems := count } else h2.lists k }
        let h4 := writeItem h3 pxItemToRemove
          { readItem h3 pxItemToRemove with pxContainer := none }
        Outcome.done (Except.ok (h4, count))

/-- The list 10, 20, 30 built by three end insertions on list 0 of `heapOwned`. -/
def heapThree : ListHeap :=
  (runOps 0 ([10, 20, 30].map ListOp.insertEnd) (vListInitialise heapOwned 0)).getD heapOwned

/-- The `for` loop of the generic form of `portGET_HIGHEST_PRIORITY` in `demo4.c`: while
`(uxReadyPriorities & portTOP_BIT_OF_BYTE) == 0` it shifts `uxReadyPriorities` left by one
and increments `uxBitNumber`.  The macro `portTOP_BIT_OF_BYTE` is not defined in the sources
and is the parameter `top`.  Returns the final `(uxReadyPriorities, uxBitNumber)`. -/
def portGET_HIGHEST_PRIORITY_generic_loop (top : Nat) : Nat → Nat → Nat → Outcome (Nat × Nat)
  | 0, _, _ => Outcome.outOfFuel
  | fuel + 1, uxReadyPriorities, uxBitNumber =>
    if uxReadyPriorities &&& top = 0 then
      portGET_HIGHEST_PRIORITY_generic_loop top fuel ((uxReadyPriorities <<< 1) % WORD)
        ((uxBitNumber + 1) % WORD)
    else Outcome.done (uxReadyPriorities, uxBitNumber)

/-- The macro `portGET_HIGHEST_PRIORITY(uxTopPriority, uxReadyPriorities)` in its generic
form.  It assigns to both of its arguments: the loop shifts `uxReadyPriorities` itself, and
`uxTopPriority = (configMAX_PRIORITIES - 1UL) - uxBitNumber` afterwards.  The constant
`configMAX_PRIORITIES` is not defined in the sources and is a parameter.  Returns
`(uxTopPriority, uxReadyPriorities)`. -/
def portGET_HIGHEST_PRIORITY_generic (configMAX_PRIORITIES top fuel uxReadyPriorities : Nat) :
    Outcome (Nat × Nat) :=
  match portGET_HIGHEST_PRIORITY_generic_loop top fuel uxReadyPriorities 0 with
  | Outcome.done (b, uxBitNumber) =>
    Outcome.done (((configMAX_PRIORITIES + WORD - 1) % WORD + WORD - uxBitNumber) % WORD, b)
  | Outcome.nullDeref => Outcome.nullDeref
  | Outcome.outOfFuel => Outcome.outOfFuel
  | Outcome.undefined => Outcome.undefined

/-- The function `vDebugTaskSelect` of `demo4.c` with the generic form of
`portGET_HIGHEST_PRIORITY`.  The macro is applied to the global `uxTopReadyPriority`, so
its shifts are made on the global. -/
def vDebugTaskSelect_generic (configMAX_PRIORITIES top fuel : Nat) (st : SchedState) :
    Outcome SchedState :=
  let st1 := { st with g_task_select_count := (st.g_task_select_count + 1) % WORD }
  match portGET_HIGHEST_PRIORITY_generic configMAX_PRIORITIES top fuel st1.uxTopReadyPriority with
  | Outcome.done (uxTopPriority, bitmap) =>
    let st1b := { st1 with uxTopReadyPriority := bitmap }
    let st2 :=
      if st1b.g_trace_index < 1000 then
        { st1b with
            g_current_priority_trace := fun k =>
              if k = st1b.g_trace_index then uxTopPriority % 256
              else st1b.g_current_priority_trace k,
            g_trace_index := st1b.g_trace_index + 1 }
      else st1b
    match listGetOwnerOfNextEntry st2.heap uxTopPriority with
    | Outcome.done (heap, tcb) => Outcome.done { st2 with heap := heap, pxCurrentTCB := tcb }
    | Outcome.nullDeref => Outcome.nullDeref
    | Outcome.outOfFuel => Outcome.outOfFuel
    | Outcome.undefined => Outcome.undefined
  | Outcome.nullDeref => Outcome.nullDeref
  | Outcome.outOfFuel => Outcome.outOfFuel
  | Outcome.undefined => Outcome.undefined

/-- The last tick before the counter wraps: `xTickCount = 0xFFFFFFFF`, all lists empty,
task 0 running, `xNextTaskUnblockTime = UINT32_MAX`. -/
def stateMaxTick : State :=
  { xTickCount := 4294967295, xNextTaskUnblockTime := 4294967295,
    pxDelayedTaskList := { pxHead := none }, pxOverflowDelayedTaskList := { pxHead := none },
    pxCurrentTask := some 0, pxReadyList := { pxHead := none },
    mem := memOf [mkTask "T" 0 none 1] }

/-- Task 0 runs at `xTickCount = 10`; task 1 (wake time 20) is delayed in the normal list,
tasks 2 and 3 wait in the ready list. -/
def stateZeroDelay : State :=
  { xTickCount := 10, xNextTaskUnblockTime := 20,
    pxDelayedTaskList := { pxHead := some 1 }, pxOverflowDelayedTaskList := { pxHead := none },
    pxCurrentTask := some 0, pxReadyList := { pxHead := some 2 },
    mem := memOf [mkTask "T0" 0 none 1, mkTask "T1" 20 none 0, mkTask "T2" 3 (some 3) 1,
                  mkTask "T3" 5 none 1] }

/-- The smallest `xWakeTime` over the tasks `l`, if there is any task. -/
def smallestWake (mem : Mem) (l : List Nat) : Option Nat := (wakeTimes mem l).min?

/-- Tick 40: task 1 ("A", wake time 100) is alone in the normal delayed list, the overflow
and ready lists are empty, the cursor is 100 and task 0 ("B") runs. -/
def stateTwoLists : State :=
  { xTickCount := 40, xNextTaskUnblockTime := 100,
    pxDelayedTaskList := { pxHead := some 1 }, pxOverflowDelayedTaskList := { pxHead := none },
    pxCurrentTask := some 0, pxReadyList := { pxHead := none },
    mem := memOf [mkTask "B" 0 none 1, mkTask "A" 100 none 0] }

/-- What the recomputation of the cursor establishes: `xNextTaskUnblockTime` is the
smallest wake time of the normal delayed list when that list is not empty (and sorted);
only when the normal list is empty is it the smallest wake time of the overflow list,
and `UINT32_MAX` when both lists are empty. -/
def CursorHeadFirst (s : State) : Prop :=
  ∀ ln lo, IsList s.mem s.pxDelayedTaskList.pxHead ln →
    IsList s.mem s.pxOverflowDelayedTaskList.pxHead lo →
    (wakeTimes s.mem ln).Sorted (· ≤ ·) → (wakeTimes s.mem lo).Sorted (· ≤ ·) →
    (ln ≠ [] → smallestWake s.mem ln = some s.xNextTaskUnblockTime) ∧
    (ln = [] → lo ≠ [] → smallestWake s.mem lo = some s.xNextTaskUnblockTime) ∧
    (ln = [] → lo = [] → s.xNextTaskUnblockTime = UINT32_MAX)

/-! ## `3.临界段/demo1.c`: the bank transfer -/

/-- The constant `INT32_MAX`. -/
def INT32_MAX : Int := 2147483647

/-- The constant `INT32_MIN`. -/
def INT32_MIN : Int := -2147483648

/-- The value an `int32_t` holds after an arithmetic result `x` is stored in it on the
32-bit two's complement target: `x` itself when it fits, `x` modulo 2^32 brought back into
the range otherwise (ISO C leaves the overflowing case undefined). -/
def wrapInt32 (x : Int) : Int := (x + 2147483648) % 4294967296 - 2147483648

/-- The struct `BankAccount_t` of `demo1.c`. -/
structure BankAccount_t where
  account_id : Nat
  balance : Int
  owner_name : String
  transaction_count : Nat
  deriving DecidableEq, Repr, Inhabited

/-- The struct `BankStats_t` of `demo1.c`. -/
structure BankStats_t where
  total_transactions : Nat
  successful_transfers : Nat
  failed_transfers : Nat
  total_amount_moved : Int
  deriving DecidableEq, Repr, Inhabited

/-- The globals of `demo1.c`: the array `g_accounts[4]` and `g_bank_stats`. -/
structure BankState where
  g_accounts : Fin 4 → BankAccount_t
  g_bank_stats : BankStats_t

/-- The initial value of the globals of `demo1.c`. -/
def bankInitial : BankState :=
  { g_accounts := fun i =>
      match i with
      | 0 => { account_id := 1001, balance := 10000, owner_name := "张三", transaction_count := 0 }
      | 1 => { account_id := 1002, balance := 5000, owner_name := "李四", transaction_count := 0 }
      | 2 => { account_id := 1003, balance := 8000, owner_name := "王五", transaction_count := 0 }
      | 3 => { account_id := 1004, balance := 15000, owner_name := "赵六", transaction_count := 0 },
    g_bank_stats := { total_transactions := 0, successful_transfers := 0,
                      failed_transfers := 0, total_amount_moved := 0 } }

/-- The function `find_account(account_id)`: the index of the first of the four accounts
with this id, `NULL` when there is none. -/
def find_account (g : Fin 4 → BankAccount_t) (account_id : Nat) : Option (Fin 4) :=
  (List.finRange 4).find? (fun i => decide ((g i).account_id = account_id))

/-- The assignment to one element of `g_accounts`. -/
def setAccount (g : Fin 4 → BankAccount_t) (i : Fin 4) (v : BankAccount_t) :
    Fin 4 → BankAccount_t :=
  fun k => if k = i then v else g k

/-- The function `safe_transfer_money(from_id, to_id, amount)` of `demo1.c`; returns the
globals and the return value.  The critical section and the `printf` calls have no
effect on the globals. -/
def safe_transfer_money (st : BankState) (from_id to_id : Nat) (amount : Int) :
    BankState × Int :=
  if amount ≤ 0 ∨ from_id = to_id then (st, -1)
  else
    match find_account st.g_accounts from_id, find_account st.g_accounts to_id with
    | some from_account, some to_account =>
      if (st.g_accounts from_account).balance ≥ amount then
        let g1 := setAccount st.g_accounts from_account
          { st.g_accounts from_account with
              balance := wrapInt32 ((st.g_accounts from_account).balance - amount) }
        let g2 := setAccount g1 to_account
          { g1 to_account with balance := wrapInt32 ((g1 to_account).balance + amount) }
        let g3 := setAccount g2 from_account
          { g2 from_account with
              transaction_count := ((g2 from_account).transaction_count + 1) % WORD }
        let g4 := setAccount g3 to_account
          { g3 to_account with
              transaction_count := ((g3 to_account).transaction_count + 1) % WORD }
        ({ g_accounts := g4,
           g_bank_stats :=
             { st.g_bank_stats with
                 total_transactions := (st.g_bank_stats.total_transactions + 1) % WORD,
                 successful_transfers := (st.g_bank_stats.successful_transfers + 1) % WORD,
                 total_amount_moved :=
                   wrapInt32 (st.g_bank_stats.total_amount_moved + amount) } }, 0)
      else
        ({ st with
            g_bank_stats :=
              { st.g_bank_stats with
                  total_transactions := (st.g_bank_stats.total_transactions + 1) % WORD,
                  failed_transfers := (st.g_bank_stats.failed_transfers + 1) % WORD } }, -1)
    | _, _ => (st, -1)

/-- The sum of the balances of the four accounts. -/
def totalBalance (st : BankState) : Int :=
  (st.g_accounts 0).balance + (st.g_accounts 1).balance + (st.g_accounts 2).balance
    + (st.g_accounts 3).balance

/-- The initial accounts with the balance of account 1002 raised to `INT32_MAX`. -/
def bankFull : BankState :=
  { bankInitial with
      g_accounts := setAccount bankInitial.g_accounts 1
        { bankInitial.g_accounts 1 with balance := 2147483647 } }

/-! ## `3.临界段/demo2.c`: the ring buffer -/

/-- The constant `RING_BUFFER_SIZE`. -/
def RING_BUFFER_SIZE : Nat := 16

/-- The struct `DataPacket_t` of `demo2.c`. -/
structure DataPacket_t where
  sequence_number : Nat
  producer_id : Nat
  timestamp : Nat
  data : List Nat
  deriving DecidableEq, Repr, Inhabited

/-- The struct `RingBuffer_t` of `demo2.c`; `buffer` is indexed from 0 to 15. -/
structure RingBuffer_t where
  buffer : Nat → DataPacket_t
  head : Nat
  tail : Nat
  count : Nat
  total_written : Nat
  total_read : Nat
  write_failures : Nat
  read_failures : Nat
  max_usage : Nat

/-- The zero-initialised global `g_ring_buffer = {0}`. -/
def ringInitial : RingBuffer_t :=
  { buffer := fun _ => { sequence_number := 0, producer_id := 0, timestamp := 0,
                         data := [0, 0, 0, 0, 0, 0, 0, 0] },
    head := 0, tail := 0, count := 0, total_written := 0, total_read := 0,
    write_failures := 0, read_failures := 0, max_usage := 0 }

/-- The function `ring_buffer_write(packet)` of `demo2.c`; `packet = none` is the `NULL`
pointer.  Returns the global and the value handed back to the caller: `some v` for
`return v`, and `none` when control reaches the closing brace of the function, which
happens on every path through the critical section because the function has no
`return result` there.  An index outside `buffer` is undefined. -/
def ring_buffer_write (rb : RingBuffer_t) (packet : Option DataPacket_t) :
    Outcome (RingBuffer_t × Option Int) :=
  match packet with
  | none => Outcome.done (rb, some (-1))
  | some p =>
    if rb.count < RING_BUFFER_SIZE then
      if rb.head < RING_BUFFER_SIZE then
        let rb1 := { rb with buffer := fun k => if k = rb.head then p else rb.buffer k }
        let rb2 := { rb1 with head := ((rb1.head + 1) % RING_BUFFER_SIZE) % 65536 }
        let rb3 := { rb2 with count := (rb2.count + 1) % 65536 }
        let rb4 := { rb3 with total_written := (rb3.total_written + 1) % WORD }
        let rb5 := if rb4.count > rb4.max_usage then { rb4 with max_usage := rb4.count } else rb4
        Outcome.done (rb5, none)
      else Outcome.undefined
    else
      Outcome.done ({ rb with write_failures := (rb.write_failures + 1) % WORD }, none)

/-- The function `ring_buffer_read(packet)` of `demo2.c`; `packet` is what the destination
pointer points to before the call (`none` for `NULL`).  Returns the global, the
destination after the call and the return value. -/
def ring_buffer_read (rb : RingBuffer_t) (packet : Option DataPacket_t) :
    Outcome (RingBuffer_t × Option DataPacket_t × Int) :=
  match packet with
  | none => Outcome.done (rb, none, -1)
  | some old =>
    if rb.count > 0 then
      if rb.tail < RING_BUFFER_SIZE then
        let out := rb.buffer rb.tail
        let rb1 := { rb with tail := ((rb.tail + 1) % RING_BUFFER_SIZE) % 65536 }
        let rb2 := { rb1 with count := (rb1.count + 65536 - 1) % 65536 }
        let rb3 := { rb2 with total_read := (rb2.total_read + 1) % WORD }
        Outcome.done (rb3, some out, 0)
      else Outcome.undefined
    else
      Outcome.done ({ rb with read_failures := (rb.read_failures + 1) % WORD }, some old, -1)

/-- A call on the ring buffer: `ring_buffer_write(&p)` or `ring_buffer_write(NULL)`, or
`ring_buffer_read(&q)` with a destination `q`. -/
inductive RingOp where
  | write : Option DataPacket_t → RingOp
  | read : RingOp

/-- What a run of calls has done so far: the buffer, the packets stored by the writes that
stored one, and the packets delivered by the reads that returned 0, both in call
order. -/
structure RingRun where
  rb : RingBuffer_t
  written : List DataPacket_t
  delivered : List DataPacket_t

/-- One call of a run.  A write is successful when it took the branch that stores the
packet, which is the branch that increments `count`; a read is successful when it
returns 0. -/
def ringStep (r : RingRun) : RingOp → Outcome RingRun
  | RingOp.write packet =>
    match ring_buffer_write r.rb packet with
    | Outcome.done (rb1, _) =>
      match packet with
      | some p =>
        if rb1.count ≠ r.rb.count then
          Outcome.done { r with rb := rb1, written := r.written ++ [p] }
        else Outcome.done { r with rb := rb1 }
      | none => Outcome.done { r with rb := rb1 }
    | Outcome.nullDeref => Outcome.nullDeref
    | Outcome.outOfFuel => Outcome.outOfFuel
    | Outcome.undefined => Outcome.undefined
  | RingOp.read =>
    match ring_buffer_read r.rb (some default) with
    | Outcome.done (rb1, out, ret) =>
      match out with
      | some q =>
        if ret = 0 then Outcome.done { r with rb := rb1, delivered := r.delivered ++ [q] }
        else Outcome.done { r with rb := rb1 }
      | none => Outcome.done { r with rb := rb1 }
    | Outcome.nullDeref => Outcome.nullDeref
    | Outcome.outOfFuel => Outcome.outOfFuel
    | Outcome.undefined => Outcome.undefined

/-- Run a sequence of calls, stopping at the first one that does not return. -/
def ringRun : List RingOp → RingRun → Outcome RingRun
  | [], r => Outcome.done r
  | op :: ops, r =>
    match ringStep r op with
    | Outcome.done r1 => ringRun ops r1
    | Outcome.nullDeref => Outcome.nullDeref
    | Outcome.outOfFuel => Outcome.outOfFuel
    | Outcome.undefined => Outcome.undefined

/-- A packet with the given sequence number. -/
def packetNo (n : Nat) : DataPacket_t :=
  { sequence_number := n, producer_id := 1, timestamp := 0, data := [0, 0, 0, 0, 0, 0, 0, 0] }

/-- The buffer after sixteen writes of the packets 1 to 16. -/
def ringFull : RingBuffer_t :=
  ((ringRun ((List.range 16).map (fun n => RingOp.write (some (packetNo (n + 1)))))
      { rb := ringInitial, written := [], delivered := [] }).getD
    { rb := ringInitial, written := [], delivered := [] }).rb

/-- One call `safe_transfer_money(from_id, to_id, amount)`. -/
structure TransferCall where
  from_id : Nat
  to_id : Nat
  amount : Int

/-- The globals of `demo1.c` after a sequence of `safe_transfer_money` calls, the only
code that writes a balance. -/
def runTransfers : List TransferCall → BankState → BankState
  | [], st => st
  | c :: cs, st => runTransfers cs (safe_transfer_money st c.from_id c.to_id c.amount).1

/-- The globals the program has after the calls `calls`, starting from the initial accounts. -/
def bankAfter (calls : List TransferCall) : BankState := runTransfers calls bankInitial

/-- No balance is negative and the sum of the balances fits in an `int32_t`. -/
def BankSound (st : BankState) : Prop :=
  (∀ k, 0 ≤ (st.g_accounts k).balance) ∧ totalBalance st ≤ INT32_MAX

/-- The `for` loop of `demostrateIndexUsage` of `demo5.c` run for `n` rounds; returns the
heap and the tasks whose names the rounds print, in order.  Stops at the first round
that does not return. -/
def demostrateIndexUsage_loop (pxList : Nat) : Nat → ListHeap → Outcome (ListHeap × List Nat)
  | 0, heap => Outcome.done (heap, [])
  | n + 1, heap =>
    match demostrateIndexUsage_step heap pxList with
    | Outcome.done (h1, currentTask) =>
      match demostrateIndexUsage_loop pxList n h1 with
      | Outcome.done (h2, tasks) => Outcome.done (h2, currentTask :: tasks)
      | Outcome.nullDeref => Outcome.nullDeref
      | Outcome.outOfFuel => Outcome.outOfFuel
      | Outcome.undefined => Outcome.undefined
    | Outcome.nullDeref => Outcome.nullDeref
    | Outcome.outOfFuel => Outcome.outOfFuel
    | Outcome.undefined => Outcome.undefined

/-- The function `demostrateIndexUsage(pxList)` of `demo5.c`: six rounds of the polling
loop. -/
def demostrateIndexUsage (heap : ListHeap) (pxList : Nat) : Outcome (ListHeap × List Nat) :=
  demostrateIndexUsage_loop pxList 6 heap

/-! ## Theorems: memory updates and the list primitives -/

@[simp] theorem setNext_wake (mem : Mem) (p : Nat) (v : Option Nat) (a : Nat) :
    (setNext mem p v a).xWakeTime = (mem a).xWakeTime := by
  unfold setNext; split <;> simp_all

@[simp] theorem setNext_ready (mem : Mem) (p : Nat) (v : Option Nat) (a : Nat) :
    (setNext mem p v a).bReady = (mem a).bReady := by
  unfold setNext; split <;> simp_all

@[simp] theorem setNext_next_self (mem : Mem) (p : Nat) (v : Option Nat) :
    (setNext mem p v p).pxNext = v := by
  simp [setNext]

theorem setNext_other (mem : Mem) (p : Nat) (v : Option Nat) (a : Nat) (h : a ≠ p) :
    setNext mem p v a = mem a := by
  simp [setNext, h]

@[simp] theorem setReady_wake (mem : Mem) (p : Nat) (v : Int) (a : Nat) :
    (setReady mem p v a).xWakeTime = (mem a).xWakeTime := by
  unfold setReady; split <;> simp_all

@[simp] theorem setReady_next (mem : Mem) (p : Nat) (v : Int) (a : Nat) :
    (setReady mem p v a).pxNext = (mem a).pxNext := by
  unfold setReady; split <;> simp_all

@[simp] theorem setReady_ready_self (mem : Mem) (p : Nat) (v : Int) :
    (setReady mem p v p).bReady = v := by
  simp [setReady]

theorem setReady_other (mem : Mem) (p : Nat) (v : Int) (a : Nat) (h : a ≠ p) :
    setReady mem p v a = mem a := by
  simp [setReady, h]

@[simp] theorem setWake_next (mem : Mem) (p : Nat) (v : Nat) (a : Nat) :
    (setWake mem p v a).pxNext = (mem a).pxNext := by
  unfold setWake; split <;> simp_all

@[simp] theorem setWake_ready (mem : Mem) (p : Nat) (v : Nat) (a : Nat) :
    (setWake mem p v a).bReady = (mem a).bReady := by
  unfold setWake; split <;> simp_all

@[simp] theorem setWake_wake_self (mem : Mem) (p : Nat) (v : Nat) :
    (setWake mem p v p).xWakeTime = v := by
  simp [setWake]

theorem setWake_other (mem : Mem) (p : Nat) (v : Nat) (a : Nat) (h : a ≠ p) :
    setWake mem p v a = mem a := by
  simp [setWake, h]

/-- Inserting into an empty list makes the task the only element. -/
theorem vListInsert_empty (fuel : Nat) (mem : Mem) (t : Nat) :
    vListInsert fuel mem { pxHead := none } t
      = Outcome.done (setNext mem t none, { pxHead := some t }) := rfl

/-- Inserting a task whose key is below the head's key puts it in front. -/
theorem vListInsert_front (fuel : Nat) (mem : Mem) (c t : Nat)
    (h : (mem t).xWakeTime < (mem c).xWakeTime) :
    vListInsert fuel mem { pxHead := some c } t
      = Outcome.done (setNext mem t (some c), { pxHead := some t }) := by
  simp [vListInsert, h]

/-- Removing the head of a list needs no loop iteration. -/
theorem vListRemove_head (fuel : Nat) (mem : Mem) (l : List_t) (h : Nat)
    (hh : l.pxHead = some h) :
    vListRemove (fuel + 1) mem l h
      = Outcome.done (setNext mem h none, { pxHead := (mem h).pxNext }) := by
  simp [vListRemove, vListRemove_loop, hh]

/-- With fuel for one loop test `vTaskSwitchContext` returns: the head of the ready list
becomes the current task and leaves the list. -/
theorem vTaskSwitchContext_eq (fuel : Nat) (s : State) :
    vTaskSwitchContext (fuel + 1) s = Outcome.done
      (match s.pxReadyList.pxHead with
       | some h => { s with pxCurrentTask := some h, mem := setNext s.mem h none,
                            pxReadyList := { pxHead := (s.mem h).pxNext } }
       | none => { s with pxCurrentTask := none }) := by
  unfold vTaskSwitchContext
  cases hh : s.pxReadyList.pxHead with
  | none => rfl
  | some h => simp [vListRemove_head fuel s.mem s.pxReadyList h hh]

/-! ## Sorted insertion (`vListInsert`) -/

/-- One test of the loop of `vListInsert` at a non-`NULL` position. -/
theorem vListInsert_loop_step (fuel : Nat) (mem : Mem) (t c : Nat) (prev : Option Nat) :
    vListInsert_loop (fuel + 1) mem t (some c) prev
      = if (mem c).xWakeTime ≤ (mem t).xWakeTime then
          vListInsert_loop fuel mem t (mem c).pxNext (mem c).pxNext
        else Outcome.done (some c, prev) := rfl

/-- The loop of `vListInsert` on a list all of whose keys are at most the new key runs off
the end of the list, and because `pxPrev` is assigned after `pxCurrent` has been advanced
it ends with `pxPrev = NULL` as soon as it has iterated once. -/
theorem vListInsert_loop_all_le (mem : Mem) (t : Nat) :
    ∀ (l : List Nat) (cur prev : Option Nat) (extra : Nat), IsList mem cur l →
      (∀ x ∈ l, (mem x).xWakeTime ≤ (mem t).xWakeTime) →
      vListInsert_loop (extra + l.length + 1) mem t cur prev
        = Outcome.done (none, if l = [] then prev else none) := by
  intro l
  induction l with
  | nil =>
    intro cur prev extra hl _
    simp only [IsList] at hl
    subst hl
    simp [vListInsert_loop]
  | cons a l ih =>
    intro cur prev extra hl hle
    obtain ⟨hc, hrest⟩ := hl
    subst hc
    have ha : (mem a).xWakeTime ≤ (mem t).xWakeTime := hle a (by simp)
    have h1 : extra + (a :: l).length + 1 = (extra + l.length + 1) + 1 := by
      simp only [List.length_cons]; omega
    rw [h1]
    rw [vListInsert_loop_step, if_pos ha]
    rw [ih _ _ extra hrest (fun x hx => hle x (by simp [hx]))]
    by_cases hnil : l = []
    · simp only [hnil, IsList] at hrest
      simp [hnil, hrest]
    · simp [hnil]

/-- Whenever the new task belongs at the tail of a non-empty list (every key is at most
its own), `vListInsert` dereferences `NULL` at `pxPrev->pxNext = pxTask`. -/
theorem vListInsert_all_le_faults (mem : Mem) (h : Option Nat) (l : List Nat) (t extra : Nat)
    (hl : IsList mem h l) (hne : l ≠ [])
    (hle : ∀ x ∈ l, (mem x).xWakeTime ≤ (mem t).xWakeTime) :
    vListInsert (extra + l.length + 1) mem { pxHead := h } t = Outcome.nullDeref := by
  cases l with
  | nil => exact absurd rfl hne
  | cons a l =>
    have hl2 := hl
    obtain ⟨hc, _⟩ := hl
    subst hc
    have ha : ¬ (mem t).xWakeTime < (mem a).xWakeTime := by
      have := hle a (by simp)
      omega
    simp only [vListInsert, ha, if_false]
    rw [vListInsert_loop_all_le mem t (a :: l) (some a) none extra hl2 hle]
    simp

/-- Putting `vListInsert_all_le_faults` to work on the one-element list of `memTail`. -/
theorem vListInsert_all_le_faults_witness :
    vListInsert (0 + [0].length + 1) memTail { pxHead := some 0 } 1 = Outcome.nullDeref :=
  vListInsert_all_le_faults memTail (some 0) [0] 1 0 (by decide) (by decide) (by decide)

/-- C1 (code defect).  The list holding only task A (wake time 3) is sorted and task B
(wake time 5) is not in it, yet `vListInsert` does not produce the sorted list A, B: for
every amount of fuel that lets the loop finish it stops with a `NULL` dereference. -/
theorem vListInsert_sorted_tail_faults :
    IsList memTail (some 0) [0] ∧ (wakeTimes memTail [0]).Sorted (· ≤ ·) ∧ 1 ∉ [0] ∧
      ∀ fuel, vListInsert (fuel + 2) memTail { pxHead := some 0 } 1 = Outcome.nullDeref := by
  refine ⟨by decide, by decide, by decide, fun fuel => rfl⟩

/-- Inserting B (5) into the sorted list A (3), C (7) returns, but B is linked behind C
and to itself: the walk from the head is A, C, B, B, ... and never reaches `NULL`. -/
theorem vListInsert_middle_cycles :
    ∃ mem l, vListInsert 3 memMiddle { pxHead := some 0 } 2 = Outcome.done (mem, l) ∧
      l.pxHead = some 0 ∧ (mem 0).pxNext = some 1 ∧ (mem 1).pxNext = some 2 ∧
      (mem 2).pxNext = some 2 :=
  ⟨_, _, rfl, by decide⟩

/-- C2 (code defect).  Scenario A: inserting the keys 5 and 3 gives the order 3, 5, but
the third insertion (the second key 5, which belongs behind the first) stops with a
`NULL` dereference instead of giving 3, 5 (first), 5 (second). -/
theorem vListInsert_scenarioA_faults :
    (∃ mem l, insertAll 3 memScenarioA { pxHead := none } [0, 1] = Outcome.done (mem, l) ∧
        IsList mem l.pxHead [1, 0] ∧ wakeTimes mem [1, 0] = [3, 5]) ∧
      ∀ fuel, insertAll (fuel + 3) memScenarioA { pxHead := none } [0, 1, 2]
        = Outcome.nullDeref := by
  refine ⟨⟨_, _, rfl, by decide, by decide⟩, fun fuel => rfl⟩

/-! ## Fields that the list primitives leave alone -/

/-- The function `vListInsert` writes `pxNext` fields only. -/
theorem vListInsert_fields (fuel : Nat) (mem mem1 : Mem) (l l1 : List_t) (t : Nat)
    (h : vListInsert fuel mem l t = Outcome.done (mem1, l1)) (a : Nat) :
    (mem1 a).xWakeTime = (mem a).xWakeTime ∧ (mem1 a).bReady = (mem a).bReady := by
  unfold vListInsert at h
  split at h
  · cases h; simp
  · split at h
    · cases h; simp
    · split at h
      · split at h
        · cases h
        · cases h; simp
      · cases h
      · cases h
      · cases h

/-- The function `vListRemove` writes `pxNext` fields only. -/
theorem vListRemove_fields (fuel : Nat) (mem mem1 : Mem) (l l1 : List_t) (t : Nat)
    (h : vListRemove fuel mem l t = Outcome.done (mem1, l1)) (a : Nat) :
    (mem1 a).xWakeTime = (mem a).xWakeTime ∧ (mem1 a).bReady = (mem a).bReady := by
  unfold vListRemove at h
  split at h
  · split at h
    · split at h
      · cases h; simp
      · cases h; simp
    · cases h; simp
  · cases h
  · cases h
  · cases h

/-- A list struct is determined by its head pointer. -/
theorem List_t_eta (l : List_t) : l = { pxHead := l.pxHead } := rfl

/-! ## `vTaskSwitchContext` and `vTaskDelay` -/

/-- What `vTaskSwitchContext` leaves alone: the tick count, the unblock cursor, both
delayed list heads and every wake time and ready flag. -/
theorem vTaskSwitchContext_frame (fuel : Nat) (s s1 : State)
    (h : vTaskSwitchContext fuel s = Outcome.done s1) :
    s1.xTickCount = s.xTickCount ∧ s1.xNextTaskUnblockTime = s.xNextTaskUnblockTime ∧
      s1.pxDelayedTaskList = s.pxDelayedTaskList ∧
      s1.pxOverflowDelayedTaskList = s.pxOverflowDelayedTaskList ∧
      ∀ a, (s1.mem a).xWakeTime = (s.mem a).xWakeTime ∧ (s1.mem a).bReady = (s.mem a).bReady := by
  unfold vTaskSwitchContext at h
  split at h
  · split at h
    · rename_i hrem
      cases h
      exact ⟨rfl, rfl, rfl, rfl, fun a => vListRemove_fields _ _ _ _ _ _ hrem a⟩
    · cases h
    · cases h
    · cases h
  · cases h
    exact ⟨rfl, rfl, rfl, rfl, fun a => ⟨rfl, rfl⟩⟩

/-- The unsigned addition `xTickCount + xTicksToDelay` wraps exactly when the wake time
comes out below the tick count. -/
theorem wake_lt_tick_iff (t d : Nat) (ht : t < WORD) (hd : d < WORD) :
    (t + d) % WORD < t ↔ WORD ≤ t + d := by
  unfold WORD at *
  omega

/-- Everything `vTaskDelay` guarantees when it returns: the caller's wake time and ready
flag, the new unblock cursor, and that the delayed list that was not selected keeps its
head pointer. -/
theorem vTaskDelay_returns (fuel d cur : Nat) (s s1 : State)
    (hcur : s.pxCurrentTask = some cur) (h : vTaskDelay fuel d s = Outcome.done s1) :
    s1.xTickCount = s.xTickCount ∧
      (s1.mem cur).xWakeTime = (s.xTickCount + d) % WORD ∧
      (s1.mem cur).bReady = 0 ∧
      s1.xNextTaskUnblockTime
        = (if s.xNextTaskUnblockTime = 0 ∨ (s.xTickCount + d) % WORD < s.xNextTaskUnblockTime
           then (s.xTickCount + d) % WORD else s.xNextTaskUnblockTime) ∧
      ((s.xTickCount + d) % WORD < s.xTickCount →
        s1.pxDelayedTaskList = s.pxDelayedTaskList) ∧
      (¬ (s.xTickCount + d) % WORD < s.xTickCount →
        s1.pxOverflowDelayedTaskList = s.pxOverflowDelayedTaskList) := by
  unfold vTaskDelay at h
  rw [hcur] at h
  simp only at h
  split at h
  · rename_i hlt
    split at h
    · rename_i mem3 l hins
      obtain ⟨h1, h2, h3, h4, h5⟩ := vTaskSwitchContext_frame _ _ _ h
      have h6 := vListInsert_fields _ _ _ _ _ _ hins cur
      simp only at h1 h2 h3 h4 h5
      refine ⟨h1, ?_, ?_, ?_, fun _ => h3, fun hn => absurd hlt hn⟩
      · rw [(h5 cur).1, h6.1]; simp
      · rw [(h5 cur).2, h6.2]; simp
      · rw [h2]; rfl
    · cases h
    · cases h
    · cases h
  · rename_i hlt
    split at h
    · rename_i mem3 l hins
      obtain ⟨h1, h2, h3, h4, h5⟩ := vTaskSwitchContext_frame _ _ _ h
      have h6 := vListInsert_fields _ _ _ _ _ _ hins cur
      simp only at h1 h2 h3 h4 h5
      refine ⟨h1, ?_, ?_, ?_, fun hn => absurd hn hlt, fun _ => h4⟩
      · rw [(h5 cur).1, h6.1]; simp
      · rw [(h5 cur).2, h6.2]; simp
      · rw [h2]; rfl
    · cases h
    · cases h
    · cases h

/-- With both delayed lists empty `vTaskDelay` returns, and the result is known exactly. -/
theorem vTaskDelay_empty (fuel d cur : Nat) (s : State)
    (hcur : s.pxCurrentTask = some cur)
    (hN : s.pxDelayedTaskList.pxHead = none)
    (hO : s.pxOverflowDelayedTaskList.pxHead = none) :
    ∃ s1, vTaskDelay (fuel + 1) d s = Outcome.done s1 ∧
      ((s.xTickCount + d) % WORD < s.xTickCount →
        IsList s1.mem s1.pxOverflowDelayedTaskList.pxHead [cur] ∧
          s1.pxDelayedTaskList.pxHead = none) ∧
      (¬ (s.xTickCount + d) % WORD < s.xTickCount →
        IsList s1.mem s1.pxDelayedTaskList.pxHead [cur] ∧
          s1.pxOverflowDelayedTaskList.pxHead = none) := by
  have hN2 : s.pxDelayedTaskList = { pxHead := none } := by
    rw [List_t_eta s.pxDelayedTaskList, hN]
  have hO2 : s.pxOverflowDelayedTaskList = { pxHead := none } := by
    rw [List_t_eta s.pxOverflowDelayedTaskList, hO]
  unfold vTaskDelay
  rw [hcur]
  simp only
  by_cases hlt : (s.xTickCount + d) % WORD < s.xTickCount
  · rw [if_pos hlt, hO2, vListInsert_empty]
    simp only
    rw [vTaskSwitchContext_eq]
    refine ⟨_, rfl, fun _ => ?_, fun hn => absurd hlt hn⟩
    cases hr : s.pxReadyList.pxHead with
    | none => simp [IsList, hN]
    | some r =>
      simp only [IsList, hN, and_true]
      refine ⟨trivial, ?_⟩
      by_cases hrc : cur = r
      · subst hrc; simp
      · rw [setNext_other _ _ _ _ hrc]; simp
  · rw [if_neg hlt, hN2, vListInsert_empty]
    simp only
    rw [vTaskSwitchContext_eq]
    refine ⟨_, rfl, fun hn => absurd hn hlt, fun _ => ?_⟩
    cases hr : s.pxReadyList.pxHead with
    | none => simp [IsList, hO]
    | some r =>
      simp only [IsList, hO, and_true]
      refine ⟨trivial, ?_⟩
      by_cases hrc : cur = r
      · subst hrc; simp
      · rw [setNext_other _ _ _ _ hrc]; simp

/-- C3.  For 32-bit `xTickCount = t` and delay `d`: the wake time wraps below `t` exactly
when `t + d ≥ 2^32`; whenever `vTaskDelay(d)` returns, the caller's wake time is
`(t + d) mod 2^32` and the delayed list that was not selected (the normal one when the
sum wrapped, the overflow one otherwise) keeps its head; and when both delayed lists are
empty beforehand `vTaskDelay(d)` does return, with the caller as the sole element of the
selected list and the other list still empty. -/
theorem vTaskDelay_wake_time_and_list (fuel d cur : Nat) (s : State)
    (ht : s.xTickCount < WORD) (hd : d < WORD) (hcur : s.pxCurrentTask = some cur) :
    ((s.xTickCount + d) % WORD < s.xTickCount ↔ WORD ≤ s.xTickCount + d) ∧
    (∀ s1, vTaskDelay fuel d s = Outcome.done s1 →
      (s1.mem cur).xWakeTime = (s.xTickCount + d) % WORD ∧
      (WORD ≤ s.xTickCount + d → s1.pxDelayedTaskList = s.pxDelayedTaskList) ∧
      (s.xTickCount + d < WORD →
        s1.pxOverflowDelayedTaskList = s.pxOverflowDelayedTaskList)) ∧
    (s.pxDelayedTaskList.pxHead = none → s.pxOverflowDelayedTaskList.pxHead = none →
      ∃ s1, vTaskDelay (fuel + 1) d s = Outcome.done s1 ∧
        (s1.mem cur).xWakeTime = (s.xTickCount + d) % WORD ∧
        (WORD ≤ s.xTickCount + d →
          IsList s1.mem s1.pxOverflowDelayedTaskList.pxHead [cur] ∧
            s1.pxDelayedTaskList.pxHead = none) ∧
        (s.xTickCount + d < WORD →
          IsList s1.mem s1.pxDelayedTaskList.pxHead [cur] ∧
            s1.pxOverflowDelayedTaskList.pxHead = none)) := by
  have hiff := wake_lt_tick_iff s.xTickCount d ht hd
  refine ⟨hiff, ?_, ?_⟩
  · intro s1 h
    obtain ⟨_, h2, _, _, h5, h6⟩ := vTaskDelay_returns fuel d cur s s1 hcur h
    refine ⟨h2, fun hw => h5 (hiff.2 hw), fun hw => h6 ?_⟩
    intro hlt
    have := hiff.1 hlt
    omega
  · intro hN hO
    obtain ⟨s1, h1, h2, h3⟩ := vTaskDelay_empty fuel d cur s hcur hN hO
    refine ⟨s1, h1, (vTaskDelay_returns _ d cur s s1 hcur h1).2.1,
      fun hw => h2 (hiff.2 hw), fun hw => h3 ?_⟩
    intro hlt
    have := hiff.1 hlt
    omega

/-- Scenario B as an instance of C3: at `xTickCount = 0xFFFFFFFE` a delay of 3 returns
with wake time 1 and the task alone in the overflow list. -/
theorem vTaskDelay_wake_time_and_list_witness :
    ∃ s1, vTaskDelay 1 3 stateScenarioB = Outcome.done s1 ∧
      (s1.mem 0).xWakeTime = 1 ∧
      IsList s1.mem s1.pxOverflowDelayedTaskList.pxHead [0] ∧
      s1.pxDelayedTaskList.pxHead = none := by
  obtain ⟨s1, h1, h2, h3, _⟩ :=
    (vTaskDelay_wake_time_and_list 0 3 0 stateScenarioB (by decide) (by decide) rfl).2.2
      rfl rfl
  exact ⟨s1, h1, h2, h3 (by decide)⟩

/-- C7 as stated fails in both halves.  In Scenario B the task goes into the overflow
list and the cursor still changes, from `UINT32_MAX` to the wake time 1; and in the
initial state (cursor 0) a delay of 5 goes into the normal list and the cursor becomes 5,
which is not `min 0 5`. -/
theorem vTaskDelay_cursor_counterexample :
    (∃ s1, vTaskDelay 1 3 stateScenarioB = Outcome.done s1 ∧
        IsList s1.mem s1.pxOverflowDelayedTaskList.pxHead [0] ∧
        s1.pxDelayedTaskList.pxHead = none ∧
        stateScenarioB.xNextTaskUnblockTime = 4294967295 ∧
        s1.xNextTaskUnblockTime = 1 ∧
        s1.xNextTaskUnblockTime ≠ stateScenarioB.xNextTaskUnblockTime) ∧
    (∃ s1, vTaskDelay 1 5 stateFresh = Outcome.done s1 ∧
        IsList s1.mem s1.pxDelayedTaskList.pxHead [0] ∧
        s1.pxOverflowDelayedTaskList.pxHead = none ∧
        stateFresh.xNextTaskUnblockTime = 0 ∧
        s1.xNextTaskUnblockTime = 5 ∧
        s1.xNextTaskUnblockTime
          ≠ min stateFresh.xNextTaskUnblockTime ((stateFresh.xTickCount + 5) % WORD)) :=
  ⟨⟨_, rfl, by decide, rfl, rfl, rfl, by decide⟩,
    ⟨_, rfl, by decide, rfl, rfl, rfl, by decide⟩⟩

/-- C7 (amended).  Whichever delayed list the task went into, when `vTaskDelay(d)` returns
`xNextTaskUnblockTime` is the wake time if the old value was 0 or the wake time is below
the old value, and is the old value otherwise; for a non-zero old value that is
`min old wake`.  With both delayed lists empty `vTaskDelay(d)` does return. -/
theorem vTaskDelay_next_unblock (fuel d cur : Nat) (s : State)
    (hcur : s.pxCurrentTask = some cur) :
    (∀ s1, vTaskDelay fuel d s = Outcome.done s1 →
      s1.xNextTaskUnblockTime
        = (if s.xNextTaskUnblockTime = 0 ∨ (s.xTickCount + d) % WORD < s.xNextTaskUnblockTime
           then (s.xTickCount + d) % WORD else s.xNextTaskUnblockTime) ∧
      (s.xNextTaskUnblockTime ≠ 0 →
        s1.xNextTaskUnblockTime = min s.xNextTaskUnblockTime ((s.xTickCount + d) % WORD))) ∧
    (s.pxDelayedTaskList.pxHead = none → s.pxOverflowDelayedTaskList.pxHead = none →
      ∃ s1, vTaskDelay (fuel + 1) d s = Outcome.done s1) := by
  refine ⟨?_, ?_⟩
  · intro s1 h
    obtain ⟨_, _, _, h4, _, _⟩ := vTaskDelay_returns fuel d cur s s1 hcur h
    refine ⟨h4, fun hne => ?_⟩
    rw [h4]
    split
    · rename_i hc
      rcases hc with hc | hc
      · exact absurd hc hne
      · omega
    · rename_i hc
      simp only [not_or, not_lt] at hc
      omega
  · intro hN hO
    obtain ⟨s1, h1, _⟩ := vTaskDelay_empty fuel d cur s hcur hN hO
    exact ⟨s1, h1⟩

/-- The amended C7 at Scenario B: the delay returns and the cursor becomes
`min UINT32_MAX 1 = 1` although the task went into the overflow list. -/
theorem vTaskDelay_next_unblock_witness :
    ∃ s1, vTaskDelay 1 3 stateScenarioB = Outcome.done s1 ∧
      s1.xNextTaskUnblockTime = 1 := by
  have h := vTaskDelay_next_unblock 0 3 0 stateScenarioB rfl
  obtain ⟨s1, h1⟩ := h.2 rfl rfl
  exact ⟨s1, h1, ((h.1 s1 h1).2 (by decide)).trans (by decide)⟩

/-! ## Recomputing the unblock cursor -/

/-- After the recomputation the cursor is the head-derived value. -/
theorem updateNextUnblock_next (s : State) :
    (updateNextUnblock s).xNextTaskUnblockTime = headWakeTime (updateNextUnblock s) := by
  unfold updateNextUnblock headWakeTime
  cases hN : s.pxDelayedTaskList.pxHead with
  | some h => simp [hN]
  | none =>
    cases hO : s.pxOverflowDelayedTaskList.pxHead with
    | some h => simp [hN, hO]
    | none => simp [hN, hO]

/-- The recomputation changes nothing but the cursor. -/
theorem updateNextUnblock_frame (s : State) :
    (updateNextUnblock s).xTickCount = s.xTickCount ∧
      (updateNextUnblock s).pxDelayedTaskList = s.pxDelayedTaskList ∧
      (updateNextUnblock s).pxOverflowDelayedTaskList = s.pxOverflowDelayedTaskList ∧
      (updateNextUnblock s).pxReadyList = s.pxReadyList ∧
      (updateNextUnblock s).pxCurrentTask = s.pxCurrentTask ∧
      (updateNextUnblock s).mem = s.mem := by
  unfold updateNextUnblock
  cases s.pxDelayedTaskList.pxHead with
  | some h => simp
  | none =>
    cases s.pxOverflowDelayedTaskList.pxHead with
    | some h => simp
    | none => simp

/-- When the head of the normal delayed list is absent or not yet due, the loop of
`vTaskCheckDelayedTasks` returns at its first test and changes nothing. -/
theorem vTaskCheckDelayedTasks_loop_idle (fuel : Nat) (s : State)
    (h : ∀ a, s.pxDelayedTaskList.pxHead = some a → s.xTickCount < (s.mem a).xWakeTime) :
    vTaskCheckDelayedTasks_loop (fuel + 1) s = Outcome.done s := by
  unfold vTaskCheckDelayedTasks_loop
  cases hN : s.pxDelayedTaskList.pxHead with
  | none => rfl
  | some a =>
    have := h a hN
    have hn : ¬ (s.mem a).xWakeTime ≤ s.xTickCount := by omega
    simp [hn]

/-- When the increment wraps, the first half of `SysTick_Handler` exchanges the two heads
and recomputes the cursor. -/
theorem SysTick_advance_wrap (s : State) (h : s.xTickCount = UINT32_MAX) :
    SysTick_advance s = updateNextUnblock
      { s with xTickCount := 0,
               pxDelayedTaskList := { pxHead := s.pxOverflowDelayedTaskList.pxHead },
               pxOverflowDelayedTaskList := { pxHead := s.pxDelayedTaskList.pxHead } } := by
  unfold SysTick_advance
  have h0 : (s.xTickCount + 1) % WORD = 0 := by rw [h]; rfl
  simp [h0]

/-- When the increment does not wrap, the first half of `SysTick_Handler` only counts. -/
theorem SysTick_advance_plain (s : State) (ht : s.xTickCount < WORD)
    (h : s.xTickCount ≠ UINT32_MAX) :
    SysTick_advance s = { s with xTickCount := s.xTickCount + 1 } := by
  unfold SysTick_advance
  have h1 : (s.xTickCount + 1) % WORD = s.xTickCount + 1 := by
    unfold WORD UINT32_MAX at *
    omega
  simp [h1]

/-- C8.  Whenever `vTaskCheckDelayedTasks` returns, and after the wrap branch of
`SysTick_Handler` (both right after the branch and when the handler returns),
`xNextTaskUnblockTime` is the wake time of the head of the normal delayed list if there
is one, else that of the head of the overflow list if there is one, else `UINT32_MAX`.
`vTaskCheckDelayedTasks` does return when the normal list is empty or its head is not
yet due. -/
theorem next_unblock_recomputed (fuel : Nat) (s : State) :
    (∀ s1, vTaskCheckDelayedTasks fuel s = Outcome.done s1 →
      s1.xNextTaskUnblockTime = headWakeTime s1) ∧
    (s.xTickCount = UINT32_MAX →
      (SysTick_advance s).xNextTaskUnblockTime = headWakeTime (SysTick_advance s) ∧
      ∀ s1, SysTick_Handler fuel s = Outcome.done s1 →
        s1.xNextTaskUnblockTime = headWakeTime s1) ∧
    ((∀ a, s.pxDelayedTaskList.pxHead = some a → s.xTickCount < (s.mem a).xWakeTime) →
      ∃ s1, vTaskCheckDelayedTasks (fuel + 1) s = Outcome.done s1) := by
  have key : ∀ (f : Nat) (s0 s1 : State), vTaskCheckDelayedTasks f s0 = Outcome.done s1 →
      s1.xNextTaskUnblockTime = headWakeTime s1 := by
    intro f s0 s1 h
    unfold vTaskCheckDelayedTasks at h
    split at h
    · cases h
      exact updateNextUnblock_next _
    · cases h
    · cases h
    · cases h
  refine ⟨key fuel s, ?_, ?_⟩
  · intro hwrap
    have hadv := SysTick_advance_wrap s hwrap
    refine ⟨?_, ?_⟩
    · rw [hadv]
      exact updateNextUnblock_next _
    · intro s1 h
      unfold SysTick_Handler at h
      simp only at h
      split at h
      · exact key _ _ _ h
      · cases h
        rw [hadv]
        exact updateNextUnblock_next _
  · intro hidle
    unfold vTaskCheckDelayedTasks
    rw [vTaskCheckDelayedTasks_loop_idle fuel s hidle]
    exact ⟨_, rfl⟩

/-! ## Footprint of the wake-up processing

The wake-up loop writes only to tasks reachable from the heads of the normal delayed list
and of the ready list.  `W` stands for any closed set of addresses holding both heads. -/

theorem InW_none (W : Nat → Prop) : InW W none := by
  intro c h; cases h

theorem InW_some (W : Nat → Prop) (c : Nat) (h : W c) : InW W (some c) := by
  intro d hd; cases hd; exact h

theorem Closed_next (W : Nat → Prop) (mem : Mem) (hC : Closed W mem) (a : Nat) (ha : W a) :
    InW W (mem a).pxNext := fun b hb => hC a b ha hb

theorem Closed_setNext (W : Nat → Prop) (mem : Mem) (p : Nat) (v : Option Nat)
    (hC : Closed W mem) (hv : InW W v) : Closed W (setNext mem p v) := by
  intro a b ha hb
  by_cases hap : a = p
  · subst hap
    rw [setNext_next_self] at hb
    exact hv b hb
  · rw [setNext_other _ _ _ _ hap] at hb
    exact hC a b ha hb

theorem Closed_setReady (W : Nat → Prop) (mem : Mem) (p : Nat) (v : Int)
    (hC : Closed W mem) : Closed W (setReady mem p v) := by
  intro a b ha hb
  rw [setReady_next] at hb
  exact hC a b ha hb

theorem setNext_outside (W : Nat → Prop) (mem : Mem) (p : Nat) (v : Option Nat) (hp : W p)
    (a : Nat) (ha : ¬ W a) : setNext mem p v a = mem a :=
  setNext_other mem p v a (fun h => ha (h ▸ hp))

theorem setReady_outside (W : Nat → Prop) (mem : Mem) (p : Nat) (v : Int) (hp : W p)
    (a : Nat) (ha : ¬ W a) : setReady mem p v a = mem a :=
  setReady_other mem p v a (fun h => ha (h ▸ hp))

/-- The pointers the loop of `vListInsert` ends with lie in the set it started in. -/
theorem vListInsert_loop_inW (W : Nat → Prop) (mem : Mem) (t : Nat) (hC : Closed W mem) :
    ∀ (fuel : Nat) (cur prev c1 p1 : Option Nat), InW W cur → InW W prev →
      vListInsert_loop fuel mem t cur prev = Outcome.done (c1, p1) →
      InW W c1 ∧ InW W p1 := by
  intro fuel
  induction fuel with
  | zero =>
    intro cur prev c1 p1 _ _ h
    simp [vListInsert_loop] at h
  | succ n ih =>
    intro cur prev c1 p1 hcur hprev h
    cases cur with
    | none =>
      simp only [vListInsert_loop] at h
      cases h
      exact ⟨hcur, hprev⟩
    | some c =>
      rw [vListInsert_loop_step] at h
      split at h
      · have hn := Closed_next W mem hC c (hcur c rfl)
        exact ih _ _ _ _ hn hn h
      · cases h
        exact ⟨hcur, hprev⟩

/-- Footprint of `vListInsert`: it keeps the set closed, its head stays in the set and
nothing outside the set is written. -/
theorem vListInsert_footprint (W : Nat → Prop) (fuel : Nat) (mem mem1 : Mem)
    (l l1 : List_t) (t : Nat) (hC : Closed W mem) (ht : W t) (hl : InW W l.pxHead)
    (h : vListInsert fuel mem l t = Outcome.done (mem1, l1)) :
    Closed W mem1 ∧ InW W l1.pxHead ∧ ∀ a, ¬ W a → mem1 a = mem a := by
  unfold vListInsert at h
  split at h
  · cases h
    exact ⟨Closed_setNext W mem t none hC (InW_none W), InW_some W t ht,
      fun a ha => setNext_outside W mem t none ht a ha⟩
  · rename_i c hc
    split at h
    · cases h
      exact ⟨Closed_setNext W mem t (some c) hC (InW_some W c (hl c hc)), InW_some W t ht,
        fun a ha => setNext_outside W mem t _ ht a ha⟩
    · split at h
      · rename_i c1 p1 hloop
        split at h
        · cases h
        · rename_i p
          cases h
          have hp : W p :=
            (vListInsert_loop_inW W mem t hC fuel (some c) none c1 (some p)
              (InW_some W c (hl c hc)) (InW_none W) hloop).2 p rfl
          refine ⟨Closed_setNext W _ p _ (Closed_setNext W mem t _ hC (InW_some W t ht))
            (InW_some W t ht), hl, fun a ha => ?_⟩
          rw [setNext_outside W _ p _ hp a ha, setNext_outside W mem t _ ht a ha]
      · cases h
      · cases h
      · cases h

/-- Footprint of the loop of `vTaskCheckDelayedTasks`. -/
theorem vTaskCheckDelayedTasks_loop_footprint (W : Nat → Prop) :
    ∀ (fuel : Nat) (s s1 : State), Closed W s.mem → InW W s.pxDelayedTaskList.pxHead →
      InW W s.pxReadyList.pxHead → vTaskCheckDelayedTasks_loop fuel s = Outcome.done s1 →
      s1.xTickCount = s.xTickCount ∧
      s1.xNextTaskUnblockTime = s.xNextTaskUnblockTime ∧
      s1.pxOverflowDelayedTaskList = s.pxOverflowDelayedTaskList ∧
      s1.pxCurrentTask = s.pxCurrentTask ∧
      ∀ a, ¬ W a → s1.mem a = s.mem a := by
  intro fuel
  induction fuel with
  | zero =>
    intro s s1 _ _ _ h
    simp [vTaskCheckDelayedTasks_loop] at h
  | succ n ih =>
    intro s s1 hC hN hR h
    unfold vTaskCheckDelayedTasks_loop at h
    split at h
    · cases h
      exact ⟨rfl, rfl, rfl, rfl, fun _ _ => rfl⟩
    · rename_i hd hhd
      split at h
      · rw [vListRemove_head n s.mem s.pxDelayedTaskList hd hhd] at h
        simp only at h
        have hW : W hd := hN hd hhd
        have hC1 : Closed W (setReady (setNext s.mem hd none) hd 1) :=
          Closed_setReady W _ hd 1 (Closed_setNext W s.mem hd none hC (InW_none W))
        split at h
        · rename_i mem3 l3 hins
          obtain ⟨hC3, hl3, hout⟩ :=
            vListInsert_footprint W _ _ mem3 _ l3 hd hC1 hW hR hins
          obtain ⟨h1, h2, h3, h4, h5⟩ := ih _ s1 hC3
            (Closed_next W s.mem hC hd hW) hl3 h
          refine ⟨h1, h2, h3, h4, fun a ha => ?_⟩
          rw [h5 a ha]
          show mem3 a = s.mem a
          rw [hout a ha, setReady_outside W _ hd 1 hW a ha,
            setNext_outside W s.mem hd none hW a ha]
        · cases h
        · cases h
        · cases h
      · cases h
        exact ⟨rfl, rfl, rfl, rfl, fun _ _ => rfl⟩

/-- A list whose tasks are untouched is still the same list. -/
theorem IsList_congr (mem mem1 : Mem) :
    ∀ (l : List Nat) (h : Option Nat), (∀ a ∈ l, mem1 a = mem a) → IsList mem h l →
      IsList mem1 h l := by
  intro l
  induction l with
  | nil => intro h _ hl; exact hl
  | cons a l ih =>
    intro h hsame hl
    obtain ⟨h1, h2⟩ := hl
    refine ⟨h1, ?_⟩
    rw [hsame a (by simp)]
    exact ih _ (fun x hx => hsame x (by simp [hx])) h2

/-! ## `SysTick_Handler` -/

/-- C5.  For a 32-bit `xTickCount`: whenever `SysTick_Handler` returns, `xTickCount` is
the old value plus one modulo 2^32.  When the old value was `0xFFFFFFFF`, the wake-up
processing (the test `xTickCount >= xNextTaskUnblockTime` and `vTaskCheckDelayedTasks`)
runs on a state with `xTickCount = 0` in which the heads of the normal and the overflow
list are exchanged and the task memory is untouched, and when the handler returns the
overflow list is the old normal list.  When the increment does not wrap
and the handler returns, the overflow list keeps its head, and every list of tasks lying
outside a closed set `W` that holds the normal and ready lists is still the same list;
the handler does return when, after the count-and-swap step, the normal list is empty or
its head is not yet due. -/
theorem SysTick_Handler_tick_and_swap (fuel : Nat) (s : State) (ht : s.xTickCount < WORD) :
    (∀ s1, SysTick_Handler fuel s = Outcome.done s1 →
      s1.xTickCount = (s.xTickCount + 1) % WORD) ∧
    (s.xTickCount = UINT32_MAX →
      (SysTick_advance s).xTickCount = 0 ∧
      (SysTick_advance s).pxDelayedTaskList = s.pxOverflowDelayedTaskList ∧
      (SysTick_advance s).pxOverflowDelayedTaskList = s.pxDelayedTaskList ∧
      (SysTick_advance s).mem = s.mem ∧
      (SysTick_advance s).pxReadyList = s.pxReadyList ∧
      SysTick_Handler fuel s
        = (if (SysTick_advance s).xTickCount ≥ (SysTick_advance s).xNextTaskUnblockTime
           then vTaskCheckDelayedTasks fuel (SysTick_advance s)
           else Outcome.done (SysTick_advance s)) ∧
      ∀ s1, SysTick_Handler fuel s = Outcome.done s1 →
        s1.pxOverflowDelayedTaskList = s.pxDelayedTaskList) ∧
    (s.xTickCount ≠ UINT32_MAX → ∀ s1, SysTick_Handler fuel s = Outcome.done s1 →
      s1.pxOverflowDelayedTaskList = s.pxOverflowDelayedTaskList ∧
      ∀ (W : Nat → Prop) (l : List Nat), Closed W s.mem →
        InW W s.pxDelayedTaskList.pxHead → InW W s.pxReadyList.pxHead →
        (∀ a ∈ l, ¬ W a) → IsList s.mem s.pxOverflowDelayedTaskList.pxHead l →
        IsList s1.mem s1.pxOverflowDelayedTaskList.pxHead l) ∧
    ((∀ a, (SysTick_advance s).pxDelayedTaskList.pxHead = some a →
        (SysTick_advance s).xTickCount < ((SysTick_advance s).mem a).xWakeTime) →
      ∃ s1, SysTick_Handler (fuel + 1) s = Outcome.done s1) := by
  have hcheck : ∀ (f : Nat) (s0 s1 : State), vTaskCheckDelayedTasks f s0 = Outcome.done s1 →
      ∃ s2, vTaskCheckDelayedTasks_loop f s0 = Outcome.done s2 ∧ s1 = updateNextUnblock s2 := by
    intro f s0 s1 h
    unfold vTaskCheckDelayedTasks at h
    split at h
    · rename_i s2 h2
      cases h
      exact ⟨s2, h2, rfl⟩
    · cases h
    · cases h
    · cases h
  have htick : (SysTick_advance s).xTickCount = (s.xTickCount + 1) % WORD := by
    unfold SysTick_advance
    simp only
    split
    · rename_i h0
      rw [(updateNextUnblock_frame _).1]
    · rfl
  refine ⟨?_, ?_, ?_, ?_⟩
  · intro s1 h
    unfold SysTick_Handler at h
    simp only at h
    split at h
    · obtain ⟨s2, h2, rfl⟩ := hcheck _ _ _ h
      rw [(updateNextUnblock_frame s2).1]
      have hW : Closed (fun _ => True) (SysTick_advance s).mem := fun _ _ _ _ => trivial
      rw [(vTaskCheckDelayedTasks_loop_footprint (fun _ => True) fuel _ s2 hW
        (fun _ _ => trivial) (fun _ _ => trivial) h2).1, htick]
    · cases h
      exact htick
  · intro hwrap
    rw [SysTick_advance_wrap s hwrap]
    obtain ⟨f1, f2, f3, f4, _, f6⟩ := updateNextUnblock_frame
      { s with xTickCount := 0,
               pxDelayedTaskList := { pxHead := s.pxOverflowDelayedTaskList.pxHead },
               pxOverflowDelayedTaskList := { pxHead := s.pxDelayedTaskList.pxHead } }
    refine ⟨f1, f2, f3, f6, f4, ?_, ?_⟩
    · unfold SysTick_Handler
      rw [SysTick_advance_wrap s hwrap]
    · intro s1 h
      unfold SysTick_Handler at h
      rw [SysTick_advance_wrap s hwrap] at h
      simp only at h
      split at h
      · obtain ⟨s2, h2, rfl⟩ := hcheck _ _ _ h
        rw [(updateNextUnblock_frame s2).2.2.1,
          (vTaskCheckDelayedTasks_loop_footprint (fun _ => True) fuel _ s2
            (fun _ _ _ _ => trivial) (fun _ _ => trivial) (fun _ _ => trivial) h2).2.2.1]
        exact f3
      · cases h
        exact f3
  · intro hplain s1 h
    unfold SysTick_Handler at h
    rw [SysTick_advance_plain s ht hplain] at h
    simp only at h
    split at h
    · obtain ⟨s2, h2, rfl⟩ := hcheck _ _ _ h
      obtain ⟨_, _, f3, _, _, f6⟩ := updateNextUnblock_frame s2
      rw [f3, f6]
      refine ⟨?_, ?_⟩
      · exact (vTaskCheckDelayedTasks_loop_footprint (fun _ => True) fuel _ s2
          (fun _ _ _ _ => trivial) (fun _ _ => trivial) (fun _ _ => trivial) h2).2.2.1
      · intro W l hC hN hR hl hlist
        obtain ⟨_, _, g3, _, g5⟩ :=
          vTaskCheckDelayedTasks_loop_footprint W fuel
            { s with xTickCount := s.xTickCount + 1 } s2 hC hN hR h2
        rw [g3]
        exact IsList_congr s.mem s2.mem l _ (fun a ha => g5 a (hl a ha)) hlist
    · cases h
      exact ⟨rfl, fun W l _ _ _ _ hlist => hlist⟩
  · intro hidle
    unfold SysTick_Handler
    simp only
    split
    · unfold vTaskCheckDelayedTasks
      rw [vTaskCheckDelayedTasks_loop_idle fuel _ hidle]
      exact ⟨_, rfl⟩
    · exact ⟨_, rfl⟩

/-- C5 at the wrap of Scenario B: from `xTickCount = 0xFFFFFFFF` with the task in the
overflow list the handler returns with `xTickCount = 0`, the task in the normal list and
the overflow list empty. -/
theorem SysTick_Handler_tick_and_swap_witness :
    ∃ s1, SysTick_Handler 1 stateBeforeWrap = Outcome.done s1 ∧ s1.xTickCount = 0 ∧
      IsList s1.mem s1.pxDelayedTaskList.pxHead [0] ∧
      s1.pxOverflowDelayedTaskList.pxHead = none :=
  ⟨_, rfl, (SysTick_Handler_tick_and_swap 1 stateBeforeWrap (by decide)).1 _ rfl,
    by decide, rfl⟩

/-! ## Waking due tasks -/

/-- C6 (code defect).  With `xTickCount = 5` and the sorted normal list T0 (wake time 1),
T1 (wake time 2), both due, `vTaskCheckDelayedTasks` does not move both tasks to the
ready list: the first one is inserted, the insertion of the second one behind it stops
with a `NULL` dereference in `vListInsert`, whatever the fuel. -/
theorem vTaskCheckDelayedTasks_two_due_faults :
    IsList stateTwoDue.mem stateTwoDue.pxDelayedTaskList.pxHead [0, 1] ∧
      (wakeTimes stateTwoDue.mem [0, 1]).Sorted (· ≤ ·) ∧
      (∀ a ∈ [0, 1], (stateTwoDue.mem a).xWakeTime ≤ stateTwoDue.xTickCount) ∧
      ∀ fuel, vTaskCheckDelayedTasks (fuel + 3) stateTwoDue = Outcome.nullDeref :=
  ⟨by decide, by decide, by decide, fun _ => rfl⟩

/-- C4 (code defect).  Tick count 10, delay 1, both delayed lists empty,
`xNextTaskUnblockTime = UINT32_MAX`, two other tasks in the ready list: `vTaskDelay(1)`
returns with task 0 asleep until tick 11, but the first `SysTick_Handler` call, which has
to wake it, stops with a `NULL` dereference when `vListInsert` puts it behind the task
still waiting in the ready list. -/
theorem delay_then_tick_faults :
    stateThreeTasks.pxDelayedTaskList.pxHead = none ∧
      stateThreeTasks.pxOverflowDelayedTaskList.pxHead = none ∧
      stateThreeTasks.xNextTaskUnblockTime = UINT32_MAX ∧
      (∃ s1, vTaskDelay 1 1 stateThreeTasks = Outcome.done s1 ∧
        IsList s1.mem s1.pxDelayedTaskList.pxHead [0] ∧ (s1.mem 0).xWakeTime = 11 ∧
        s1.pxCurrentTask = some 1 ∧ IsList s1.mem s1.pxReadyList.pxHead [2]) ∧
      ∀ fuel, delayThenTicks (fuel + 2) 1 1 stateThreeTasks = Outcome.nullDeref :=
  ⟨rfl, rfl, rfl, ⟨_, rfl, by decide, rfl, rfl, by decide⟩, fun _ => rfl⟩

/-! ## Highest ready priority -/

/-- The scan finds the highest set bit of a non-zero word of `n` bits. -/
theorem clzScan_spec : ∀ (n x : Nat), 0 < x → x < 2 ^ n →
    clzScan n x < n ∧ 2 ^ (n - 1 - clzScan n x) ≤ x ∧ x < 2 ^ (n - clzScan n x) := by
  intro n
  induction n with
  | zero =>
    intro x h0 h1
    simp at h1
    omega
  | succ n ih =>
    intro x h0 h1
    unfold clzScan
    by_cases hb : x.testBit n = true
    · simp only [hb, if_true]
      refine ⟨by omega, ?_, by simpa using h1⟩
      simpa using Nat.testBit_implies_ge hb
    · rw [if_neg hb]
      have hlt : x < 2 ^ n := by
        by_contra hge
        have hge2 : 2 ^ n ≤ x := by omega
        have hdiv : x / 2 ^ n = 1 := by
          have hpos : 0 < 2 ^ n := Nat.pow_pos (by decide)
          have h2 : x / 2 ^ n < 2 := by
            rw [Nat.div_lt_iff_lt_mul hpos]
            rw [Nat.pow_succ] at h1
            omega
          have h3 : 0 < x / 2 ^ n := Nat.div_pos hge2 hpos
          omega
        apply hb
        rw [Nat.testBit_to_div_mod, hdiv]
        rfl
      obtain ⟨i1, i2, i3⟩ := ih x h0 hlt
      refine ⟨by omega, ?_, ?_⟩
      · have e : n + 1 - 1 - (1 + clzScan n x) = n - 1 - clzScan n x := by omega
        rw [e]; exact i2
      · have e : n + 1 - (1 + clzScan n x) = n - clzScan n x := by omega
        rw [e]; exact i3

/-- The CLZ form of `portGET_HIGHEST_PRIORITY` finds the highest set bit of a non-zero
32-bit bitmap. -/
theorem highest_priority_of_bitmap (b : Nat) (h0 : 0 < b) (hb : b < WORD) :
    ∃ p, portGET_HIGHEST_PRIORITY b = some p ∧ p ≤ 31 ∧ 2 ^ p ≤ b ∧ b < 2 ^ (p + 1) ∧
      b.testBit p = true ∧ ∀ q, p < q → b.testBit q = false := by
  have hmod : b % WORD = b := Nat.mod_eq_of_lt hb
  have hne : ¬ b = 0 := by omega
  obtain ⟨c1, c2, c3⟩ := clzScan_spec 32 b h0 (by unfold WORD at hb; simpa using hb)
  have hp : (31 + WORD - clzScan 32 b) % WORD = 31 - clzScan 32 b := by
    unfold WORD
    omega
  refine ⟨31 - clzScan 32 b, ?_, by omega, ?_, ?_, ?_, ?_⟩
  · simp [portGET_HIGHEST_PRIORITY, builtin_clz, hmod, hne, hp]
  · simpa using c2
  · have e : 31 - clzScan 32 b + 1 = 32 - clzScan 32 b := by omega
    rw [e]; exact c3
  · have e : 31 - clzScan 32 b + 1 = 32 - clzScan 32 b := by omega
    have hdiv : b / 2 ^ (31 - clzScan 32 b) = 1 := by
      have hpos : 0 < 2 ^ (31 - clzScan 32 b) := Nat.pow_pos (by decide)
      have c2b : 2 ^ (31 - clzScan 32 b) ≤ b := by simpa using c2
      have h2 : b / 2 ^ (31 - clzScan 32 b) < 2 := by
        rw [Nat.div_lt_iff_lt_mul hpos]
        have c3b : b < 2 ^ (31 - clzScan 32 b + 1) := by rw [e]; exact c3
        rw [Nat.pow_succ] at c3b
        omega
      have h3 : 0 < b / 2 ^ (31 - clzScan 32 b) := Nat.div_pos c2b hpos
      omega
    rw [Nat.testBit_to_div_mod, hdiv]
    rfl
  · intro q hq
    apply Nat.testBit_lt_two_pow
    have e : 32 - clzScan 32 b ≤ q := by omega
    exact Nat.lt_of_lt_of_le c3 (Nat.pow_le_pow_right (by decide) e)

/-- C9.  For every non-zero 32-bit ready bitmap `b`, `portGET_HIGHEST_PRIORITY`
(`31 - clz(b)`) returns a priority `p` with `2^p ≤ b < 2^(p+1)`: bit `p` of `b` is set and
no bit above `p` is set. -/
theorem portGET_HIGHEST_PRIORITY_msb (b : Nat) (h0 : 0 < b) (hb : b < WORD) :
    ∃ p, portGET_HIGHEST_PRIORITY b = some p ∧ p ≤ 31 ∧ 2 ^ p ≤ b ∧ b < 2 ^ (p + 1) ∧
      b.testBit p = true ∧ ∀ q, p < q → b.testBit q = false :=
  highest_priority_of_bitmap b h0 hb

/-- C9 at the bitmap `0b1100` of Scenario C: the highest ready priority is 3. -/
theorem portGET_HIGHEST_PRIORITY_msb_witness :
    ∃ p, portGET_HIGHEST_PRIORITY 12 = some p ∧ p ≤ 31 ∧ 2 ^ p ≤ 12 ∧ 12 < 2 ^ (p + 1) ∧
      (12 : Nat).testBit p = true ∧ ∀ q, p < q → (12 : Nat).testBit q = false :=
  portGET_HIGHEST_PRIORITY_msb 12 (by decide) (by decide)

/-! ## Task selection (`vDebugTaskSelect`) -/

@[simp] theorem readItem_setIndex (heap : ListHeap) (l : Nat) (v : Option ItemPtr)
    (p : ItemPtr) : readItem (setIndex heap l v) p = readItem heap p := by
  cases p with
  | listEnd k =>
    simp only [readItem, setIndex]
    split
    · rename_i h; subst h; rfl
    · rfl
  | item i => rfl

@[simp] theorem setIndex_index (heap : ListHeap) (l : Nat) (v : Option ItemPtr) :
    ((setIndex heap l v).lists l).pxIndex = v := by
  simp [setIndex]

@[simp] theorem setIndex_items (heap : ListHeap) (l : Nat) (v : Option ItemPtr) :
    (setIndex heap l v).items = heap.items := rfl

theorem setIndex_setIndex (heap : ListHeap) (l : Nat) (v w : Option ItemPtr) :
    setIndex (setIndex heap l v) l w = setIndex heap l w := by
  unfold setIndex
  congr 1
  funext k
  by_cases hk : k = l
  · simp [hk]
  · simp [hk]

theorem Chain_setIndex (heap : ListHeap) (l : Nat) (v : Option ItemPtr) :
    ∀ (xs : List Nat) (a z : ItemPtr), Chain heap a xs z → Chain (setIndex heap l v) a xs z := by
  intro xs
  induction xs with
  | nil =>
    intro a z h
    simp only [Chain, readItem_setIndex] at *
    exact h
  | cons x xs ih =>
    intro a z h
    simp only [Chain, readItem_setIndex] at *
    exact ⟨h.1, ih _ _ h.2⟩

/-- In a chain, the item at position `j` points to the item at position `j + 1`, or to
the end of the chain when it is the last one. -/
theorem Chain_next (heap : ListHeap) (z : ItemPtr) :
    ∀ (xs : List Nat) (a : ItemPtr) (j x : Nat), Chain heap a xs z → xs[j]? = some x →
      (readItem heap (ItemPtr.item x)).pxNext
        = some (match xs[j + 1]? with
                | some y => ItemPtr.item y
                | none => z) := by
  intro xs
  induction xs with
  | nil =>
    intro a j x _ hx
    simp at hx
  | cons x0 xs ih =>
    intro a j x h hx
    obtain ⟨_, h2⟩ := h
    cases j with
    | zero =>
      simp only [List.getElem?_cons_zero, Option.some.injEq] at hx
      subst hx
      cases xs with
      | nil => simpa [Chain] using h2
      | cons x1 xs => simpa [Chain] using h2.1
    | succ j =>
      simp only [List.getElem?_cons_succ] at hx
      have := ih (ItemPtr.item x0) j x h2 hx
      simpa using this

/-- The successor pointer at every position of a ring, the sentinel included. -/
theorem Ring_next (heap : ListHeap) (p : Nat) (xs : List Nat) (j : Nat)
    (hring : Ring heap p xs) (hj : j ≤ xs.length) :
    (readItem heap (ptrAt p xs j)).pxNext
      = some (if j < xs.length then ptrAt p xs (j + 1) else ptrAt p xs 0) := by
  by_cases hlt : j < xs.length
  · rw [if_pos hlt]
    have hx : xs[j]? = some xs[j] := List.getElem?_eq_getElem hlt
    have := Chain_next heap (ItemPtr.listEnd p) xs _ j xs[j] hring hx
    unfold ptrAt
    rw [hx]
    simp only
    rw [this]
  · rw [if_neg hlt]
    have hx : xs[j]? = none := List.getElem?_eq_none (by omega)
    unfold ptrAt
    rw [hx]
    simp only
    cases xs with
    | nil => simpa [Ring, Chain] using hring
    | cons x0 xs => simpa [Ring, Chain] using hring.1

theorem ptrAt_lt (p : Nat) (xs : List Nat) (j : Nat) (h : j < xs.length) :
    ptrAt p xs j = ItemPtr.item xs[j] := by
  unfold ptrAt
  rw [List.getElem?_eq_getElem h]

theorem ptrAt_ge (p : Nat) (xs : List Nat) (j : Nat) (h : xs.length ≤ j) :
    ptrAt p xs j = ItemPtr.listEnd p := by
  unfold ptrAt
  rw [List.getElem?_eq_none h]

theorem nextPos_lt (len j : Nat) (h : 0 < len) : nextPos len j < len := by
  unfold nextPos
  split <;> omega

/-- The cursor advance on a non-empty ring: from any position (an item or the sentinel)
the cursor moves to the item at the next round-robin position, whose owner is returned;
nothing but `pxIndex` is written. -/
theorem vDebugGetNextEntry_ring (heap : ListHeap) (p : Nat) (xs : List Nat) (j : Nat)
    (hring : Ring heap p xs) (hne : xs ≠ []) (hj : j ≤ xs.length)
    (hcur : (heap.lists p).pxIndex = some (ptrAt p xs j)) :
    ∃ y, xs[nextPos xs.length j]? = some y ∧
      vDebugGetNextEntry heap p
        = Outcome.done (setIndex heap p (some (ItemPtr.item y)), (heap.items y).pvOwner) := by
  have hpos : 0 < xs.length := List.length_pos.2 hne
  have h0 := Ring_next heap p xs j hring hj
  have hs := Ring_next heap p xs xs.length hring (Nat.le_refl _)
  rw [if_neg (Nat.lt_irrefl _), ptrAt_ge p xs xs.length (Nat.le_refl _), ptrAt_lt p xs 0 hpos] at hs
  unfold vDebugGetNextEntry
  rw [hcur]
  simp only [setIndex_index, h0]
  by_cases hlt : j < xs.length
  · rw [if_pos hlt]
    by_cases hlt1 : j + 1 < xs.length
    · refine ⟨xs[j + 1], ?_, ?_⟩
      · simp [nextPos, hlt1]
      · rw [ptrAt_lt p xs (j + 1) hlt1]
        simp [readItem]
    · refine ⟨xs[0], ?_, ?_⟩
      · simp [nextPos, hlt1]
      · rw [ptrAt_ge p xs (j + 1) (by omega)]
        simp [hs, setIndex_setIndex]
        rfl
  · rw [if_neg hlt]
    refine ⟨xs[0], ?_, ?_⟩
    · have : ¬ j + 1 < xs.length := by omega
      simp [nextPos, this]
    · rw [ptrAt_lt p xs 0 hpos]
      simp [readItem]
/-- The highest set bit of a bitmap is unique. -/
theorem highest_bit_unique (b p q : Nat) (hp1 : 2 ^ p ≤ b) (hp2 : b < 2 ^ (p + 1))
    (hq1 : 2 ^ q ≤ b) (hq2 : b < 2 ^ (q + 1)) : p = q := by
  have h1 : 2 ^ p < 2 ^ (q + 1) := Nat.lt_of_le_of_lt hp1 hq2
  have h2 : 2 ^ q < 2 ^ (p + 1) := Nat.lt_of_le_of_lt hq1 hp2
  have h3 := (Nat.pow_lt_pow_iff_right (by decide : 1 < 2)).1 h1
  have h4 := (Nat.pow_lt_pow_iff_right (by decide : 1 < 2)).1 h2
  omega

/-- One call of `vDebugTaskSelect` when `p` is the highest set bit of the bitmap and the
ready list of priority `p` is a non-empty ring. -/
theorem vDebugTaskSelect_ring (st : SchedState) (p : Nat) (xs : List Nat) (j : Nat)
    (hlo : 2 ^ p ≤ st.uxTopReadyPriority) (hhi : st.uxTopReadyPriority < 2 ^ (p + 1))
    (hw : st.uxTopReadyPriority < WORD)
    (hring : Ring st.heap p xs) (hne : xs ≠ []) (hj : j ≤ xs.length)
    (hcur : (st.heap.lists p).pxIndex = some (ptrAt p xs j)) :
    ∃ y st1, xs[nextPos xs.length j]? = some y ∧ vDebugTaskSelect st = Outcome.done st1 ∧
      st1.heap = setIndex st.heap p (some (ItemPtr.item y)) ∧
      st1.pxCurrentTCB = (st.heap.items y).pvOwner ∧
      st1.uxTopReadyPriority = st.uxTopReadyPriority := by
  have hpos : 0 < st.uxTopReadyPriority := Nat.lt_of_lt_of_le (Nat.pow_pos (by decide)) hlo
  obtain ⟨q, hq, _, hq1, hq2, _⟩ := highest_priority_of_bitmap st.uxTopReadyPriority hpos hw
  have hpq : q = p := highest_bit_unique _ q p hq1 hq2 hlo hhi
  subst hpq
  obtain ⟨y, hy, hget⟩ := vDebugGetNextEntry_ring st.heap q xs j hring hne hj hcur
  refine ⟨y, ?_⟩
  unfold vDebugTaskSelect
  simp only [hq, listGetOwnerOfNextEntry]
  by_cases ht : st.g_trace_index < 1000
  · simp only [ht, if_true, hget]
    exact ⟨_, hy, rfl, rfl, rfl, rfl⟩
  · simp only [ht, if_false, hget]
    exact ⟨_, hy, rfl, rfl, rfl, rfl⟩

/-- Any number of calls of `vDebugTaskSelect`: as long as nothing else touches the state,
each call moves the cursor of the highest ready priority one round-robin position on and
makes the owner of that item the current task. -/
theorem selects_ring (p : Nat) (xs : List Nat) (hne : xs ≠ []) :
    ∀ (n : Nat) (st : SchedState) (j : Nat),
      2 ^ p ≤ st.uxTopReadyPriority → st.uxTopReadyPriority < 2 ^ (p + 1) →
      st.uxTopReadyPriority < WORD → Ring st.heap p xs → j ≤ xs.length →
      (st.heap.lists p).pxIndex = some (ptrAt p xs j) →
      ∃ y st1, xs[(nextPos xs.length)^[n + 1] j]? = some y ∧
        selects (n + 1) st = Outcome.done st1 ∧
        st1.heap = setIndex st.heap p (some (ItemPtr.item y)) ∧
        st1.pxCurrentTCB = (st.heap.items y).pvOwner ∧
        st1.uxTopReadyPriority = st.uxTopReadyPriority := by
  have hpos : 0 < xs.length := List.length_pos.2 hne
  intro n
  induction n with
  | zero =>
    intro st j hlo hhi hw hring hj hcur
    obtain ⟨y, st1, hy, hsel, h1, h2, h3⟩ :=
      vDebugTaskSelect_ring st p xs j hlo hhi hw hring hne hj hcur
    refine ⟨y, st1, by simpa using hy, ?_, h1, h2, h3⟩
    simp [selects, hsel]
  | succ n ih =>
    intro st j hlo hhi hw hring hj hcur
    obtain ⟨y, st1, hy, hsel, h1, h2, h3⟩ :=
      vDebugTaskSelect_ring st p xs j hlo hhi hw hring hne hj hcur
    have hj1 : nextPos xs.length j ≤ xs.length := Nat.le_of_lt (nextPos_lt _ _ hpos)
    have hcur1 : (st1.heap.lists p).pxIndex = some (ptrAt p xs (nextPos xs.length j)) := by
      rw [h1, setIndex_index]
      unfold ptrAt
      rw [hy]
    have hring1 : Ring st1.heap p xs := by
      rw [h1]
      exact Chain_setIndex st.heap p _ xs _ _ hring
    obtain ⟨y2, st2, hy2, hsel2, g1, g2, g3⟩ :=
      ih st1 (nextPos xs.length j) (h3 ▸ hlo) (h3 ▸ hhi) (h3 ▸ hw) hring1 hj1 hcur1
    refine ⟨y2, st2, ?_, ?_, ?_, ?_, ?_⟩
    · rw [Function.iterate_succ_apply]
      exact hy2
    · rw [selects, hsel]
      exact hsel2
    · rw [g1, h1, setIndex_setIndex]
    · rw [g2, h1, setIndex_items]
    · rw [g3, h3]

/-- Round-robin positions starting from an item: `n` advances from position `j` lead to
position `(j + n) mod len`. -/
theorem nextPos_iterate (len : Nat) (hlen : 0 < len) :
    ∀ (n j : Nat), j < len → (nextPos len)^[n] j = (j + n) % len := by
  intro n
  induction n with
  | zero =>
    intro j hj
    simp [Nat.mod_eq_of_lt hj]
  | succ n ih =>
    intro j hj
    rw [Function.iterate_succ_apply]
    have h1 : nextPos len j = (j + 1) % len := by
      unfold nextPos
      split
      · rename_i h; rw [Nat.mod_eq_of_lt h]
      · have : j + 1 = len := by omega
        rw [this, Nat.mod_self]
    rw [ih _ (nextPos_lt len j hlen), h1, Nat.mod_add_mod]
    congr 1
    omega

/-- Round-robin positions starting from the sentinel: the first advance reaches the first
item, the `(n + 1)`-th one position `n mod len`. -/
theorem nextPos_iterate_sentinel (len : Nat) (hlen : 0 < len) (n : Nat) :
    (nextPos len)^[n + 1] len = n % len := by
  rw [Function.iterate_succ_apply]
  have h1 : nextPos len len = 0 := by
    unfold nextPos
    rw [if_neg (by omega)]
  rw [h1, nextPos_iterate len hlen n 0 hlen, Nat.zero_add]
/-- C10.  Task selection returns a task of the highest ready priority.  For every state in
which `p` is the highest set bit of the 32-bit ready bitmap and `pxReadyTasksLists[p]` is
a ring holding the items `xs` (not empty) with its cursor on the sentinel or on one of
its items: `vDebugTaskSelect` returns, moves that cursor to the item after it in
round-robin order and sets `pxCurrentTCB` to the owner of that item; the same holds after
any number `n + 1` of calls, the bitmap and the ring being unchanged.  In Scenario C
(priorities 2, 2, 3) every call selects the priority-3 task 103; in every state that
differs from Scenario C only in that bit 3 is cleared and in the contents of list 3 and
item 3, the calls select the priority-2 tasks 101, 102, 101, 102, ... -/
theorem vDebugTaskSelect_highest_priority :
    (∀ (st : SchedState) (p : Nat) (xs : List Nat) (j : Nat),
      2 ^ p ≤ st.uxTopReadyPriority → st.uxTopReadyPriority < 2 ^ (p + 1) →
      st.uxTopReadyPriority < WORD → Ring st.heap p xs → xs ≠ [] → j ≤ xs.length →
      (st.heap.lists p).pxIndex = some (ptrAt p xs j) →
      (∃ y st1, xs[nextPos xs.length j]? = some y ∧
        vDebugTaskSelect st = Outcome.done st1 ∧
        (st1.heap.lists p).pxIndex = some (ItemPtr.item y) ∧
        st1.pxCurrentTCB = (st.heap.items y).pvOwner) ∧
      ∀ n, ∃ y st1, xs[(nextPos xs.length)^[n + 1] j]? = some y ∧
        selects (n + 1) st = Outcome.done st1 ∧
        (st1.heap.lists p).pxIndex = some (ItemPtr.item y) ∧
        st1.pxCurrentTCB = (st.heap.items y).pvOwner ∧
        st1.uxTopReadyPriority = st.uxTopReadyPriority ∧ Ring st1.heap p xs) ∧
    (∀ n, ∃ st1, selects (n + 1) scenarioC = Outcome.done st1 ∧
      st1.pxCurrentTCB = some 103) ∧
    (∀ st2 : SchedState,
      st2.uxTopReadyPriority = portRESET_READY_PRIORITY 3 scenarioC.uxTopReadyPriority →
      st2.heap.lists 2 = scenarioC.heap.lists 2 →
      st2.heap.items 1 = scenarioC.heap.items 1 →
      st2.heap.items 2 = scenarioC.heap.items 2 →
      ∀ n, ∃ st1, selects (n + 1) st2 = Outcome.done st1 ∧
        st1.pxCurrentTCB = some (101 + n % 2)) := by
  refine ⟨?_, ?_, ?_⟩
  · intro st p xs j hlo hhi hw hring hne hj hcur
    refine ⟨?_, ?_⟩
    · obtain ⟨y, st1, hy, hsel, h1, h2, _⟩ :=
        vDebugTaskSelect_ring st p xs j hlo hhi hw hring hne hj hcur
      exact ⟨y, st1, hy, hsel, by rw [h1, setIndex_index], h2⟩
    · intro n
      obtain ⟨y, st1, hy, hsel, h1, h2, h3⟩ :=
        selects_ring p xs hne n st j hlo hhi hw hring hj hcur
      refine ⟨y, st1, hy, hsel, by rw [h1, setIndex_index], h2, h3, ?_⟩
      rw [h1]
      exact Chain_setIndex st.heap p _ xs _ _ hring
  · intro n
    obtain ⟨y, st1, hy, hsel, _, h2, _⟩ :=
      selects_ring 3 [3] (by decide) n scenarioC 1 (by decide) (by decide) (by decide)
        (by decide) (by decide) (by decide)
    have hmem : y ∈ [3] := List.getElem?_mem hy
    have hy3 : y = 3 := by simpa using hmem
    subst hy3
    exact ⟨st1, hsel, h2.trans (by decide)⟩
  · intro st2 hbit hl hi1 hi2 n
    have hbm : st2.uxTopReadyPriority = 4 := by rw [hbit]; decide
    have hring : Ring st2.heap 2 [1, 2] := by
      have h0 : Ring scenarioC.heap 2 [1, 2] := by decide
      simp only [Ring, Chain, readItem] at h0 ⊢
      rw [hl, hi1, hi2]
      exact h0
    have hcur : (st2.heap.lists 2).pxIndex = some (ptrAt 2 [1, 2] 2) := by
      rw [hl]; decide
    obtain ⟨y, st1, hy, hsel, _, h2, _⟩ :=
      selects_ring 2 [1, 2] (by decide) n st2 2 (by rw [hbm]; decide) (by rw [hbm]; decide)
        (by rw [hbm]; decide) hring (by decide) hcur
    have hpos : (nextPos [1, 2].length)^[n + 1] 2 = n % 2 :=
      nextPos_iterate_sentinel 2 (by decide) n
    rw [hpos] at hy
    refine ⟨st1, hsel, ?_⟩
    rw [h2]
    rcases Nat.mod_two_eq_zero_or_one n with h | h
    · rw [h] at hy ⊢
      simp only [List.getElem?_cons_zero, Option.some.injEq] at hy
      subst hy
      rw [hi1]
      decide
    · rw [h] at hy ⊢
      simp only [List.getElem?_cons_succ, List.getElem?_cons_zero, Option.some.injEq] at hy
      subst hy
      rw [hi2]
      decide

/-- C10 on Scenario C: five calls of `vDebugTaskSelect` in a row leave the priority-3
task 103 selected. -/
theorem vDebugTaskSelect_highest_priority_witness :
    ∃ st1, selects 5 scenarioC = Outcome.done st1 ∧ st1.pxCurrentTCB = some 103 :=
  vDebugTaskSelect_highest_priority.2.1 4

/-- C8 at the wrap of Scenario B: the handler returns with the cursor equal to the wake
time 1 of the task that is now the head of the normal list. -/
theorem next_unblock_recomputed_witness :
    ∃ s1, SysTick_Handler 1 stateBeforeWrap = Outcome.done s1 ∧
      s1.pxDelayedTaskList.pxHead = some 0 ∧ (s1.mem 0).xWakeTime = 1 ∧
      s1.xNextTaskUnblockTime = headWakeTime s1 ∧ s1.xNextTaskUnblockTime = 1 :=
  ⟨_, rfl, rfl, rfl, ((next_unblock_recomputed 1 stateBeforeWrap).2.1 rfl).2 _ rfl, rfl⟩

/-! ## A single delayed task wakes on time when the ready list is empty -/

/-- A tick that is not the last one of the delay: the handler returns and the task keeps
sleeping, with one tick less to go. -/
theorem Sleeping_tick (fuel c r : Nat) (s : State) (hr : 1 ≤ r) (h : Sleeping c (r + 1) s) :
    ∃ s1, SysTick_Handler (fuel + 1) s = Outcome.done s1 ∧ Sleeping c r s1 ∧
      s1.xTickCount = (s.xTickCount + 1) % WORD := by
  obtain ⟨ht, hrw, hwake, hready, hnext, hcur, hrl, hlist⟩ := h
  by_cases hwrap : s.xTickCount = UINT32_MAX
  · -- the counter wraps: the task must be in the overflow list
    have hadv := SysTick_advance_wrap s hwrap
    rcases hlist with ⟨hlt, _, _⟩ | ⟨_, hO, hN⟩
    · unfold UINT32_MAX WORD at *; omega
    · have hw : (s.mem c).xWakeTime = r := by
        rw [hwake, hwrap]; unfold UINT32_MAX WORD at *; omega
      unfold SysTick_Handler
      rw [hadv]
      simp only [updateNextUnblock, hO, hN, hw]
      have hr0 : ¬ (0 ≥ r) := by omega
      rw [if_neg hr0]
      refine ⟨_, rfl, ?_, ?_⟩
      · refine ⟨by show 0 < WORD; unfold WORD; omega, by omega, ?_, hready, hnext, hw.symm, hrl, ?_⟩
        · show (s.mem c).xWakeTime = (0 + r) % WORD
          rw [hw, Nat.zero_add, Nat.mod_eq_of_lt (by omega)]
        · left
          exact ⟨by show 0 + r < WORD; omega, rfl, rfl⟩
      · show 0 = (s.xTickCount + 1) % WORD
        rw [hwrap]; rfl
  · have hadv := SysTick_advance_plain s ht hwrap
    have ht1 : s.xTickCount + 1 < WORD := by unfold UINT32_MAX WORD at *; omega
    have hmod : (s.xTickCount + 1) % WORD = s.xTickCount + 1 := Nat.mod_eq_of_lt ht1
    unfold SysTick_Handler
    rw [hadv]
    simp only
    rcases hlist with ⟨hlt, hN, hO⟩ | ⟨hge, hO, hN⟩
    · -- normal list, not yet due
      have hw : (s.mem c).xWakeTime = s.xTickCount + (r + 1) := by
        rw [hwake, Nat.mod_eq_of_lt hlt]
      have hnd : ¬ (s.xTickCount + 1 ≥ s.xNextTaskUnblockTime) := by
        rw [hcur, hw]; omega
      rw [if_neg hnd]
      refine ⟨_, rfl, ?_, hmod.symm⟩
      refine ⟨ht1, by omega, ?_, hready, hnext, hcur, hrl, ?_⟩
      · show (s.mem c).xWakeTime = (s.xTickCount + 1 + r) % WORD
        rw [hw, Nat.mod_eq_of_lt (by omega)]; omega
      · left
        exact ⟨by show s.xTickCount + 1 + r < WORD; omega, hN, hO⟩
    · -- overflow list, the counter has not wrapped yet
      have hw : (s.mem c).xWakeTime = s.xTickCount + (r + 1) - WORD := by
        rw [hwake]; unfold WORD at *; omega
      have hd : s.xTickCount + 1 ≥ s.xNextTaskUnblockTime := by
        rw [hcur, hw]; omega
      rw [if_pos hd]
      unfold vTaskCheckDelayedTasks
      rw [vTaskCheckDelayedTasks_loop_idle fuel _ (by intro a ha; simp [hN] at ha)]
      simp only [updateNextUnblock, hN, hO]
      refine ⟨_, rfl, ?_, hmod.symm⟩
      refine ⟨ht1, by omega, ?_, hready, hnext, rfl, hrl, ?_⟩
      · show (s.mem c).xWakeTime = (s.xTickCount + 1 + r) % WORD
        rw [hw]; unfold WORD at *; omega
      · right
        exact ⟨by show WORD ≤ s.xTickCount + 1 + r; omega, hO, hN⟩
/-- Waking a single due task into an empty ready list: `vTaskCheckDelayedTasks` returns,
the task has left the normal list, is alone in the ready list and has `bReady = 1`. -/
theorem vTaskCheckDelayedTasks_single (fuel c : Nat) (s : State)
    (hN : s.pxDelayedTaskList.pxHead = some c) (hnext : (s.mem c).pxNext = none)
    (hdue : (s.mem c).xWakeTime ≤ s.xTickCount) (hR : s.pxReadyList.pxHead = none) :
    ∃ s1, vTaskCheckDelayedTasks (fuel + 2) s = Outcome.done s1 ∧
      s1.xTickCount = s.xTickCount ∧ s1.pxDelayedTaskList.pxHead = none ∧
      s1.pxOverflowDelayedTaskList = s.pxOverflowDelayedTaskList ∧
      IsList s1.mem s1.pxReadyList.pxHead [c] ∧ (s1.mem c).bReady = 1 := by
  have hR2 : s.pxReadyList = { pxHead := none } := by
    rw [List_t_eta s.pxReadyList, hR]
  have hloop : vTaskCheckDelayedTasks_loop (fuel + 2) s = Outcome.done
      { s with mem := setNext (setReady (setNext s.mem c none) c 1) c none,
               pxDelayedTaskList := { pxHead := none },
               pxReadyList := { pxHead := some c } } := by
    rw [vTaskCheckDelayedTasks_loop]
    simp only [hN, hdue, if_true]
    rw [vListRemove_head (fuel + 1) s.mem s.pxDelayedTaskList c hN]
    simp only [hR2, vListInsert_empty, hnext]
    rw [vTaskCheckDelayedTasks_loop_idle fuel _ (by intro a ha; simp at ha)]
  unfold vTaskCheckDelayedTasks
  rw [hloop]
  simp only
  obtain ⟨f1, f2, f3, f4, _, f6⟩ := updateNextUnblock_frame
    { s with mem := setNext (setReady (setNext s.mem c none) c 1) c none,
             pxDelayedTaskList := { pxHead := none },
             pxReadyList := { pxHead := some c } }
  refine ⟨_, rfl, f1, by rw [f2], f3, ?_, ?_⟩
  · rw [f4, f6]
    simp [IsList]
  · rw [f6]
    simp

/-- The last tick of the delay: the handler returns and has moved the task to the ready
list with `bReady = 1`. -/
theorem Sleeping_last_tick (fuel c : Nat) (s : State) (h : Sleeping c 1 s) :
    ∃ s1, SysTick_Handler (fuel + 2) s = Outcome.done s1 ∧
      s1.xTickCount = (s.xTickCount + 1) % WORD ∧
      IsList s1.mem s1.pxReadyList.pxHead [c] ∧ (s1.mem c).bReady = 1 ∧
      s1.pxDelayedTaskList.pxHead = none ∧ s1.pxOverflowDelayedTaskList.pxHead = none := by
  obtain ⟨ht, _, hwake, _, hnext, hcur, hrl, hlist⟩ := h
  by_cases hwrap : s.xTickCount = UINT32_MAX
  · have hadv := SysTick_advance_wrap s hwrap
    rcases hlist with ⟨hlt, _, _⟩ | ⟨_, hO, hN⟩
    · unfold UINT32_MAX WORD at *; omega
    · have hw : (s.mem c).xWakeTime = 0 := by
        rw [hwake, hwrap]; rfl
      unfold SysTick_Handler
      rw [hadv]
      simp only [updateNextUnblock, hO, hN, hw]
      rw [if_pos (Nat.le_refl 0)]
      obtain ⟨s1, h1, h2, h3, h4, h5, h6⟩ := vTaskCheckDelayedTasks_single fuel c
        { s with xTickCount := 0, xNextTaskUnblockTime := 0,
                 pxDelayedTaskList := { pxHead := some c },
                 pxOverflowDelayedTaskList := { pxHead := none } }
        rfl hnext (by show (s.mem c).xWakeTime ≤ 0; omega) hrl
      refine ⟨s1, h1, ?_, h5, h6, h3, by rw [h4]⟩
      rw [h2, hwrap]; rfl
  · have hadv := SysTick_advance_plain s ht hwrap
    have ht1 : s.xTickCount + 1 < WORD := by unfold UINT32_MAX WORD at *; omega
    have hmod : (s.xTickCount + 1) % WORD = s.xTickCount + 1 := Nat.mod_eq_of_lt ht1
    rcases hlist with ⟨_, hN, hO⟩ | ⟨hge, _, _⟩
    · have hw : (s.mem c).xWakeTime = s.xTickCount + 1 := by rw [hwake, hmod]
      unfold SysTick_Handler
      rw [hadv]
      simp only
      have hd : s.xTickCount + 1 ≥ s.xNextTaskUnblockTime := by omega
      rw [if_pos hd]
      obtain ⟨s1, h1, h2, h3, h4, h5, h6⟩ := vTaskCheckDelayedTasks_single fuel c
        { s with xTickCount := s.xTickCount + 1 }
        hN hnext (by show (s.mem c).xWakeTime ≤ s.xTickCount + 1; omega) hrl
      refine ⟨s1, h1, ?_, h5, h6, h3, by rw [h4]; exact hO⟩
      rw [h2, hmod]
    · omega

/-- With both delayed lists and the ready list empty and the cursor at 0 or `UINT32_MAX`,
`vTaskDelay(d)` returns and leaves the caller sleeping for `d` ticks. -/
theorem vTaskDelay_Sleeping (fuel d c : Nat) (s : State) (ht : s.xTickCount < WORD)
    (hd : d < WORD) (hcur : s.pxCurrentTask = some c)
    (hN : s.pxDelayedTaskList.pxHead = none) (hO : s.pxOverflowDelayedTaskList.pxHead = none)
    (hR : s.pxReadyList.pxHead = none)
    (hnext : s.xNextTaskUnblockTime = 0 ∨ s.xNextTaskUnblockTime = UINT32_MAX) :
    ∃ s1, vTaskDelay (fuel + 1) d s = Outcome.done s1 ∧ Sleeping c d s1 ∧
      s1.xTickCount = s.xTickCount := by
  obtain ⟨s1, h1, h2, h3⟩ := vTaskDelay_empty fuel d c s hcur hN hO
  obtain ⟨g1, g2, g3, g4, _, _⟩ := vTaskDelay_returns _ d c s s1 hcur h1
  have hiff := wake_lt_tick_iff s.xTickCount d ht hd
  have hwlt : (s.xTickCount + d) % WORD < WORD := Nat.mod_lt _ (by unfold WORD; omega)
  have hR1 : s1.pxReadyList.pxHead = none := by
    have hsw := h1
    unfold vTaskDelay at hsw
    rw [hcur] at hsw
    simp only at hsw
    have hN2 : s.pxDelayedTaskList = { pxHead := none } := by
      rw [List_t_eta s.pxDelayedTaskList, hN]
    have hO2 : s.pxOverflowDelayedTaskList = { pxHead := none } := by
      rw [List_t_eta s.pxOverflowDelayedTaskList, hO]
    rw [hN2, hO2, vListInsert_empty] at hsw
    simp only [vTaskSwitchContext_eq, hR] at hsw
    split at hsw
    · cases hsw
      exact hR
    · cases hsw
      exact hR
  refine ⟨s1, h1, ⟨by rw [g1]; exact ht, hd, by rw [g1]; exact g2, g3, ?_, ?_, hR1, ?_⟩, g1⟩
  · by_cases hlt : (s.xTickCount + d) % WORD < s.xTickCount
    · exact (h2 hlt).1.2
    · exact (h3 hlt).1.2
  · rw [g4, g2]
    rcases hnext with h0 | hmax
    · simp [h0]
    · rw [hmax]
      split
      · rfl
      · rename_i hc
        simp only [not_or, not_lt] at hc
        unfold UINT32_MAX WORD at *
        omega
  · rw [g1]
    by_cases hlt : (s.xTickCount + d) % WORD < s.xTickCount
    · right
      exact ⟨hiff.1 hlt, (h2 hlt).1.1, (h2 hlt).2⟩
    · left
      refine ⟨?_, (h3 hlt).1.1, (h3 hlt).2⟩
      by_contra hge
      exact hlt (hiff.2 (by omega))
/-- Running one more tick after `k` ticks that returned. -/
theorem ticks_succ_last (fuel : Nat) :
    ∀ (k : Nat) (s sk : State), ticks fuel k s = Outcome.done sk →
      ticks fuel (k + 1) s = SysTick_Handler fuel sk := by
  intro k
  induction k with
  | zero =>
    intro s sk h
    simp only [ticks] at h
    cases h
    simp only [ticks]
    cases SysTick_Handler fuel s <;> rfl
  | succ k ih =>
    intro s sk h
    rw [ticks] at h
    rw [ticks]
    cases hs : SysTick_Handler fuel s with
    | done s1 =>
      rw [hs] at h
      exact ih s1 sk h
    | nullDeref => rw [hs] at h; cases h
    | outOfFuel => rw [hs] at h; cases h
    | undefined => rw [hs] at h; cases h

/-- While more than `k` ticks are left the task sleeps through `k` ticks. -/
theorem Sleeping_ticks (fuel c : Nat) :
    ∀ (k r : Nat) (s : State), 1 ≤ r → Sleeping c (r + k) s →
      ∃ sk, ticks (fuel + 1) k s = Outcome.done sk ∧ Sleeping c r sk ∧
        sk.xTickCount = (s.xTickCount + k) % WORD := by
  intro k
  induction k with
  | zero =>
    intro r s _ h
    exact ⟨s, rfl, h, (Nat.mod_eq_of_lt h.1).symm⟩
  | succ k ih =>
    intro r s hr h
    obtain ⟨s1, h1, h2, h3⟩ := Sleeping_tick fuel c (r + k) s (by omega) h
    obtain ⟨sk, g1, g2, g3⟩ := ih r s1 hr h2
    refine ⟨sk, ?_, g2, ?_⟩
    · rw [ticks, h1]
      exact g1
    · rw [g3, h3, Nat.mod_add_mod]
      congr 1
      omega

/-- A single delayed task wakes exactly on time when nothing else is ready.  From any
32-bit tick count `t`, with both delayed lists and the ready list empty and the cursor
at 0 or `UINT32_MAX`, after `vTaskDelay(d)` with `1 ≤ d < 2^32`: after each of the first
`d - 1` ticks the ready list is still empty and the task has `bReady = 0`, and after the
`d`-th tick, at `xTickCount = (t + d) mod 2^32`, the task is alone in the ready list
with `bReady = 1`.  This covers delays that cross the wrap of the counter. -/
theorem delay_wakes_on_time (fuel d c : Nat) (s : State) (ht : s.xTickCount < WORD)
    (hd1 : 1 ≤ d) (hd : d < WORD) (hcur : s.pxCurrentTask = some c)
    (hN : s.pxDelayedTaskList.pxHead = none) (hO : s.pxOverflowDelayedTaskList.pxHead = none)
    (hR : s.pxReadyList.pxHead = none)
    (hnext : s.xNextTaskUnblockTime = 0 ∨ s.xNextTaskUnblockTime = UINT32_MAX) :
    (∀ k, k < d → ∃ sk, delayThenTicks (fuel + 2) d k s = Outcome.done sk ∧
      sk.pxReadyList.pxHead = none ∧ (sk.mem c).bReady = 0 ∧
      sk.xTickCount = (s.xTickCount + k) % WORD) ∧
    ∃ sd, delayThenTicks (fuel + 2) d d s = Outcome.done sd ∧
      IsList sd.mem sd.pxReadyList.pxHead [c] ∧ (sd.mem c).bReady = 1 ∧
      sd.xTickCount = (s.xTickCount + d) % WORD := by
  obtain ⟨s0, h0, hs0, ht0⟩ := vTaskDelay_Sleeping (fuel + 1) d c s ht hd hcur hN hO hR hnext
  refine ⟨?_, ?_⟩
  · intro k hk
    have hsl : Sleeping c ((d - k) + k) s0 := by
      have : d - k + k = d := by omega
      rw [this]; exact hs0
    obtain ⟨sk, g1, g2, g3⟩ := Sleeping_ticks (fuel + 1) c k (d - k) s0 (by omega) hsl
    refine ⟨sk, ?_, g2.2.2.2.2.2.2.1, g2.2.2.2.1, by rw [g3, ht0]⟩
    unfold delayThenTicks
    rw [h0]
    exact g1
  · have hsl : Sleeping c (1 + (d - 1)) s0 := by
      have : 1 + (d - 1) = d := by omega
      rw [this]; exact hs0
    obtain ⟨sk, g1, g2, g3⟩ := Sleeping_ticks (fuel + 1) c (d - 1) 1 s0 (Nat.le_refl 1) hsl
    obtain ⟨sd, e1, e2, e3, e4, _, _⟩ := Sleeping_last_tick fuel c sk g2
    refine ⟨sd, ?_, e3, e4, ?_⟩
    · unfold delayThenTicks
      rw [h0]
      have hstep := ticks_succ_last (fuel + 2) (d - 1) s0 sk g1
      have : d - 1 + 1 = d := by omega
      rw [this] at hstep
      show ticks (fuel + 2) d s0 = Outcome.done sd
      rw [hstep]
      exact e1
    · rw [e2, g3, ht0, Nat.mod_add_mod]
      congr 1
      omega

/-- Scenario B as an instance of `delay_wakes_on_time`: from `xTickCount = 0xFFFFFFFE` a
delay of 3 leaves the ready list empty after two ticks and has the task ready after the
third, at `xTickCount = 1`. -/
theorem delay_wakes_on_time_scenarioB :
    (∃ s2, delayThenTicks 2 3 2 stateScenarioB = Outcome.done s2 ∧
      s2.pxReadyList.pxHead = none ∧ (s2.mem 0).bReady = 0 ∧ s2.xTickCount = 0) ∧
    ∃ s3, delayThenTicks 2 3 3 stateScenarioB = Outcome.done s3 ∧
      IsList s3.mem s3.pxReadyList.pxHead [0] ∧ (s3.mem 0).bReady = 1 ∧
      s3.xTickCount = 1 := by
  have h := delay_wakes_on_time 0 3 0 stateScenarioB (by decide) (by decide) (by decide)
    rfl rfl rfl rfl (Or.inr rfl)
  obtain ⟨s2, a1, a2, a3, a4⟩ := h.1 2 (by decide)
  obtain ⟨s3, b1, b2, b3, b4⟩ := h.2
  exact ⟨⟨s2, a1, a2, a3, a4⟩, ⟨s3, b1, b2, b3, b4⟩⟩

/-! ## `vListInitialise` -/

/-- C18.  Whatever the list held before, `vListInitialise` leaves `uxNumberOfItems = 0`,
the sentinel's `pxNext` and `pxPrevious` pointing to the sentinel, the sentinel's
`xItemValue = 0xFFFFFFFF` and `pxIndex` pointing to the sentinel; it touches no item and
no other list, and calling it a second time changes nothing. -/
theorem vListInitialise_state (heap : ListHeap) (l : Nat) :
    ((vListInitialise heap l).lists l).uxNumberOfItems = 0 ∧
    ((vListInitialise heap l).lists l).xListEnd.pxNext = some (ItemPtr.listEnd l) ∧
    ((vListInitialise heap l).lists l).xListEnd.pxPrevious = some (ItemPtr.listEnd l) ∧
    ((vListInitialise heap l).lists l).xListEnd.xItemValue = 4294967295 ∧
    ((vListInitialise heap l).lists l).pxIndex = some (ItemPtr.listEnd l) ∧
    (vListInitialise heap l).items = heap.items ∧
    (∀ k, k ≠ l → (vListInitialise heap l).lists k = heap.lists k) ∧
    vListInitialise (vListInitialise heap l) l = vListInitialise heap l := by
  refine ⟨?_, ?_, ?_, ?_, ?_, rfl, ?_, ?_⟩
  · simp [vListInitialise]
  · simp [vListInitialise]
  · simp [vListInitialise]
  · simp [vListInitialise]
  · simp [vListInitialise]
  · intro k hk
    simp [vListInitialise, hk]
  · unfold vListInitialise
    congr 1
    funext k
    by_cases hk : k = l
    · simp [hk]
    · simp [hk]

/-! ## The cursor advance (`vDebugGetNextEntry`) -/

/-- C12.  On a ring of items `xs` (not empty) whose cursor is on the sentinel or on one of
the items, `vDebugGetNextEntry` returns; the new `pxIndex` is the successor of the old one,
or the head of the list (`xListEnd.pxNext`) when that successor is the sentinel; it is an
item of the list, never the sentinel; the value returned is the `pvOwner` of the item it
points to; and nothing but `pxIndex` of this list is written: all items, every sentinel
and every `uxNumberOfItems` are unchanged. -/
theorem vDebugGetNextEntry_advance (heap : ListHeap) (p : Nat) (xs : List Nat) (j : Nat)
    (hring : Ring heap p xs) (hne : xs ≠ []) (hj : j ≤ xs.length)
    (hcur : (heap.lists p).pxIndex = some (ptrAt p xs j)) :
    ∃ h1 y, vDebugGetNextEntry heap p = Outcome.done (h1, (readItem h1 (ItemPtr.item y)).pvOwner) ∧
      y ∈ xs ∧ (h1.lists p).pxIndex = some (ItemPtr.item y) ∧
      some (ItemPtr.item y)
        = (if (readItem heap (ptrAt p xs j)).pxNext = some (ItemPtr.listEnd p)
           then (readItem heap (ItemPtr.listEnd p)).pxNext
           else (readItem heap (ptrAt p xs j)).pxNext) ∧
      h1.items = heap.items ∧
      (∀ k, (h1.lists k).xListEnd = (heap.lists k).xListEnd ∧
        (h1.lists k).uxNumberOfItems = (heap.lists k).uxNumberOfItems) ∧
      (∀ k, k ≠ p → h1.lists k = heap.lists k) := by
  have hpos : 0 < xs.length := List.length_pos.2 hne
  obtain ⟨y, hy, hget⟩ := vDebugGetNextEntry_ring heap p xs j hring hne hj hcur
  have hnext := Ring_next heap p xs j hring hj
  have hsent := Ring_next heap p xs xs.length hring (Nat.le_refl _)
  rw [if_neg (Nat.lt_irrefl _), ptrAt_ge p xs xs.length (Nat.le_refl _),
    ptrAt_lt p xs 0 hpos] at hsent
  refine ⟨setIndex heap p (some (ItemPtr.item y)), y, hget, List.getElem?_mem hy,
    setIndex_index _ _ _, ?_, rfl, ?_, ?_⟩
  · rw [hnext]
    by_cases hlt : j < xs.length
    · rw [if_pos hlt]
      by_cases hlt1 : j + 1 < xs.length
      · have hp1 : nextPos xs.length j = j + 1 := by simp [nextPos, hlt1]
        rw [hp1, List.getElem?_eq_getElem hlt1] at hy
        cases hy
        rw [ptrAt_lt p xs (j + 1) hlt1]
        simp
      · have hp1 : nextPos xs.length j = 0 := by simp [nextPos, hlt1]
        rw [hp1, List.getElem?_eq_getElem hpos] at hy
        cases hy
        rw [ptrAt_ge p xs (j + 1) (by omega), hsent]
        simp
    · rw [if_neg hlt]
      have hp1 : nextPos xs.length j = 0 := by
        have : ¬ j + 1 < xs.length := by omega
        simp [nextPos, this]
      rw [hp1, List.getElem?_eq_getElem hpos] at hy
      cases hy
      rw [ptrAt_lt p xs 0 hpos]
      simp
  · intro k
    simp only [setIndex]
    by_cases hk : k = p
    · simp [hk]
    · simp [hk]
  · intro k hk
    simp [setIndex, hk]

/-- C12 on list 2 of Scenario C (items 1 and 2, cursor on the sentinel): the advance
returns the owner 101 of the first item and leaves the cursor on item 1. -/
theorem vDebugGetNextEntry_advance_witness :
    ∃ h1 y, vDebugGetNextEntry scenarioC.heap 2
        = Outcome.done (h1, (readItem h1 (ItemPtr.item y)).pvOwner) ∧
      y ∈ [1, 2] ∧ (h1.lists 2).pxIndex = some (ItemPtr.item y) ∧
      (readItem h1 (ItemPtr.item y)).pvOwner = some 101 := by
  obtain ⟨h1, y, a1, a2, a3, a4, a5, _, _⟩ :=
    vDebugGetNextEntry_advance scenarioC.heap 2 [1, 2] 2 (by decide) (by decide) (by decide)
      (by decide)
  refine ⟨h1, y, a1, a2, a3, ?_⟩
  have hy : y = 1 := by
    have h4 : some (ItemPtr.item y) = some (ItemPtr.item 1) := a4.trans (by decide)
    cases h4
    rfl
  subst hy
  show (h1.items 1).pvOwner = some 101
  rw [a5]
  decide

/-! ## Clearing a ready bit (`vDebugResetReadyPriority`) -/

/-- For a priority below 32 the mask `~(1UL << p)` is the all-ones word with bit `p`
flipped. -/
theorem reset_mask_eq (p : Nat) (hp : p < 32) :
    WORD - 1 - (1 <<< p) % WORD = (2 ^ 32 - 1) ^^^ 2 ^ p := by
  unfold WORD
  interval_cases p <;> decide

/-- Bit `q` of the bitmap after `portRESET_READY_PRIORITY(p, bitmap)`: bit `p` is clear,
every other bit of a 32-bit bitmap is as before. -/
theorem portRESET_READY_PRIORITY_testBit (p b q : Nat) (hp : p < 32) (hb : b < WORD) :
    (portRESET_READY_PRIORITY p b).testBit q = (b.testBit q && decide (q ≠ p)) := by
  unfold portRESET_READY_PRIORITY
  rw [reset_mask_eq p hp, Nat.testBit_and, Nat.testBit_xor, Nat.testBit_two_pow_sub_one,
    Nat.testBit_two_pow]
  by_cases hq : q < 32
  · by_cases hqp : q = p
    · subst hqp; simp [hq]
    · have hpq : ¬ p = q := fun h => hqp h.symm
      simp [hq, hqp, hpq]
  · have hbq : b.testBit q = false := by
      apply Nat.testBit_lt_two_pow
      have h32 : (2 : Nat) ^ 32 ≤ 2 ^ q := Nat.pow_le_pow_right (by decide) (by omega)
      unfold WORD at hb
      omega
    simp [hbq]

/-- C13.  For a 32-bit ready bitmap and a priority `p` below 32,
`vDebugResetReadyPriority(p)` returns;  if `pxReadyTasksLists[p]` has `uxNumberOfItems = 0`
bit `p` of the bitmap is clear afterwards, otherwise the bitmap is unchanged; in both cases
every bit other than `p` keeps its value, and the lists are untouched. -/
theorem vDebugResetReadyPriority_bitmap (st : SchedState) (p : Nat) (hp : p < 32)
    (hb : st.uxTopReadyPriority < WORD) :
    ∃ st1, vDebugResetReadyPriority st p = Outcome.done st1 ∧
      ((st.heap.lists p).uxNumberOfItems = 0 → st1.uxTopReadyPriority.testBit p = false) ∧
      ((st.heap.lists p).uxNumberOfItems ≠ 0 →
        st1.uxTopReadyPriority = st.uxTopReadyPriority) ∧
      (∀ q, q ≠ p → st1.uxTopReadyPriority.testBit q = st.uxTopReadyPriority.testBit q) ∧
      st1.uxTopReadyPriority < WORD ∧
      st1.heap.lists = st.heap.lists ∧ st1.heap.items = st.heap.items ∧
      st1.pxCurrentTCB = st.pxCurrentTCB := by
  unfold vDebugResetReadyPriority
  simp only
  by_cases hc : (st.heap.lists p).uxNumberOfItems = 0
  · rw [if_pos hc, if_pos hp]
    refine ⟨_, rfl, fun _ => ?_, fun hn => absurd hc hn, fun q hq => ?_, ?_, rfl, rfl, rfl⟩
    · show (portRESET_READY_PRIORITY p st.uxTopReadyPriority).testBit p = false
      rw [portRESET_READY_PRIORITY_testBit p _ p hp hb]
      simp
    · show (portRESET_READY_PRIORITY p st.uxTopReadyPriority).testBit q = _
      rw [portRESET_READY_PRIORITY_testBit p _ q hp hb]
      simp [hq]
    · show portRESET_READY_PRIORITY p st.uxTopReadyPriority < WORD
      unfold portRESET_READY_PRIORITY
      exact Nat.lt_of_le_of_lt Nat.and_le_left hb
  · rw [if_neg hc]
    exact ⟨_, rfl, fun h => absurd h hc, fun _ => rfl, fun _ _ => rfl, hb, rfl, rfl, rfl⟩

/-- C13 on Scenario C: list 3 still holds its task, so `vDebugResetReadyPriority(3)`
leaves the bitmap `0b1100`; list 5 is empty (`uxNumberOfItems = 0`), so
`vDebugResetReadyPriority(5)` on the bitmap `0b101100` gives `0b001100`. -/
theorem vDebugResetReadyPriority_bitmap_witness :
    (∃ st1, vDebugResetReadyPriority scenarioC 3 = Outcome.done st1 ∧
      st1.uxTopReadyPriority = 12) ∧
    (∃ st1, vDebugResetReadyPriority { scenarioC with uxTopReadyPriority := 44 } 5
        = Outcome.done st1 ∧
      st1.uxTopReadyPriority.testBit 5 = false ∧ st1.uxTopReadyPriority = 12) := by
  obtain ⟨s1, a1, _, a3, _⟩ :=
    vDebugResetReadyPriority_bitmap scenarioC 3 (by decide) (by decide)
  obtain ⟨s2, b1, b2, _⟩ :=
    vDebugResetReadyPriority_bitmap { scenarioC with uxTopReadyPriority := 44 } 5
      (by decide) (by decide)
  refine ⟨⟨s1, a1, (a3 (by decide)).trans (by decide)⟩, ⟨s2, b1, b2 (by decide), ?_⟩⟩
  have h2 : vDebugResetReadyPriority { scenarioC with uxTopReadyPriority := 44 } 5
      = Outcome.done
        { scenarioC with
            g_priority_reset_count := 1,
            uxTopReadyPriority := 12 } := rfl
  rw [h2] at b1
  cases b1
  rfl

/-! ## Paths along `pxNext` and `pxPrevious` -/

theorem Chain_iff_Path (heap : ListHeap) (z : ItemPtr) :
    ∀ (xs : List Nat) (a : ItemPtr), Chain heap a xs z ↔ Path (nextOf heap) a xs z := by
  intro xs
  induction xs with
  | nil => intro a; exact Iff.rfl
  | cons x xs ih =>
    intro a
    simp only [Chain, Path]
    rw [ih]
    exact Iff.rfl

theorem lastNode_append (a : ItemPtr) (xs : List Nat) (x : Nat) :
    lastNode a (xs ++ [x]) = ItemPtr.item x := by
  induction xs generalizing a with
  | nil => rfl
  | cons y ys ih => exact ih _

theorem firstNode_append_singleton (xs : List Nat) (x : Nat) (z : ItemPtr) :
    firstNode (xs ++ [x]) z = firstNode xs (ItemPtr.item x) := by
  cases xs <;> rfl

theorem lastNode_eq_firstNode_reverse (a : ItemPtr) (xs : List Nat) :
    lastNode a xs = firstNode xs.reverse a := by
  induction xs generalizing a with
  | nil => rfl
  | cons x xs ih =>
    simp only [lastNode, List.reverse_cons]
    rw [ih, firstNode_append_singleton]

theorem firstNode_eq_lastNode_reverse (xs : List Nat) (z : ItemPtr) :
    firstNode xs z = lastNode z xs.reverse := by
  rw [lastNode_eq_firstNode_reverse, List.reverse_reverse]

theorem lastNode_mem (a : ItemPtr) (xs : List Nat) :
    lastNode a xs = a ∨ ∃ x ∈ xs, lastNode a xs = ItemPtr.item x := by
  induction xs generalizing a with
  | nil => left; rfl
  | cons x xs ih =>
    right
    rcases ih (ItemPtr.item x) with h | ⟨y, hy, h⟩
    · exact ⟨x, by simp, h⟩
    · exact ⟨y, by simp [hy], h⟩

theorem firstNode_mem (xs : List Nat) (z : ItemPtr) :
    firstNode xs z = z ∨ ∃ x ∈ xs, firstNode xs z = ItemPtr.item x := by
  cases xs with
  | nil => left; rfl
  | cons x xs => right; exact ⟨x, by simp, rfl⟩

/-- A link that agrees with `f` on the start node and on the items of the path has the
same path. -/
theorem Path_congr (f g : ItemPtr → Option ItemPtr) (z : ItemPtr) :
    ∀ (xs : List Nat) (a : ItemPtr), g a = f a → (∀ x ∈ xs, g (ItemPtr.item x) = f (ItemPtr.item x)) →
      Path f a xs z → Path g a xs z := by
  intro xs
  induction xs with
  | nil =>
    intro a ha _ h
    simp only [Path] at h ⊢
    rw [ha]; exact h
  | cons x xs ih =>
    intro a ha hx h
    obtain ⟨h1, h2⟩ := h
    refine ⟨by rw [ha]; exact h1, ?_⟩
    exact ih _ (hx x (by simp)) (fun y hy => hx y (by simp [hy])) h2

/-- Splitting a path at an item. -/
theorem Path_append (f : ItemPtr → Option ItemPtr) (z : ItemPtr) (y : Nat) (post : List Nat) :
    ∀ (pre : List Nat) (a : ItemPtr),
      Path f a (pre ++ y :: post) z ↔ Path f a pre (ItemPtr.item y) ∧ Path f (ItemPtr.item y) post z := by
  intro pre
  induction pre with
  | nil => intro a; exact Iff.rfl
  | cons x pre ih =>
    intro a
    show f a = some (ItemPtr.item x) ∧ Path f (ItemPtr.item x) (pre ++ y :: post) z ↔
      (f a = some (ItemPtr.item x) ∧ Path f (ItemPtr.item x) pre (ItemPtr.item y)) ∧
        Path f (ItemPtr.item y) post z
    rw [ih]
    exact and_assoc.symm

/-- In a path through `pre ++ post` the last node of the first part links to the first
node of the second part. -/
theorem Path_link (f : ItemPtr → Option ItemPtr) (z : ItemPtr) (post : List Nat) :
    ∀ (pre : List Nat) (a : ItemPtr), Path f a (pre ++ post) z →
      f (lastNode a pre) = some (firstNode post z) := by
  intro pre
  induction pre with
  | nil =>
    intro a h
    cases post with
    | nil => exact h
    | cons y post => exact h.1
  | cons x pre ih =>
    intro a h
    exact ih _ h.2

/-- Where a walk along a path is after `k + 1` steps. -/
theorem Path_walk (f : ItemPtr → Option ItemPtr) (z : ItemPtr) :
    ∀ (xs : List Nat) (a : ItemPtr), Path f a xs z →
      (∀ k x, xs[k]? = some x → walk f (k + 1) a = some (ItemPtr.item x)) ∧
      walk f (xs.length + 1) a = some z := by
  intro xs
  induction xs with
  | nil =>
    intro a h
    refine ⟨fun k x hx => by simp at hx, ?_⟩
    simp only [Path] at h
    simp [walk, h]
  | cons x0 xs ih =>
    intro a h
    obtain ⟨h1, h2⟩ := h
    obtain ⟨i1, i2⟩ := ih _ h2
    refine ⟨?_, ?_⟩
    · intro k x hx
      cases k with
      | zero =>
        simp only [List.getElem?_cons_zero, Option.some.injEq] at hx
        subst hx
        simp [walk, h1]
      | succ k =>
        simp only [List.getElem?_cons_succ] at hx
        rw [walk, h1]
        exact i1 k x hx
    · rw [List.length_cons, walk, h1]
      exact i2

/-- Linking a new item `i` into a path between the last node of `pre` and the first node
of `post`. -/
theorem Path_insert (f g : ItemPtr → Option ItemPtr) (z : ItemPtr) (i : Nat) (post : List Nat) :
    ∀ (pre : List Nat) (a : ItemPtr), (pre ++ post).Nodup →
      (∀ x ∈ pre ++ post, a ≠ ItemPtr.item x) → i ∉ pre ++ post → a ≠ ItemPtr.item i →
      g (lastNode a pre) = some (ItemPtr.item i) →
      g (ItemPtr.item i) = some (firstNode post z) →
      (∀ p, p ≠ lastNode a pre → p ≠ ItemPtr.item i → g p = f p) →
      Path f a (pre ++ post) z → Path g a (pre ++ i :: post) z := by
  intro pre
  induction pre with
  | nil =>
    intro a _ ha hi hai hq hI hsame h
    refine ⟨hq, ?_⟩
    cases post with
    | nil => exact hI
    | cons y post =>
      refine ⟨hI, ?_⟩
      have hy : ∀ w ∈ y :: post, g (ItemPtr.item w) = f (ItemPtr.item w) := by
        intro w hw
        apply hsame
        · exact fun e => ha w (by simpa using hw) e.symm
        · intro e
          cases e
          exact hi (by simpa using hw)
      exact Path_congr f g z post _ (hy y (by simp)) (fun w hw => hy w (by simp [hw])) h.2
  | cons x pre ih =>
    intro a hnd ha hi hai hq hI hsame h
    have hnd2 : (x :: (pre ++ post)).Nodup := by simpa using hnd
    have hx : x ≠ i := by
      intro e; subst e; exact hi (by simp)
    refine ⟨?_, ?_⟩
    · rw [hsame a ?_ hai]
      · exact h.1
      · intro e
        rcases lastNode_mem (ItemPtr.item x) pre with h1 | ⟨y, hy, h1⟩
        · exact ha x (by simp) (e.trans h1)
        · exact ha y (by simp [hy]) (e.trans h1)
    · apply ih (ItemPtr.item x) (List.nodup_cons.1 hnd2).2
      · intro y hy e
        cases e
        exact (List.nodup_cons.1 hnd2).1 hy
      · intro hmem
        exact hi (by simp [List.mem_append] at hmem ⊢; tauto)
      · intro e; cases e; exact hx rfl
      · exact hq
      · exact hI
      · exact hsame
      · exact h.2

/-- Unlinking the item `x` from a path: the last node of `pre` is linked to the first node
of `post`. -/
theorem Path_remove (f g : ItemPtr → Option ItemPtr) (z : ItemPtr) (x : Nat) (post : List Nat) :
    ∀ (pre : List Nat) (a : ItemPtr), (pre ++ x :: post).Nodup →
      (∀ y ∈ pre ++ x :: post, a ≠ ItemPtr.item y) →
      g (lastNode a pre) = some (firstNode post z) →
      (∀ p, p ≠ lastNode a pre → p ≠ ItemPtr.item x → g p = f p) →
      Path f a (pre ++ x :: post) z → Path g a (pre ++ post) z := by
  intro pre
  induction pre with
  | nil =>
    intro a hnd ha hq hsame h
    have hnd2 : (x :: post).Nodup := by simpa using hnd
    cases post with
    | nil => exact hq
    | cons y post =>
      refine ⟨hq, ?_⟩
      have hy : ∀ w ∈ y :: post, g (ItemPtr.item w) = f (ItemPtr.item w) := by
        intro w hw
        apply hsame
        · exact fun e => ha w (by simp at hw ⊢; tauto) e.symm
        · intro e
          cases e
          exact (List.nodup_cons.1 hnd2).1 hw
      exact Path_congr f g z post _ (hy y (by simp)) (fun w hw => hy w (by simp [hw])) h.2.2
  | cons w pre ih =>
    intro a hnd ha hq hsame h
    have hnd2 : (w :: (pre ++ x :: post)).Nodup := by simpa using hnd
    refine ⟨?_, ?_⟩
    · rw [hsame a ?_ (ha x (by simp))]
      · exact h.1
      · intro e
        rcases lastNode_mem (ItemPtr.item w) pre with h1 | ⟨y, hy, h1⟩
        · exact ha w (by simp) (e.trans h1)
        · exact ha y (by simp [hy]) (e.trans h1)
    · apply ih (ItemPtr.item w) (List.nodup_cons.1 hnd2).2
      · intro y hy e
        cases e
        exact (List.nodup_cons.1 hnd2).1 hy
      · exact hq
      · exact hsame
      · exact h.2

/-! ## Reading and writing list items -/

theorem readItem_writeItem (heap : ListHeap) (p q : ItemPtr) (v : ListItem_t) :
    readItem (writeItem heap p v) q = if q = p then v else readItem heap q := by
  cases p with
  | listEnd l =>
    cases q with
    | listEnd k =>
      by_cases hk : k = l
      · subst hk; simp [readItem, writeItem]
      · simp [readItem, writeItem, hk]
    | item i => simp [readItem, writeItem]
  | item i =>
    cases q with
    | listEnd k => simp [readItem, writeItem]
    | item k =>
      by_cases hk : k = i
      · subst hk; simp [readItem, writeItem]
      · simp [readItem, writeItem, hk]

theorem writeItem_index (heap : ListHeap) (p : ItemPtr) (v : ListItem_t) (k : Nat) :
    ((writeItem heap p v).lists k).pxIndex = (heap.lists k).pxIndex ∧
      ((writeItem heap p v).lists k).uxNumberOfItems = (heap.lists k).uxNumberOfItems := by
  cases p with
  | listEnd l =>
    by_cases hk : k = l
    · subst hk; simp [writeItem]
    · simp [writeItem, hk]
  | item i => simp [writeItem]

/-- Changing only `uxNumberOfItems` of a list changes no list item. -/
theorem readItem_setCount (h : ListHeap) (l n : Nat) (p : ItemPtr) :
    readItem { h with lists := fun k =>
        if k = l then { h.lists l with uxNumberOfItems := n } else h.lists k } p
      = readItem h p := by
  cases p with
  | listEnd k =>
    by_cases hk : k = l
    · subst hk; simp [readItem]
    · simp [readItem, hk]
  | item i => rfl

/-- What `vListInsertEnd` does when the cursor `c` and its predecessor `q` are not the new
item: the new item is linked between `q` and `c`, gets the list as container, and the
count grows by one (modulo 2^32); nothing else changes. -/
theorem vListInsertEnd_local (heap : ListHeap) (l i : Nat) (c q : ItemPtr)
    (hcur : (heap.lists l).pxIndex = some c) (hprev : (readItem heap c).pxPrevious = some q)
    (hic : ItemPtr.item i ≠ c) (hiq : ItemPtr.item i ≠ q) :
    ∃ h1, vListInsertEnd heap l (ItemPtr.item i) = Outcome.done h1 ∧
      (∀ p, nextOf h1 p = if p = ItemPtr.item i then some c
                          else if p = q then some (ItemPtr.item i) else nextOf heap p) ∧
      (∀ p, prevOf h1 p = if p = ItemPtr.item i then some q
                          else if p = c then some (ItemPtr.item i) else prevOf heap p) ∧
      (∀ p, (readItem h1 p).pxContainer
              = if p = ItemPtr.item i then some l else (readItem heap p).pxContainer) ∧
      (∀ p, (readItem h1 p).pvOwner = (readItem heap p).pvOwner ∧
        (readItem h1 p).xItemValue = (readItem heap p).xItemValue) ∧
      (∀ k, (h1.lists k).pxIndex = (heap.lists k).pxIndex) ∧
      (h1.lists l).uxNumberOfItems = ((heap.lists l).uxNumberOfItems + 1) % WORD ∧
      (∀ k, k ≠ l → (h1.lists k).uxNumberOfItems = (heap.lists k).uxNumberOfItems) := by
  have hci : c ≠ ItemPtr.item i := fun e => hic e.symm
  have hqi : q ≠ ItemPtr.item i := fun e => hiq e.symm
  unfold vListInsertEnd
  rw [hcur]
  simp only [readItem_writeItem, if_neg hci, if_true, hprev]
  refine ⟨_, rfl, ?_, ?_, ?_, ?_, ?_, ?_, ?_⟩
  · intro p
    simp only [nextOf, readItem_setCount, readItem_writeItem]
    by_cases hp : p = ItemPtr.item i
    · subst hp
      simp [hic, hiq]
    · by_cases hpq : p = q
      · subst hpq
        by_cases hpc : p = c
        · subst hpc; simp [hp]
        · simp [hp, hpc]
      · by_cases hpc : p = c
        · subst hpc; simp [hp, hpq]
        · simp [hp, hpq, hpc]
  · intro p
    simp only [prevOf, readItem_setCount, readItem_writeItem]
    by_cases hp : p = ItemPtr.item i
    · subst hp
      simp [hic, hiq]
    · by_cases hpc : p = c
      · subst hpc
        simp [hp]
      · by_cases hpq : p = q
        · subst hpq; simp [hp, hpc]
        · simp [hp, hpq, hpc]
  · intro p
    simp only [readItem_setCount, readItem_writeItem]
    by_cases hp : p = ItemPtr.item i
    · subst hp
      simp
    · by_cases hpc : p = c
      · subst hpc
        by_cases hpq : p = q
        · subst hpq; simp [hp]
        · simp [hp, hpq]
      · by_cases hpq : p = q
        · subst hpq; simp [hp, hpc]
        · simp [hp, hpq, hpc]
  · intro p
    simp only [readItem_setCount, readItem_writeItem]
    by_cases hp : p = ItemPtr.item i
    · subst hp
      simp [hic, hiq]
    · by_cases hpc : p = c
      · subst hpc
        by_cases hpq : p = q
        · subst hpq; simp [hp]
        · simp [hp, hpq]
      · by_cases hpq : p = q
        · subst hpq; simp [hp, hpc]
        · simp [hp, hpq, hpc]
  · intro k
    by_cases hk : k = l
    · subst hk
      simp [writeItem_index]
    · simp [hk, writeItem_index]
  · simp [writeItem_index]
  · intro k hk
    simp [hk, writeItem_index]

/-! ## `vListInsertEnd` on a well-formed list -/

theorem ptrAt_eq_firstNode (l : Nat) (xs : List Nat) (j : Nat) :
    ptrAt l xs j = firstNode (xs.drop j) (ItemPtr.listEnd l) := by
  unfold ptrAt
  have h := List.getElem?_drop xs j 0
  rw [Nat.add_zero] at h
  rw [← h]
  cases xs.drop j with
  | nil => rfl
  | cons y ys => simp [firstNode]

/-- In a well-formed list the `pxPrevious` of the node at position `j` is the last node
before position `j`. -/
theorem WellFormed_prev (heap : ListHeap) (l : Nat) (xs : List Nat) (j : Nat)
    (hwf : WellFormed heap l xs) :
    prevOf heap (ptrAt l xs j) = some (lastNode (ItemPtr.listEnd l) (xs.take j)) := by
  obtain ⟨_, _, hprev⟩ := hwf
  unfold RingPrev at hprev
  have hsplit : xs.reverse = (xs.drop j).reverse ++ (xs.take j).reverse := by
    rw [← List.reverse_append, List.take_append_drop]
  rw [hsplit] at hprev
  have h := Path_link (prevOf heap) (ItemPtr.listEnd l) (xs.take j).reverse
    (xs.drop j).reverse (ItemPtr.listEnd l) hprev
  rw [← firstNode_eq_lastNode_reverse, ← lastNode_eq_firstNode_reverse] at h
  rw [ptrAt_eq_firstNode]
  exact h

/-- On a well-formed list with the cursor at position `j` (`j = length` is the sentinel)
`vListInsertEnd` of an item not in the list returns and links the item right before the
cursor: the list is again well formed and holds the new item at position `j`. -/
theorem vListInsertEnd_wellFormed (heap : ListHeap) (l : Nat) (xs : List Nat) (j i : Nat)
    (hwf : WellFormed heap l xs)
    (hcur : (heap.lists l).pxIndex = some (ptrAt l xs j)) (hi : i ∉ xs) :
    ∃ h1, vListInsertEnd heap l (ItemPtr.item i) = Outcome.done h1 ∧
      WellFormed h1 l (xs.take j ++ i :: xs.drop j) ∧
      nextOf h1 (ItemPtr.item i) = some (ptrAt l xs j) ∧
      prevOf h1 (ptrAt l xs j) = some (ItemPtr.item i) ∧
      (∀ p, (readItem h1 p).pxContainer
              = if p = ItemPtr.item i then some l else (readItem heap p).pxContainer) ∧
      (∀ p, (readItem h1 p).pvOwner = (readItem heap p).pvOwner ∧
        (readItem h1 p).xItemValue = (readItem heap p).xItemValue) ∧
      (∀ k, (h1.lists k).pxIndex = (heap.lists k).pxIndex) ∧
      (h1.lists l).uxNumberOfItems = ((heap.lists l).uxNumberOfItems + 1) % WORD ∧
      (∀ k, k ≠ l → (h1.lists k).uxNumberOfItems = (heap.lists k).uxNumberOfItems) := by
  have hwf0 := hwf
  obtain ⟨hnd, hring, hprev⟩ := hwf
  have hxs : xs.take j ++ xs.drop j = xs := List.take_append_drop j xs
  have hc : ptrAt l xs j = firstNode (xs.drop j) (ItemPtr.listEnd l) := ptrAt_eq_firstNode l xs j
  have hic : ItemPtr.item i ≠ ptrAt l xs j := by
    rw [hc]
    intro e
    rcases firstNode_mem (xs.drop j) (ItemPtr.listEnd l) with h | ⟨y, hy, h⟩
    · rw [h] at e; cases e
    · rw [h] at e; cases e
      exact hi (List.mem_of_mem_drop hy)
  have hiq : ItemPtr.item i ≠ lastNode (ItemPtr.listEnd l) (xs.take j) := by
    intro e
    rcases lastNode_mem (ItemPtr.listEnd l) (xs.take j) with h | ⟨y, hy, h⟩
    · rw [h] at e; cases e
    · rw [h] at e; cases e
      exact hi (List.mem_of_mem_take hy)
  obtain ⟨h1, hrun, hnext, hprv, hcont, hown, hidx, hcnt, hcnt2⟩ :=
    vListInsertEnd_local heap l i _ _ hcur (WellFormed_prev heap l xs j hwf0) hic hiq
  have hSx : ∀ x, ItemPtr.listEnd l ≠ ItemPtr.item x := fun x e => by cases e
  refine ⟨h1, hrun, ⟨?_, ?_, ?_⟩, ?_, ?_, hcont, hown, hidx, hcnt, hcnt2⟩
  · rw [List.nodup_middle, List.nodup_cons, hxs]
    exact ⟨hi, hnd⟩
  · unfold Ring
    rw [Chain_iff_Path]
    apply Path_insert (nextOf heap) (nextOf h1) (ItemPtr.listEnd l) i (xs.drop j) (xs.take j)
    · rw [hxs]; exact hnd
    · exact fun x _ => hSx x
    · rw [hxs]; exact hi
    · exact hSx i
    · rw [hnext, if_neg (fun e => hiq e.symm), if_pos rfl]
    · rw [hnext, if_pos rfl, hc]
    · intro p hp1 hp2
      rw [hnext, if_neg hp2, if_neg hp1]
    · rw [hxs, ← Chain_iff_Path]
      exact hring
  · unfold RingPrev
    rw [List.reverse_append, List.reverse_cons, List.append_assoc, List.singleton_append]
    apply Path_insert (prevOf heap) (prevOf h1) (ItemPtr.listEnd l) i (xs.take j).reverse
      (xs.drop j).reverse
    · rw [← List.reverse_append, List.nodup_reverse, hxs]; exact hnd
    · exact fun x _ => hSx x
    · rw [← List.reverse_append, List.mem_reverse, hxs]; exact hi
    · exact hSx i
    · rw [← firstNode_eq_lastNode_reverse, ← hc, hprv, if_neg (fun e => hic e.symm), if_pos rfl]
    · rw [hprv, if_pos rfl, ← lastNode_eq_firstNode_reverse]
    · intro p hp1 hp2
      rw [← firstNode_eq_lastNode_reverse, ← hc] at hp1
      rw [hprv, if_neg hp2, if_neg hp1]
    · rw [← List.reverse_append, hxs]
      exact hprev
  · rw [hnext, if_pos rfl]
  · rw [hprv, if_neg (fun e => hic e.symm), if_pos rfl]

/-! ## Sequences of `vListInitialiseItem` and `vListInsertEnd` calls -/

/-- A freshly initialised list is well formed and empty, with the cursor on the sentinel. -/
theorem vListInitialise_wellFormed (heap : ListHeap) (l : Nat) :
    WellFormed (vListInitialise heap l) l [] ∧
      ((vListInitialise heap l).lists l).pxIndex = some (ItemPtr.listEnd l) ∧
      ((vListInitialise heap l).lists l).uxNumberOfItems = 0 := by
  refine ⟨⟨List.nodup_nil, ?_, ?_⟩, ?_, ?_⟩
  · simp [Ring, Chain, readItem, vListInitialise]
  · simp [RingPrev, Path, prevOf, readItem, vListInitialise]
  · simp [vListInitialise]
  · simp [vListInitialise]

/-- Initialising an item that is not in the list keeps the list well formed. -/
theorem vListInitialiseItem_wellFormed (heap : ListHeap) (l : Nat) (ys : List Nat) (i : Nat)
    (hwf : WellFormed heap l ys) (hi : i ∉ ys) :
    WellFormed (vListInitialiseItem heap (ItemPtr.item i)) l ys := by
  obtain ⟨hnd, hring, hprev⟩ := hwf
  have hread : ∀ p, p ≠ ItemPtr.item i →
      readItem (vListInitialiseItem heap (ItemPtr.item i)) p = readItem heap p := by
    intro p hp
    unfold vListInitialiseItem
    rw [readItem_writeItem, if_neg hp]
  have hS : ItemPtr.listEnd l ≠ ItemPtr.item i := fun e => by cases e
  refine ⟨hnd, ?_, ?_⟩
  · unfold Ring at hring ⊢
    rw [Chain_iff_Path] at hring ⊢
    apply Path_congr (nextOf heap) _ _ ys _ _ _ hring
    · simp only [nextOf]; rw [hread _ hS]
    · intro x hx
      simp only [nextOf]
      rw [hread _ (fun e => by cases e; exact hi hx)]
  · unfold RingPrev at hprev ⊢
    apply Path_congr (prevOf heap) _ _ ys.reverse _ _ _ hprev
    · simp only [prevOf]; rw [hread _ hS]
    · intro x hx
      simp only [prevOf]
      rw [hread _ (fun e => by cases e; exact hi (List.mem_reverse.1 hx))]

/-- The invariant of a sequence of calls on distinct items, started on a well-formed list
`ys` whose cursor is on the sentinel: every call returns; the list stays well formed and
holds the old items followed by the inserted ones in call order; the cursor stays on the
sentinel; the count grows by the number of insertions; every item of the list has the
list as container; every item of `zs` or initialised on the way that is not in the list
has no container; and owners change only by initialisation. -/
theorem runOps_invariant (l : Nat) :
    ∀ (ops : List ListOp) (heap : ListHeap) (ys zs : List Nat),
      WellFormed heap l ys → (heap.lists l).pxIndex = some (ItemPtr.listEnd l) →
      (heap.lists l).uxNumberOfItems < WORD →
      (∀ x ∈ ys, (heap.items x).pxContainer = some l) →
      (∀ x ∈ zs, x ∉ ys → (heap.items x).pxContainer = none) →
      ValidOps ys ops →
      ∃ h, runOps l ops heap = Outcome.done h ∧
        WellFormed h l (ys ++ insertedItems ops) ∧
        (h.lists l).pxIndex = some (ItemPtr.listEnd l) ∧
        (h.lists l).uxNumberOfItems
          = ((heap.lists l).uxNumberOfItems + (insertedItems ops).length) % WORD ∧
        (∀ x ∈ ys ++ insertedItems ops, (h.items x).pxContainer = some l) ∧
        (∀ x ∈ zs ++ initialisedItems ops, x ∉ ys ++ insertedItems ops →
          (h.items x).pxContainer = none) ∧
        (∀ x, x ∉ initialisedItems ops → (h.items x).pvOwner = (heap.items x).pvOwner) := by
  intro ops
  induction ops with
  | nil =>
    intro heap ys zs hwf hcur hlt hc hz _
    refine ⟨heap, rfl, by simpa [insertedItems] using hwf, hcur, ?_, ?_, ?_, fun _ _ => rfl⟩
    · simp [insertedItems, Nat.mod_eq_of_lt hlt]
    · simpa [insertedItems] using hc
    · simpa [insertedItems, initialisedItems] using hz
  | cons op ops ih =>
    intro heap ys zs hwf hcur hlt hc hz hv
    cases op with
    | initItem i =>
      obtain ⟨hi, hv2⟩ := hv
      have hitems : ∀ x, x ≠ i →
          (vListInitialiseItem heap (ItemPtr.item i)).items x = heap.items x := by
        intro x hx
        simp [vListInitialiseItem, writeItem, hx]
      have hself : ((vListInitialiseItem heap (ItemPtr.item i)).items i).pxContainer = none := by
        simp [vListInitialiseItem, writeItem]
      obtain ⟨h, r1, r2, r3, r4, r5, r6, r7⟩ :=
        ih (vListInitialiseItem heap (ItemPtr.item i)) ys (i :: zs)
          (vListInitialiseItem_wellFormed heap l ys i hwf hi) hcur hlt
          (fun x hx => by
            rw [hitems x (fun e => hi (e ▸ hx))]; exact hc x hx)
          (fun x hx hxy => by
            by_cases hxi : x = i
            · rw [hxi]; exact hself
            · rw [hitems x hxi]
              rcases List.mem_cons.1 hx with e | e
              · exact absurd e hxi
              · exact hz x e hxy)
          hv2
      refine ⟨h, r1, r2, r3, r4, r5, ?_, ?_⟩
      · intro x hx hxy
        apply r6 x _ hxy
        simp only [initialisedItems, List.mem_append, List.mem_cons] at hx ⊢
        tauto
      · intro x hx
        simp only [initialisedItems, List.mem_cons, not_or] at hx
        rw [r7 x hx.2, hitems x hx.1]
    | insertEnd i =>
      obtain ⟨hi, hv2⟩ := hv
      have hcur2 : (heap.lists l).pxIndex = some (ptrAt l ys ys.length) := by
        rw [ptrAt_ge l ys ys.length (Nat.le_refl _)]; exact hcur
      obtain ⟨h1, hrun, hwf1, _, _, hcont, hown, hidx, hcnt, _⟩ :=
        vListInsertEnd_wellFormed heap l ys ys.length i hwf hcur2 hi
      rw [List.take_length, List.drop_length] at hwf1
      have hcI : ∀ x, (h1.items x).pxContainer
          = if x = i then some l else (heap.items x).pxContainer := by
        intro x
        have := hcont (ItemPtr.item x)
        simp only [readItem, ItemPtr.item.injEq] at this
        exact this
      obtain ⟨h, r1, r2, r3, r4, r5, r6, r7⟩ :=
        ih h1 (ys ++ [i]) zs hwf1 (by rw [hidx]; exact hcur)
          (by rw [hcnt]; exact Nat.mod_lt _ (by unfold WORD; omega))
          (fun x hx => by
            rw [hcI]
            by_cases hxi : x = i
            · simp [hxi]
            · rw [if_neg hxi]
              rcases List.mem_append.1 hx with e | e
              · exact hc x e
              · exact absurd (by simpa using e) hxi)
          (fun x hx hxy => by
            have hxi : x ≠ i := fun e => hxy (by simp [e])
            rw [hcI, if_neg hxi]
            exact hz x hx (fun e => hxy (by simp [e])))
          hv2
      have happ : ys ++ [i] ++ insertedItems ops = ys ++ insertedItems (ListOp.insertEnd i :: ops) := by
        simp [insertedItems]
      rw [happ] at r2 r5 r6
      refine ⟨h, ?_, r2, r3, ?_, r5, ?_, ?_⟩
      · simp only [runOps, hrun]
        exact r1
      · rw [r4, hcnt, Nat.mod_add_mod]
        simp only [insertedItems, List.length_cons]
        congr 1
        omega
      · intro x hx hxy
        exact r6 x (by simpa [initialisedItems] using hx) hxy
      · intro x hx
        rw [r7 x (by simpa [initialisedItems] using hx)]
        exact (hown (ItemPtr.item x)).1

/-! ## Walking a ring -/

theorem walk_succ_right (f : ItemPtr → Option ItemPtr) :
    ∀ (k : Nat) (a : ItemPtr), walk f (k + 1) a
      = (match walk f k a with
         | none => none
         | some b => f b) := by
  intro k
  induction k with
  | zero =>
    intro a
    simp only [walk]
    cases f a <;> rfl
  | succ k ih =>
    intro a
    rw [walk]
    cases hfa : f a with
    | none => simp [walk, hfa]
    | some b =>
      simp only
      rw [ih b]
      simp [walk, hfa]

/-- Every walk along `pxNext` from the sentinel of a ring stays on the ring. -/
theorem walk_ring (heap : ListHeap) (l : Nat) (xs : List Nat) (hring : Ring heap l xs) :
    ∀ k, ∃ j, j ≤ xs.length ∧
      walk (nextOf heap) k (ItemPtr.listEnd l) = some (ptrAt l xs j) := by
  intro k
  induction k with
  | zero =>
    exact ⟨xs.length, Nat.le_refl _, by rw [ptrAt_ge l xs _ (Nat.le_refl _)]; rfl⟩
  | succ k ih =>
    obtain ⟨j, hj, hw⟩ := ih
    rw [walk_succ_right, hw]
    simp only [nextOf]
    rw [Ring_next heap l xs j hring hj]
    by_cases hlt : j < xs.length
    · exact ⟨j + 1, by omega, by rw [if_pos hlt]⟩
    · exact ⟨0, by omega, by rw [if_neg hlt]⟩

/-- An item met on a walk from the sentinel of a ring is one of the items of the ring. -/
theorem walk_ring_mem (heap : ListHeap) (l : Nat) (xs : List Nat) (hring : Ring heap l xs)
    (k x : Nat) (h : walk (nextOf heap) k (ItemPtr.listEnd l) = some (ItemPtr.item x)) :
    x ∈ xs := by
  obtain ⟨j, _, hw⟩ := walk_ring heap l xs hring k
  rw [hw] at h
  unfold ptrAt at h
  cases hx : xs[j]? with
  | none => rw [hx] at h; cases h
  | some y =>
    rw [hx] at h
    cases h
    exact List.getElem?_mem hx

theorem ValidOps_insertEnds :
    ∀ (xs ys : List Nat), xs.Nodup → (∀ x ∈ xs, x ∉ ys) →
      ValidOps ys (xs.map ListOp.insertEnd) := by
  intro xs
  induction xs with
  | nil => intro ys _ _; trivial
  | cons x xs ih =>
    intro ys hnd hdis
    obtain ⟨hx, hnd2⟩ := List.nodup_cons.1 hnd
    refine ⟨hdis x (by simp), ih _ hnd2 ?_⟩
    intro y hy hmem
    rcases List.mem_append.1 hmem with e | e
    · exact hdis y (by simp [hy]) e
    · have : y = x := by simpa using e
      exact hx (this ▸ hy)

theorem insertedItems_insertEnds (xs : List Nat) :
    insertedItems (xs.map ListOp.insertEnd) = xs := by
  induction xs with
  | nil => rfl
  | cons x xs ih => simp [insertedItems, ih]

theorem initialisedItems_insertEnds (xs : List Nat) :
    initialisedItems (xs.map ListOp.insertEnd) = [] := by
  induction xs with
  | nil => rfl
  | cons x xs ih => simpa [initialisedItems] using ih

/-- End insertion is first in, first out: after `vListInitialise`, inserting distinct items
with `vListInsertEnd` returns and leaves a well-formed list that holds the items in
insertion order, with the cursor on the sentinel and the count equal to the number of
items modulo 2^32. -/
theorem insertEnds_wellFormed (heap0 : ListHeap) (l : Nat) (xs : List Nat) (hnd : xs.Nodup) :
    ∃ h, runOps l (xs.map ListOp.insertEnd) (vListInitialise heap0 l) = Outcome.done h ∧
      WellFormed h l xs ∧ (h.lists l).pxIndex = some (ItemPtr.listEnd l) ∧
      (h.lists l).uxNumberOfItems = xs.length % WORD ∧
      (∀ x ∈ xs, (h.items x).pxContainer = some l) ∧
      (∀ x, (h.items x).pvOwner = (heap0.items x).pvOwner) := by
  obtain ⟨w1, w2, w3⟩ := vListInitialise_wellFormed heap0 l
  obtain ⟨h, r1, r2, r3, r4, r5, _, r7⟩ :=
    runOps_invariant l (xs.map ListOp.insertEnd) (vListInitialise heap0 l) [] [] w1 w2
      (by rw [w3]; unfold WORD; omega) (fun x hx => by simp at hx)
      (fun x hx => by simp at hx) (ValidOps_insertEnds xs [] hnd (fun _ _ => by simp))
  rw [insertedItems_insertEnds, List.nil_append] at r2 r5
  rw [insertedItems_insertEnds, w3, Nat.zero_add] at r4
  refine ⟨h, r1, r2, r3, r4, r5, fun x => ?_⟩
  have hno : x ∉ initialisedItems (xs.map ListOp.insertEnd) := by
    rw [initialisedItems_insertEnds]; simp
  rw [r7 x hno]
  rfl

/-! ## End insertion: position, FIFO order, containers, circularity -/

/-- A walk that has reached a node linked to itself stays there. -/
theorem walk_stuck (f : ItemPtr → Option ItemPtr) (a b : ItemPtr) (k0 : Nat)
    (h0 : walk f k0 a = some b) (hb : f b = some b) :
    ∀ k, walk f (k + k0) a = some b := by
  intro k
  induction k with
  | zero => rw [Nat.zero_add]; exact h0
  | succ k ih =>
    rw [show k + 1 + k0 = (k + k0) + 1 from by omega, walk_succ_right, ih]
    exact hb

/-- C14 as stated fails when the cursor is not on the sentinel.  List 2 of Scenario C holds
the items 1 and 2; after one cursor advance `pxIndex` is on item 1.  `vListInsertEnd` of
the detached item 7 then links it in front of item 1, at the head of the list: its
`pxNext` is item 1, not `xListEnd`, and `xListEnd.pxPrevious` is still item 2. -/
theorem vListInsertEnd_cursor_counterexample :
    WellFormed heapCursorMoved 2 [1, 2] ∧
    (heapCursorMoved.lists 2).pxIndex = some (ItemPtr.item 1) ∧
    ∃ h1, vListInsertEnd heapCursorMoved 2 (ItemPtr.item 7) = Outcome.done h1 ∧
      (h1.items 7).pxNext = some (ItemPtr.item 1) ∧
      (h1.items 7).pxNext ≠ some (ItemPtr.listEnd 2) ∧
      (h1.lists 2).xListEnd.pxPrevious = some (ItemPtr.item 2) ∧
      (h1.lists 2).xListEnd.pxPrevious ≠ some (ItemPtr.item 7) ∧
      Ring h1 2 [7, 1, 2] := by
  refine ⟨⟨by decide, by decide, by decide⟩, by decide, _, rfl, by decide, by decide,
    by decide, by decide, by decide⟩

/-- C14 (amended).  On a well-formed list, whatever the position `j` of the cursor and
whatever the key of the new item, `vListInsertEnd` links an item that is not in the list
immediately before the node the cursor points to: it returns, the item's `pxNext` is the
old `pxIndex`, the `pxPrevious` of that node is the item, the list is well formed again
with the item at position `j`, the item's `pxContainer` is the list, and
`uxNumberOfItems` has grown by one.  When the cursor is on the sentinel this is
immediately before the sentinel: the item's `pxNext` is `xListEnd` and
`xListEnd.pxPrevious` is the item. -/
theorem vListInsertEnd_before_cursor (heap : ListHeap) (l : Nat) (xs : List Nat) (j i : Nat)
    (hwf : WellFormed heap l xs)
    (hcur : (heap.lists l).pxIndex = some (ptrAt l xs j)) (hi : i ∉ xs)
    (hcount : (heap.lists l).uxNumberOfItems + 1 < WORD) :
    ∃ h1, vListInsertEnd heap l (ItemPtr.item i) = Outcome.done h1 ∧
      (h1.items i).pxNext = (heap.lists l).pxIndex ∧
      (readItem h1 (ptrAt l xs j)).pxPrevious = some (ItemPtr.item i) ∧
      WellFormed h1 l (xs.take j ++ i :: xs.drop j) ∧
      (h1.items i).pxContainer = some l ∧
      (h1.items i).xItemValue = (heap.items i).xItemValue ∧
      (h1.lists l).uxNumberOfItems = (heap.lists l).uxNumberOfItems + 1 ∧
      ((heap.lists l).pxIndex = some (ItemPtr.listEnd l) →
        (h1.items i).pxNext = some (ItemPtr.listEnd l) ∧
        (h1.lists l).xListEnd.pxPrevious = some (ItemPtr.item i)) := by
  obtain ⟨h1, hrun, hwf1, hnext, hprev, hcont, hown, _, hcnt, _⟩ :=
    vListInsertEnd_wellFormed heap l xs j i hwf hcur hi
  have hn : (h1.items i).pxNext = (heap.lists l).pxIndex := by
    rw [hcur]; exact hnext
  refine ⟨h1, hrun, hn, hprev, hwf1, ?_, (hown (ItemPtr.item i)).2, ?_, ?_⟩
  · have := hcont (ItemPtr.item i)
    rw [if_pos rfl] at this
    exact this
  · rw [hcnt, Nat.mod_eq_of_lt hcount]
  · intro hS
    refine ⟨by rw [hn, hS], ?_⟩
    have hp : ptrAt l xs j = ItemPtr.listEnd l :=
      Option.some.inj (hcur.symm.trans hS)
    rw [hp] at hprev
    exact hprev

/-- The amended C14 at the counterexample: item 7 is linked before item 1, where the
cursor is, and the count becomes 3. -/
theorem vListInsertEnd_before_cursor_witness :
    ∃ h1, vListInsertEnd heapCursorMoved 2 (ItemPtr.item 7) = Outcome.done h1 ∧
      (h1.items 7).pxNext = some (ItemPtr.item 1) ∧
      (h1.items 1).pxPrevious = some (ItemPtr.item 7) ∧
      WellFormed h1 2 [7, 1, 2] ∧ (h1.items 7).pxContainer = some 2 ∧
      (h1.lists 2).uxNumberOfItems = 3 := by
  obtain ⟨h1, a1, a2, a3, a4, a5, _, a7, _⟩ :=
    vListInsertEnd_before_cursor heapCursorMoved 2 [1, 2] 0 7
      ⟨by decide, by decide, by decide⟩ (by decide) (by decide) (by decide)
  exact ⟨h1, a1, a2.trans (by decide), a3, a4, a5, a7.trans (by decide)⟩

/-- C15 (code defect).  The four insertions of `main` of `demo5.c` do not give the order
LED_Task, UART_Task, SPI_Task, Timer_Task that `main` prints as expected.  The fourth
call passes `&ListItem3` again, so item 3 (SPI_Task) ends up linked to itself: walking
from the head visits items 1, 2, 3 and then item 3 for ever, never the sentinel; item 4
(the fourth task) is in no list; and `uxNumberOfItems` is 4 although only three items
are linked. -/
theorem demo5_main_not_fifo :
    demo5_main = Outcome.done demo5_heap ∧ (demo5_heap.lists 0).uxNumberOfItems = 4 ∧
      walk (nextOf demo5_heap) 1 (ItemPtr.listEnd 0) = some (ItemPtr.item 1) ∧
      walk (nextOf demo5_heap) 2 (ItemPtr.listEnd 0) = some (ItemPtr.item 2) ∧
      (∀ k, walk (nextOf demo5_heap) (k + 3) (ItemPtr.listEnd 0) = some (ItemPtr.item 3)) ∧
      (demo5_heap.items 3).pvOwner = some 3 ∧ (demo5_heap.items 4).pxContainer = none ∧
      ¬ Ring demo5_heap 0 [1, 2, 3, 4] :=
  ⟨rfl, by decide, by decide, by decide,
    walk_stuck (nextOf demo5_heap) _ _ 3 (by decide) (by decide),
    by decide, by decide, by decide⟩

/-- C16.  Container consistency.  After `vListInitialise`, every sequence of
`vListInitialiseItem` and `vListInsertEnd` calls on distinct items (no item inserted
twice, none initialised again once inserted) returns; the items reachable from the
sentinel are exactly the inserted ones, each with `pxContainer` equal to the list; and
every initialised item that was never inserted has `pxContainer = NULL`. -/
theorem container_consistency (heap0 : ListHeap) (l : Nat) (ops : List ListOp)
    (hv : ValidOps [] ops) :
    ∃ h, runOps l ops (vListInitialise heap0 l) = Outcome.done h ∧
      Ring h l (insertedItems ops) ∧
      (∀ k x, walk (nextOf h) k (ItemPtr.listEnd l) = some (ItemPtr.item x) →
        x ∈ insertedItems ops ∧ (h.items x).pxContainer = some l) ∧
      (∀ x ∈ insertedItems ops, (h.items x).pxContainer = some l) ∧
      (∀ x ∈ initialisedItems ops, x ∉ insertedItems ops →
        (h.items x).pxContainer = none) := by
  obtain ⟨w1, w2, w3⟩ := vListInitialise_wellFormed heap0 l
  obtain ⟨h, r1, r2, _, _, r5, r6, _⟩ :=
    runOps_invariant l ops (vListInitialise heap0 l) [] [] w1 w2
      (by rw [w3]; unfold WORD; omega) (fun x hx => by simp at hx)
      (fun x hx => by simp at hx) hv
  rw [List.nil_append] at r2 r5 r6
  refine ⟨h, r1, r2.2.1, ?_, r5, ?_⟩
  · intro k x hw
    have hmem := walk_ring_mem h l _ r2.2.1 k x hw
    exact ⟨hmem, r5 x hmem⟩
  · intro x hx hxn
    exact r6 x (by simpa using hx) hxn

/-- C16 on a small run: items 1, 2, 3 are initialised and items 1, 2 inserted; then items
1 and 2 have list 0 as container and item 3 has none. -/
theorem container_consistency_witness :
    ∃ h, runOps 0 opsExample (vListInitialise emptyHeap 0) = Outcome.done h ∧
      Ring h 0 [1, 2] ∧ (h.items 1).pxContainer = some 0 ∧
      (h.items 2).pxContainer = some 0 ∧ (h.items 3).pxContainer = none := by
  obtain ⟨h, a1, a2, _, a4, a5⟩ :=
    container_consistency emptyHeap 0 opsExample (by decide)
  exact ⟨h, a1, a2, a4 1 (by decide), a4 2 (by decide), a5 3 (by decide) (by decide)⟩

/-- C17.  Circularity.  After `vListInitialise` followed by `vListInsertEnd` of `n` distinct
items (`n < 2^32`): `uxNumberOfItems = n`; following `pxNext` from the sentinel reaches
the `k`-th inserted item after `k` steps for `1 ≤ k ≤ n`, so not the sentinel, and the
sentinel again after exactly `n + 1` steps; following `pxPrevious` reaches the items in
the opposite order and the sentinel after `n + 1` steps. -/
theorem circularity (heap0 : ListHeap) (l : Nat) (xs : List Nat) (hnd : xs.Nodup)
    (hlen : xs.length < WORD) :
    ∃ h, runOps l (xs.map ListOp.insertEnd) (vListInitialise heap0 l) = Outcome.done h ∧
      (h.lists l).uxNumberOfItems = xs.length ∧
      walk (nextOf h) (xs.length + 1) (ItemPtr.listEnd l) = some (ItemPtr.listEnd l) ∧
      (∀ k, 1 ≤ k → k ≤ xs.length → ∃ x, xs[k - 1]? = some x ∧
        walk (nextOf h) k (ItemPtr.listEnd l) = some (ItemPtr.item x)) ∧
      walk (prevOf h) (xs.length + 1) (ItemPtr.listEnd l) = some (ItemPtr.listEnd l) ∧
      (∀ k, 1 ≤ k → k ≤ xs.length → ∃ x, xs[xs.length - k]? = some x ∧
        walk (prevOf h) k (ItemPtr.listEnd l) = some (ItemPtr.item x)) := by
  obtain ⟨h, r1, ⟨_, r2, r3⟩, _, r4, _, _⟩ := insertEnds_wellFormed heap0 l xs hnd
  unfold Ring at r2
  rw [Chain_iff_Path] at r2
  obtain ⟨n1, n2⟩ := Path_walk (nextOf h) _ xs _ r2
  obtain ⟨p1, p2⟩ := Path_walk (prevOf h) _ xs.reverse _ r3
  rw [List.length_reverse] at p2
  refine ⟨h, r1, by rw [r4, Nat.mod_eq_of_lt hlen], n2, ?_, p2, ?_⟩
  · intro k hk1 hk2
    have hlt : k - 1 < xs.length := by omega
    refine ⟨xs[k - 1], List.getElem?_eq_getElem hlt, ?_⟩
    have := n1 (k - 1) xs[k - 1] (List.getElem?_eq_getElem hlt)
    rwa [show k - 1 + 1 = k from by omega] at this
  · intro k hk1 hk2
    have hlt : xs.length - k < xs.length := by omega
    refine ⟨xs[xs.length - k], List.getElem?_eq_getElem hlt, ?_⟩
    have hrev : xs.reverse[k - 1]? = some xs[xs.length - k] := by
      rw [List.getElem?_reverse (by omega)]
      rw [show xs.length - 1 - (k - 1) = xs.length - k from by omega]
      exact List.getElem?_eq_getElem hlt
    have := p1 (k - 1) _ hrev
    rwa [show k - 1 + 1 = k from by omega] at this

/-- C17 on three insertions: the count is 3, the fourth `pxNext` step and the fourth
`pxPrevious` step from the sentinel are back on the sentinel, the second `pxNext` step is
on item 20 and the first `pxPrevious` step on item 30. -/
theorem circularity_witness :
    ∃ h, runOps 0 ([10, 20, 30].map ListOp.insertEnd) (vListInitialise emptyHeap 0)
        = Outcome.done h ∧
      (h.lists 0).uxNumberOfItems = 3 ∧
      walk (nextOf h) 4 (ItemPtr.listEnd 0) = some (ItemPtr.listEnd 0) ∧
      walk (nextOf h) 2 (ItemPtr.listEnd 0) = some (ItemPtr.item 20) ∧
      walk (prevOf h) 4 (ItemPtr.listEnd 0) = some (ItemPtr.listEnd 0) ∧
      walk (prevOf h) 1 (ItemPtr.listEnd 0) = some (ItemPtr.item 30) := by
  obtain ⟨h, a1, a2, a3, a4, a5, a6⟩ :=
    circularity emptyHeap 0 [10, 20, 30] (by decide) (by decide)
  obtain ⟨x, hx, hw⟩ := a4 2 (by decide) (by decide)
  obtain ⟨y, hy, hv⟩ := a6 1 (by decide) (by decide)
  simp at hx hy
  subst hx hy
  exact ⟨h, a1, a2, a3, hw, a5, hv⟩

/-! ## Round robin -/

/-- One round of the polling loop of `demostrateIndexUsage` is `vDebugGetNextEntry`
followed by the dereference of the owner it returned. -/
theorem demostrateIndexUsage_step_eq (heap : ListHeap) (l : Nat) :
    demostrateIndexUsage_step heap l
      = (match vDebugGetNextEntry heap l with
         | Outcome.done (h, some t) => Outcome.done (h, t)
         | Outcome.done (_, none) => Outcome.nullDeref
         | Outcome.nullDeref => Outcome.nullDeref
         | Outcome.outOfFuel => Outcome.outOfFuel
         | Outcome.undefined => Outcome.undefined) := by
  unfold demostrateIndexUsage_step vDebugGetNextEntry
  cases h0 : (heap.lists l).pxIndex with
  | none => rfl
  | some i0 =>
    simp only
    cases h1 : ((setIndex heap l (readItem heap i0).pxNext).lists l).pxIndex with
    | none => rfl
    | some i1 =>
      simp only
      generalize (if i1 = ItemPtr.listEnd l then
          setIndex (setIndex heap l (readItem heap i0).pxNext) l
            (readItem (setIndex heap l (readItem heap i0).pxNext) i1).pxNext
        else setIndex heap l (readItem heap i0).pxNext) = h2
      cases h3 : (h2.lists l).pxIndex with
      | none => rfl
      | some i2 =>
        simp only
        cases h4 : (readItem h2 i2).pvOwner with
        | none => rfl
        | some t => rfl

/-- The owners returned by `n` cursor advances on a non-empty ring, from any cursor
position `j`: the `t`-th advance (counting from 0) returns the owner of the item at position
`(p + t) mod len`, where `p` is the position after the cursor.  The ring and the items are
unchanged and the position after the final cursor is `(p + n) mod len`. -/
theorem advances_ring (l : Nat) (xs : List Nat) (hne : xs ≠ []) :
    ∀ (n : Nat) (heap : ListHeap) (j : Nat), Ring heap l xs → j ≤ xs.length →
      (heap.lists l).pxIndex = some (ptrAt l xs j) →
      ∃ hn, advances l n heap = Outcome.done (hn,
          (List.range n).map
            (fun t => ownerAt heap xs ((nextPos xs.length j + t) % xs.length))) ∧
        Ring hn l xs ∧ hn.items = heap.items ∧
        ∃ jn, jn ≤ xs.length ∧ (hn.lists l).pxIndex = some (ptrAt l xs jn) ∧
          nextPos xs.length jn = (nextPos xs.length j + n) % xs.length := by
  have hpos : 0 < xs.length := List.length_pos.2 hne
  intro n
  induction n with
  | zero =>
    intro heap j hring hj hcur
    refine ⟨heap, rfl, hring, rfl, j, hj, hcur, ?_⟩
    rw [Nat.add_zero, Nat.mod_eq_of_lt (nextPos_lt _ _ hpos)]
  | succ n ih =>
    intro heap j hring hj hcur
    obtain ⟨y, hy, hget⟩ := vDebugGetNextEntry_ring heap l xs j hring hne hj hcur
    have hp0 : nextPos xs.length j < xs.length := nextPos_lt _ _ hpos
    have hcur1 : ((setIndex heap l (some (ItemPtr.item y))).lists l).pxIndex
        = some (ptrAt l xs (nextPos xs.length j)) := by
      rw [setIndex_index]
      unfold ptrAt
      rw [hy]
    have hring1 : Ring (setIndex heap l (some (ItemPtr.item y))) l xs :=
      Chain_setIndex heap l _ xs _ _ hring
    obtain ⟨hn, hrun, r1, r2, jn, r3, r4, r5⟩ :=
      ih (setIndex heap l (some (ItemPtr.item y))) (nextPos xs.length j) hring1
        (Nat.le_of_lt hp0) hcur1
    have hnp : nextPos xs.length (nextPos xs.length j) = (nextPos xs.length j + 1) % xs.length := by
      have := nextPos_iterate xs.length hpos 1 (nextPos xs.length j) hp0
      simpa using this
    refine ⟨hn, ?_, r1, by rw [r2]; rfl, jn, r3, r4, ?_⟩
    · rw [advances, hget]
      simp only
      rw [hrun]
      simp only
      congr 2
      rw [List.range_succ_eq_map, List.map_cons, List.map_map]
      congr 1
      · simp only [ownerAt, Nat.add_zero, Nat.mod_eq_of_lt hp0, hy]
      · apply List.map_congr_left
        intro t _
        simp only [Function.comp, ownerAt, setIndex_items, hnp, Nat.mod_add_mod]
        rw [show nextPos xs.length j + 1 + t = nextPos xs.length j + t.succ from by omega]
    · rw [r5, hnp, Nat.mod_add_mod]
      congr 1
      omega

/-- The owners of a full round starting at position `r` are the owners of the items of
the list rotated by `r`. -/
theorem owners_rotate (heap : ListHeap) (xs : List Nat) (r : Nat) :
    (List.range xs.length).map (fun t => ownerAt heap xs ((r + t) % xs.length))
      = (xs.rotate r).map (fun x => (heap.items x).pvOwner) := by
  apply List.ext_getElem?
  intro n
  by_cases hn : n < xs.length
  · rw [List.getElem?_map, List.getElem?_map, List.getElem?_range hn,
      List.getElem?_rotate hn, Nat.add_comm n r]
    have hlt : (r + n) % xs.length < xs.length := Nat.mod_lt _ (by omega)
    simp [ownerAt, List.getElem?_eq_getElem hlt]
  · rw [List.getElem?_eq_none (by simpa using hn), List.getElem?_eq_none (by simpa using hn)]

/-- The polling loop of `demostrateIndexUsage` does what the same number of
`vDebugGetNextEntry` calls do, whenever these return owners that are not `NULL`. -/
theorem demostrateIndexUsage_loop_of_advances (l : Nat) :
    ∀ (n : Nat) (heap hn : ListHeap) (ts : List Nat),
      advances l n heap = Outcome.done (hn, ts.map some) →
      demostrateIndexUsage_loop l n heap = Outcome.done (hn, ts) := by
  intro n
  induction n with
  | zero =>
    intro heap hn ts h
    unfold advances at h
    injection h with h
    injection h with h1 h2
    cases ts with
    | nil => rw [h1]; rfl
    | cons t ts => simp at h2
  | succ n ih =>
    intro heap hn ts h
    unfold advances at h
    unfold demostrateIndexUsage_loop
    rw [demostrateIndexUsage_step_eq]
    cases hg : vDebugGetNextEntry heap l with
    | done r =>
      obtain ⟨h1, owner⟩ := r
      rw [hg] at h
      simp only at h
      cases ha : advances l n h1 with
      | done r2 =>
        obtain ⟨h2, owners⟩ := r2
        rw [ha] at h
        simp only at h
        injection h with h
        injection h with e1 e2
        cases ts with
        | nil => simp at e2
        | cons t ts1 =>
          rw [List.map_cons] at e2
          injection e2 with e3 e4
          subst e3
          subst e4
          subst e1
          simp only
          rw [ih h1 h2 ts1 ha]
      | nullDeref => rw [ha] at h; cases h
      | outOfFuel => rw [ha] at h; cases h
      | undefined => rw [ha] at h; cases h
    | nullDeref => rw [hg] at h; cases h
    | outOfFuel => rw [hg] at h; cases h
    | undefined => rw [hg] at h; cases h

/-- A list of owners none of which is `NULL` is a list of tasks. -/
theorem owners_are_tasks (os : List (Option Nat)) (h : ∀ o ∈ os, o ≠ none) :
    ∃ ts : List Nat, ts.map some = os := by
  induction os with
  | nil => exact ⟨[], rfl⟩
  | cons o os ih =>
    obtain ⟨ts, hts⟩ := ih (fun o1 ho1 => h o1 (List.mem_cons_of_mem _ ho1))
    cases o with
    | none => exact absurd rfl (h none (List.mem_cons_self _ _))
    | some t => exact ⟨t :: ts, by rw [List.map_cons, hts]⟩

/-- C11.  Round-robin fairness.  Let a list be built by `vListInitialise` and
`vListInsertEnd` of the distinct items `xs` (`N = xs.length ≥ 1`) and then only be
advanced.  Every number `k` of cursor advances with `vDebugGetNextEntry` returns, the
`t`-th of them (from 0) giving the owner of item `xs[t mod N]`; the next `N` advances
return the owners of the items of `xs` rotated by `k`, that is each item of the list
exactly once, in list order starting after the cursor; and the advance number `m + N`
returns the same owner as the advance number `m`.  When every item has an owner, the
polling loop of `demostrateIndexUsage` does the same: `k` rounds return and print the
same tasks in the same order and leave the same cursor, the next `N` rounds print the
owners of `xs` rotated by `k`, and round `m + N` prints the task of round `m`. -/
theorem round_robin_fairness (heap0 : ListHeap) (l : Nat) (xs : List Nat) (hnd : xs.Nodup)
    (hne : xs ≠ []) :
    ∃ h, runOps l (xs.map ListOp.insertEnd) (vListInitialise heap0 l) = Outcome.done h ∧
      ∀ k, ∃ hk ok hN, advances l k h = Outcome.done (hk, ok) ∧
        ok = (List.range k).map (fun t => ownerAt h xs (t % xs.length)) ∧
        advances l xs.length hk
          = Outcome.done (hN, (xs.rotate k).map (fun x => (h.items x).pvOwner)) ∧
        List.Perm (xs.rotate k) xs ∧ (xs.rotate k).Nodup ∧
        (∀ m, m + xs.length < k → ok[m + xs.length]? = ok[m]?) ∧
        ((∀ x ∈ xs, (heap0.items x).pvOwner ≠ none) →
          ∃ tk tN, demostrateIndexUsage_loop l k h = Outcome.done (hk, tk) ∧
            tk.map some = ok ∧
            demostrateIndexUsage_loop l xs.length hk = Outcome.done (hN, tN) ∧
            tN.map some = (xs.rotate k).map (fun x => (h.items x).pvOwner) ∧
            (∀ m, m + xs.length < k → tk[m + xs.length]? = tk[m]?)) := by
  have hpos : 0 < xs.length := List.length_pos.2 hne
  obtain ⟨h, r1, ⟨_, r2, _⟩, r3, _, _, r6⟩ := insertEnds_wellFormed heap0 l xs hnd
  refine ⟨h, r1, fun k => ?_⟩
  have hcur : (h.lists l).pxIndex = some (ptrAt l xs xs.length) := by
    rw [ptrAt_ge l xs _ (Nat.le_refl _)]; exact r3
  have hp0 : nextPos xs.length xs.length = 0 := by
    unfold nextPos
    rw [if_neg (by omega)]
  obtain ⟨hk, a1, a2, a3, jn, a4, a5, a6⟩ :=
    advances_ring l xs hne k h xs.length r2 (Nat.le_refl _) hcur
  obtain ⟨hN, b1, _, _, _⟩ := advances_ring l xs hne xs.length hk jn a2 a4 a5
  rw [hp0] at a1 a6
  simp only [Nat.zero_add] at a1 a6
  have hrot : advances l xs.length hk
      = Outcome.done (hN, (xs.rotate k).map (fun x => (h.items x).pvOwner)) := by
    rw [b1, a6]
    congr 2
    have hown : ∀ p, ownerAt hk xs p = ownerAt h xs p := by
      intro p
      simp only [ownerAt, a3]
    simp only [hown]
    rw [owners_rotate h xs (k % xs.length), List.rotate_mod]
  have hper : ∀ m, m + xs.length < k →
      ((List.range k).map (fun t => ownerAt h xs (t % xs.length)))[m + xs.length]?
        = ((List.range k).map (fun t => ownerAt h xs (t % xs.length)))[m]? := by
    intro m hm
    rw [List.getElem?_map, List.getElem?_map, List.getElem?_range hm,
      List.getElem?_range (by omega)]
    simp only [Option.map_some', Nat.add_mod_right]
  refine ⟨hk, _, hN, a1, rfl, hrot, List.rotate_perm xs k, List.nodup_rotate.2 hnd, hper, ?_⟩
  intro hown
  have hown1 : ∀ x ∈ xs, (h.items x).pvOwner ≠ none := by
    intro x hx
    rw [r6 x]
    exact hown x hx
  obtain ⟨tk, htk⟩ := owners_are_tasks
    ((List.range k).map (fun t => ownerAt h xs (t % xs.length))) (by
      intro o ho
      obtain ⟨t, _, rfl⟩ := List.mem_map.1 ho
      have hlt : t % xs.length < xs.length := Nat.mod_lt _ hpos
      simp only [ownerAt, List.getElem?_eq_getElem hlt]
      exact hown1 _ (List.getElem_mem _))
  obtain ⟨tN, htN⟩ := owners_are_tasks
    ((xs.rotate k).map (fun x => (h.items x).pvOwner)) (by
      intro o ho
      obtain ⟨x, hx, rfl⟩ := List.mem_map.1 ho
      exact hown1 x (List.mem_rotate.1 hx))
  refine ⟨tk, tN, ?_, htk, ?_, htN, ?_⟩
  · apply demostrateIndexUsage_loop_of_advances
    rw [htk]; exact a1
  · apply demostrateIndexUsage_loop_of_advances
    rw [htN]; exact hrot
  · intro m hm
    have h1 := hper m hm
    rw [← htk, List.getElem?_map, List.getElem?_map] at h1
    exact Option.map_injective (Option.some_injective _) h1

/-- C11 on a list of three items owned by the tasks 110, 120, 130: four advances return
110, 120, 130, 110, and the next three return 120, 130, 110; the six rounds of
`demostrateIndexUsage` print 110, 120, 130, 110, 120, 130. -/
theorem round_robin_fairness_witness :
    ∃ h, runOps 0 ([10, 20, 30].map ListOp.insertEnd) (vListInitialise heapOwned 0)
        = Outcome.done h ∧
      (∃ hk hN, advances 0 4 h = Outcome.done (hk, [some 110, some 120, some 130, some 110]) ∧
        advances 0 3 hk = Outcome.done (hN, [some 120, some 130, some 110])) ∧
      ∃ h6, demostrateIndexUsage h 0 = Outcome.done (h6, [110, 120, 130, 110, 120, 130]) := by
  obtain ⟨h, a1, a2⟩ := round_robin_fairness heapOwned 0 [10, 20, 30] (by decide) (by decide)
  have hitems : ∀ x, (h.items x).pvOwner = some (100 + x) := by
    intro x
    have h0 : runOps 0 ([10, 20, 30].map ListOp.insertEnd) (vListInitialise heapOwned 0)
        = Outcome.done h := a1
    obtain ⟨h', c1, _, _, _, _, c6⟩ :=
      insertEnds_wellFormed heapOwned 0 [10, 20, 30] (by decide)
    rw [c1] at h0
    cases h0
    rw [c6 x]
    rfl
  refine ⟨h, a1, ?_, ?_⟩
  · obtain ⟨hk, ok, hN, b1, b2, b3, _⟩ := a2 4
    refine ⟨hk, hN, ?_, ?_⟩
    · rw [b1, b2]
      simp [ownerAt, hitems, List.range_succ]
    · have b4 : advances 0 3 hk
          = Outcome.done (hN, List.map (fun x => (h.items x).pvOwner) ([10, 20, 30].rotate 4)) := b3
      rw [b4]
      simp [hitems, List.rotate]
  · obtain ⟨hk, ok, hN, _, b2, _, _, _, _, b7⟩ := a2 6
    obtain ⟨tk, tN, c1, c2, _⟩ := b7 (by intro x _; simp [heapOwned])
    refine ⟨hk, ?_⟩
    have htk : tk = [110, 120, 130, 110, 120, 130] := by
      apply List.map_injective_iff.2 (Option.some_injective _)
      rw [c2, b2]
      simp [ownerAt, hitems, List.range_succ]
    unfold demostrateIndexUsage
    rw [c1, htk]

/-! ## Removal from a circular list (`uxListRemove`) -/

/-- What the removal does when the neighbours `c` (next) and `q` (previous) of the item
are not the item itself. -/
theorem uxListRemove_local (heap : ListHeap) (l x : Nat) (c q : ItemPtr)
    (hcont : (readItem heap (ItemPtr.item x)).pxContainer = some l)
    (hnext : (readItem heap (ItemPtr.item x)).pxNext = some c)
    (hprev : (readItem heap (ItemPtr.item x)).pxPrevious = some q)
    (hxc : ItemPtr.item x ≠ c) (hxq : ItemPtr.item x ≠ q) :
    ∃ h1 n, uxListRemove heap (ItemPtr.item x) = Outcome.done (Except.ok (h1, n)) ∧
      n = ((heap.lists l).uxNumberOfItems + WORD - 1) % WORD ∧
      (∀ p, p ≠ ItemPtr.item x →
        nextOf h1 p = if p = q then some c else nextOf heap p) ∧
      (∀ p, p ≠ ItemPtr.item x →
        prevOf h1 p = if p = c then some q else prevOf heap p) ∧
      (∀ p, (readItem h1 p).pxContainer
              = if p = ItemPtr.item x then none else (readItem heap p).pxContainer) ∧
      (∀ p, (readItem h1 p).pvOwner = (readItem heap p).pvOwner) ∧
      (∀ k, (h1.lists k).pxIndex = (heap.lists k).pxIndex) ∧
      (h1.lists l).uxNumberOfItems = ((heap.lists l).uxNumberOfItems + WORD - 1) % WORD ∧
      (readItem h1 (ItemPtr.item x)).pxNext = some c ∧
      (readItem h1 (ItemPtr.item x)).pxPrevious = some q := by
  have hcx : c ≠ ItemPtr.item x := fun e => hxc e.symm
  have hqx : q ≠ ItemPtr.item x := fun e => hxq e.symm
  unfold uxListRemove
  rw [hcont]
  simp only [hnext, readItem_writeItem, if_neg hxc, hprev]
  refine ⟨_, _, rfl, ?_, ?_, ?_, ?_, ?_, ?_, ?_, ?_, ?_⟩
  · simp [writeItem_index]
  · intro p hp
    simp only [nextOf, readItem_writeItem, readItem_setCount, if_neg hp]
    by_cases hpq : p = q
    · subst hpq; simp
    · by_cases hpc : p = c
      · subst hpc; simp [hpq]
      · simp [hpq, hpc]
  · intro p hp
    simp only [prevOf, readItem_writeItem, readItem_setCount, if_neg hp]
    by_cases hpc : p = c
    · subst hpc
      by_cases hpq : p = q
      · subst hpq; simp
      · simp [hpq]
    · by_cases hpq : p = q
      · subst hpq; simp [hpc]
      · simp [hpq, hpc]
  · intro p
    simp only [readItem_writeItem, readItem_setCount]
    by_cases hp : p = ItemPtr.item x
    · simp [hp]
    · rw [if_neg hp, if_neg hp]
      by_cases hpq : p = q
      · subst hpq
        by_cases hpc : p = c
        · subst hpc; simp
        · simp [hpc]
      · by_cases hpc : p = c
        · subst hpc; simp [hpq]
        · simp [hpq, hpc]
  · intro p
    simp only [readItem_writeItem, readItem_setCount]
    by_cases hp : p = ItemPtr.item x
    · subst hp
      simp [hxq, hxc]
    · rw [if_neg hp]
      by_cases hpq : p = q
      · subst hpq
        by_cases hpc : p = c
        · subst hpc; simp
        · simp [hpc]
      · by_cases hpc : p = c
        · subst hpc; simp [hpq]
        · simp [hpq, hpc]
  · intro k
    rw [(writeItem_index _ _ _ k).1]
    by_cases hk : k = l
    · subst hk; simp [writeItem_index]
    · simp [hk, writeItem_index]
  · rw [(writeItem_index _ _ _ l).2]
    simp [writeItem_index]
  · simp only [readItem_writeItem, readItem_setCount, if_true, if_neg hxq, if_neg hxc]
    exact hnext
  · simp only [readItem_writeItem, readItem_setCount, if_true, if_neg hxq, if_neg hxc]
    exact hprev

/-- Removing the item `x` from the well-formed list `pre ++ x :: post`: the removal
returns the decremented count, the list is well formed with the items `pre ++ post`, the
item has no container and keeps its own links, and nothing else changes. -/
theorem uxListRemove_wellFormed (heap : ListHeap) (l x : Nat) (pre post : List Nat)
    (hwf : WellFormed heap l (pre ++ x :: post))
    (hcont : (heap.items x).pxContainer = some l) :
    ∃ h1 n, uxListRemove heap (ItemPtr.item x) = Outcome.done (Except.ok (h1, n)) ∧
      n = ((heap.lists l).uxNumberOfItems + WORD - 1) % WORD ∧
      (h1.lists l).uxNumberOfItems = n ∧
      WellFormed h1 l (pre ++ post) ∧
      (∀ p, (readItem h1 p).pxContainer
              = if p = ItemPtr.item x then none else (readItem heap p).pxContainer) ∧
      (∀ p, (readItem h1 p).pvOwner = (readItem heap p).pvOwner) ∧
      (∀ k, (h1.lists k).pxIndex = (heap.lists k).pxIndex) ∧
      (h1.items x).pxPrevious = some (lastNode (ItemPtr.listEnd l) pre) ∧
      (∀ p, p ≠ ItemPtr.item x → prevOf h1 p
          = if p = firstNode post (ItemPtr.listEnd l) then some (lastNode (ItemPtr.listEnd l) pre)
            else prevOf heap p) := by
  obtain ⟨hnd, hring, hprev⟩ := hwf
  have hS : ∀ y, ItemPtr.listEnd l ≠ ItemPtr.item y := fun y e => by cases e
  have hxpre : x ∉ pre := by
    intro hmem
    have := (List.nodup_append.1 hnd).2.2
    exact this hmem (by simp)
  have hxpost : x ∉ post := by
    have := (List.nodup_append.1 hnd).2.1
    exact (List.nodup_cons.1 this).1
  have hrev : (pre ++ x :: post).reverse = post.reverse ++ x :: pre.reverse := by simp
  unfold Ring at hring
  rw [Chain_iff_Path] at hring
  unfold RingPrev at hprev
  rw [hrev] at hprev
  -- the neighbours of the item
  have hn : nextOf heap (ItemPtr.item x) = some (firstNode post (ItemPtr.listEnd l)) := by
    have h := Path_link (nextOf heap) (ItemPtr.listEnd l) post (pre ++ [x]) (ItemPtr.listEnd l)
      (by rw [List.append_assoc, List.singleton_append]; exact hring)
    rwa [lastNode_append] at h
  have hp : prevOf heap (ItemPtr.item x) = some (lastNode (ItemPtr.listEnd l) pre) := by
    have h := Path_link (prevOf heap) (ItemPtr.listEnd l) pre.reverse (post.reverse ++ [x])
      (ItemPtr.listEnd l) (by rw [List.append_assoc, List.singleton_append]; exact hprev)
    rwa [lastNode_append, ← lastNode_eq_firstNode_reverse] at h
  have hxc : ItemPtr.item x ≠ firstNode post (ItemPtr.listEnd l) := by
    intro e
    rcases firstNode_mem post (ItemPtr.listEnd l) with h | ⟨y, hy, h⟩
    · rw [h] at e; cases e
    · rw [h] at e; cases e; exact hxpost hy
  have hxq : ItemPtr.item x ≠ lastNode (ItemPtr.listEnd l) pre := by
    intro e
    rcases lastNode_mem (ItemPtr.listEnd l) pre with h | ⟨y, hy, h⟩
    · rw [h] at e; cases e
    · rw [h] at e; cases e; exact hxpre hy
  obtain ⟨h1, n, hrun, hneq, hnext1, hprev1, hcont1, hown1, hidx1, hcnt1, _, hxp⟩ :=
    uxListRemove_local heap l x _ _ hcont hn hp hxc hxq
  refine ⟨h1, n, hrun, hneq, by rw [hcnt1, hneq], ⟨?_, ?_, ?_⟩, hcont1, hown1, hidx1, hxp, ?_⟩
  · have h2 := List.nodup_middle.1 hnd
    exact (List.nodup_cons.1 h2).2
  · unfold Ring
    rw [Chain_iff_Path]
    apply Path_remove (nextOf heap) (nextOf h1) (ItemPtr.listEnd l) x post pre _ hnd
      (fun y _ => hS y) _ _ hring
    · rw [hnext1 _ (fun e => hxq e.symm), if_pos rfl]
    · intro p hp1 hp2
      rw [hnext1 p hp2, if_neg hp1]
  · unfold RingPrev
    rw [List.reverse_append]
    apply Path_remove (prevOf heap) (prevOf h1) (ItemPtr.listEnd l) x pre.reverse post.reverse
      _ (by rw [← hrev]; exact List.nodup_reverse.2 hnd) (fun y _ => hS y) _ _ hprev
    · rw [← firstNode_eq_lastNode_reverse, hprev1 _ (fun e => hxc e.symm), if_pos rfl,
        ← lastNode_eq_firstNode_reverse]
    · intro p hp1 hp2
      rw [← firstNode_eq_lastNode_reverse] at hp1
      rw [hprev1 p hp2, if_neg hp1]
  · exact hprev1

/-- Whenever the cursor of the list and the `pxPrevious` of the node it points to are not
`NULL`, `vListInsertEnd` returns, the inserted item has the list as container and the
count has grown by one modulo 2^32. -/
theorem vListInsertEnd_returns (heap : ListHeap) (l : Nat) (i : ItemPtr) (c q : ItemPtr)
    (hcur : (heap.lists l).pxIndex = some c) (hprev : (readItem heap c).pxPrevious = some q) :
    ∃ h1, vListInsertEnd heap l i = Outcome.done h1 ∧
      (readItem h1 i).pxContainer = some l ∧
      (h1.lists l).uxNumberOfItems = ((heap.lists l).uxNumberOfItems + 1) % WORD := by
  unfold vListInsertEnd
  rw [hcur]
  by_cases hci : c = i
  · subst hci
    simp only [readItem_writeItem, if_true, hprev]
    refine ⟨_, rfl, ?_, ?_⟩
    · simp [readItem_setCount, readItem_writeItem]
    · simp [writeItem_index]
  · simp only [readItem_writeItem, if_neg hci, if_true, hprev]
    refine ⟨_, rfl, ?_, ?_⟩
    · simp [readItem_setCount, readItem_writeItem]
    · simp [writeItem_index]

/-- C19.  Removal and re-insertion.  On a well-formed list `l` holding the `n >= 1` items
`xs` (count `n < 2^32`, cursor on a node of the list), for an item `x` of the list whose
container is `l`: `uxListRemove` returns `n - 1`; the list is then well formed with
exactly the other items in their previous order (`xs.erase x`, which has `n - 1` items
and is `xs` without `x`), its count is `n - 1`, the container of `x` is `NULL` and the
containers of the other items are unchanged.  Re-inserting `x` with `vListInsertEnd`
afterwards returns, sets the container of `x` to `l` again and restores the count `n`;
unless the cursor was on `x` itself the list is well formed again, with `x` linked before
the cursor. -/
theorem uxListRemove_then_reinsert (heap : ListHeap) (l x : Nat) (xs : List Nat) (j : Nat)
    (hwf : WellFormed heap l xs) (hx : x ∈ xs)
    (hcount : (heap.lists l).uxNumberOfItems = xs.length) (hlen : xs.length < WORD)
    (hcont : (heap.items x).pxContainer = some l)
    (hcur : (heap.lists l).pxIndex = some (ptrAt l xs j)) :
    ∃ h1, uxListRemove heap (ItemPtr.item x) = Outcome.done (Except.ok (h1, xs.length - 1)) ∧
      WellFormed h1 l (xs.erase x) ∧ (xs.erase x).length = xs.length - 1 ∧
      (∀ y, y ∈ xs.erase x ↔ y ∈ xs ∧ y ≠ x) ∧ List.Sublist (xs.erase x) xs ∧
      (h1.lists l).uxNumberOfItems = xs.length - 1 ∧
      (h1.items x).pxContainer = none ∧
      (∀ y, y ≠ x → (h1.items y).pxContainer = (heap.items y).pxContainer) ∧
      ∃ h2, vListInsertEnd h1 l (ItemPtr.item x) = Outcome.done h2 ∧
        (h2.items x).pxContainer = some l ∧ (h2.lists l).uxNumberOfItems = xs.length ∧
        ((heap.lists l).pxIndex ≠ some (ItemPtr.item x) →
          ∃ k, WellFormed h2 l ((xs.erase x).take k ++ x :: (xs.erase x).drop k)) := by
  have hnd := hwf.1
  have hpos : 0 < xs.length := List.length_pos_of_mem hx
  have hmem : ∀ y, y ∈ xs.erase x ↔ y ∈ xs ∧ y ≠ x := fun y => by
    rw [hnd.mem_erase_iff]; exact and_comm
  obtain ⟨pre, post, hsplit⟩ := List.append_of_mem hx
  have hxpre : x ∉ pre := by
    intro hm
    rw [hsplit] at hnd
    exact (List.nodup_append.1 hnd).2.2 hm (by simp)
  have herase : xs.erase x = pre ++ post := by
    rw [hsplit, List.erase_append_right _ hxpre, List.erase_cons_head]
  have hwf0 := hwf
  rw [hsplit] at hwf0
  obtain ⟨h1, n, hrun, hn, hcnt, hwf1, hcont1, _, hidx1, hxp, hprev1⟩ :=
    uxListRemove_wellFormed heap l x pre post hwf0 hcont
  have hn1 : n = xs.length - 1 := by
    rw [hn, hcount]
    have e : xs.length + WORD - 1 = (xs.length - 1) + WORD := by omega
    rw [e, Nat.add_mod_right, Nat.mod_eq_of_lt (by omega)]
  rw [← herase] at hwf1
  -- the cursor and its predecessor after the removal
  have hcur1 : (h1.lists l).pxIndex = some (ptrAt l xs j) := by rw [hidx1, hcur]
  have hq : ∃ q, (readItem h1 (ptrAt l xs j)).pxPrevious = some q := by
    by_cases hcx : ptrAt l xs j = ItemPtr.item x
    · rw [hcx]; exact ⟨_, hxp⟩
    · have h := hprev1 _ hcx
      unfold prevOf at h
      rw [h]
      split
      · exact ⟨_, rfl⟩
      · exact ⟨_, WellFormed_prev heap l xs j hwf⟩
  obtain ⟨q, hq⟩ := hq
  obtain ⟨h2, hins, hc2, hcnt2⟩ := vListInsertEnd_returns h1 l (ItemPtr.item x) _ q hcur1 hq
  refine ⟨h1, by rw [hrun, hn1], hwf1, ?_, hmem, List.erase_sublist x xs, by rw [hcnt, hn1],
    ?_, ?_, h2, hins, hc2, ?_, ?_⟩
  · rw [List.length_erase_of_mem hx]
  · have h := hcont1 (ItemPtr.item x)
    rw [if_pos rfl] at h
    exact h
  · intro y hy
    have h := hcont1 (ItemPtr.item y)
    rw [if_neg (fun e => hy (ItemPtr.item.inj e))] at h
    exact h
  · rw [hcnt2, hcnt, hn1]
    have e : xs.length - 1 + 1 = xs.length := by omega
    rw [e, Nat.mod_eq_of_lt hlen]
  · intro hne
    have hcx : ptrAt l xs j ≠ ItemPtr.item x := fun e => hne (by rw [hcur, e])
    have hk : ∃ k, ptrAt l xs j = ptrAt l (xs.erase x) k := by
      cases hy : xs[j]? with
      | none =>
        refine ⟨(xs.erase x).length, ?_⟩
        rw [ptrAt_ge l (xs.erase x) _ (Nat.le_refl _)]
        unfold ptrAt
        rw [hy]
      | some y =>
        have hpy : ptrAt l xs j = ItemPtr.item y := by unfold ptrAt; rw [hy]
        have hyx : y ≠ x := fun e => hcx (by rw [hpy, e])
        have hymem : y ∈ xs.erase x := (hmem y).2 ⟨(List.mem_iff_getElem?.2 ⟨j, hy⟩), hyx⟩
        obtain ⟨k, hk⟩ := List.getElem?_of_mem hymem
        refine ⟨k, ?_⟩
        rw [hpy]
        unfold ptrAt
        rw [hk]
    obtain ⟨k, hk⟩ := hk
    rw [hk] at hcur1
    obtain ⟨h2a, hinsa, hwf2, _⟩ :=
      vListInsertEnd_wellFormed h1 l (xs.erase x) k x hwf1 hcur1 (fun hm => ((hmem x).1 hm).2 rfl)
    have e : h2 = h2a := Outcome.done.inj (hins.symm.trans hinsa)
    exact ⟨k, e ▸ hwf2⟩

/-- C19 at the list 10, 20, 30: removing item 20 returns 2, leaves 10, 30 and clears the
container of item 20; re-inserting it restores the count 3 and sets the container
again. -/
theorem uxListRemove_then_reinsert_witness :
    ∃ h1, uxListRemove heapThree (ItemPtr.item 20) = Outcome.done (Except.ok (h1, 2)) ∧
      WellFormed h1 0 [10, 30] ∧ (h1.lists 0).uxNumberOfItems = 2 ∧
      (h1.items 20).pxContainer = none ∧
      ∃ h2, vListInsertEnd h1 0 (ItemPtr.item 20) = Outcome.done h2 ∧
        (h2.items 20).pxContainer = some 0 ∧ (h2.lists 0).uxNumberOfItems = 3 := by
  obtain ⟨h1, a1, a2, _, _, _, a6, a7, _, h2, b1, b2, b3, _⟩ :=
    uxListRemove_then_reinsert heapThree 0 20 [10, 20, 30] 3
      ⟨by decide, by decide, by decide⟩ (by decide) (by decide) (by decide) (by decide)
      (by decide)
  exact ⟨h1, a1, a2, a6, a7, h2, b1, b2, b3⟩

/-- A `NULL`-terminated walk from a given start determines its sequence of tasks. -/
theorem IsList_unique (mem : Mem) :
    ∀ (l1 l2 : List Nat) (h : Option Nat), IsList mem h l1 → IsList mem h l2 → l1 = l2 := by
  intro l1
  induction l1 with
  | nil =>
    intro l2 h h1 h2
    cases l2 with
    | nil => rfl
    | cons b l2 =>
      have e1 : h = none := h1
      have e2 : h = some b := h2.1
      rw [e1] at e2; cases e2
  | cons a l1 ih =>
    intro l2 h h1 h2
    cases l2 with
    | nil =>
      have e1 : h = some a := h1.1
      have e2 : h = none := h2
      rw [e1] at e2; cases e2
    | cons b l2 =>
      have e1 : h = some a := h1.1
      have e2 : h = some b := h2.1
      have eab : a = b := Option.some.inj (e1.symm.trans e2)
      subst eab
      rw [ih l2 _ h1.2 h2.2]

/-- The part of a list from one of its tasks on is the list that starts at that task. -/
theorem IsList_suffix (mem : Mem) (a : Nat) (t : List Nat) :
    ∀ (pre : List Nat) (h : Option Nat), IsList mem h (pre ++ a :: t) →
      IsList mem (some a) (a :: t) := by
  intro pre
  induction pre with
  | nil => intro h hl; exact ⟨rfl, hl.2⟩
  | cons b pre ih => intro h hl; exact ih _ hl.2

/-- A `NULL`-terminated list holds no task twice. -/
theorem IsList_nodup (mem : Mem) :
    ∀ (l : List Nat) (h : Option Nat), IsList mem h l → l.Nodup := by
  intro l
  induction l with
  | nil => intro _ _; exact List.nodup_nil
  | cons a l ih =>
    intro h hl
    refine List.nodup_cons.2 ⟨?_, ih _ hl.2⟩
    intro hmem
    obtain ⟨s, t, hst⟩ := List.append_of_mem hmem
    have h1 : IsList mem (some a) (a :: t) := IsList_suffix mem a t s _ (hst ▸ hl.2)
    have h2 : IsList mem (some a) (a :: l) := ⟨rfl, hl.2⟩
    have e := IsList_unique mem _ _ _ h1 h2
    rw [hst] at e
    have e2 := congrArg List.length e
    simp at e2
    omega

/-- The loop of `vListRemove` on a list that does not hold the task runs to the end of the list:
`pxCurrent` is `NULL` when it stops. -/
theorem vListRemove_loop_absent (mem : Mem) (x : Nat) :
    ∀ (l : List Nat) (cur prev : Option Nat) (extra : Nat), IsList mem cur l → x ∉ l →
      ∃ p, vListRemove_loop (extra + l.length + 1) mem x cur prev = Outcome.done (none, p) := by
  intro l
  induction l with
  | nil =>
    intro cur prev extra hl _
    have e : cur = none := hl
    subst e
    exact ⟨prev, rfl⟩
  | cons a l ih =>
    intro cur prev extra hl hx
    have e : cur = some a := hl.1
    subst e
    have hax : a ≠ x := fun e => hx (by rw [e]; exact List.mem_cons_self _ _)
    obtain ⟨p, hp⟩ := ih (mem a).pxNext (some a) extra hl.2 (fun hm => hx (List.mem_cons_of_mem _ hm))
    refine ⟨p, ?_⟩
    have hf : extra + (a :: l).length + 1 = (extra + l.length + 1) + 1 := by
      simp only [List.length_cons]; omega
    rw [hf]
    show (if a ≠ x then vListRemove_loop (extra + l.length + 1) mem x (mem a).pxNext (some a)
      else Outcome.done (some a, prev)) = _
    rw [if_pos hax, hp]

/-- The loop of `vListRemove` on a list that holds the task stops at the task, with `pxPrev` on the
task before it (or unchanged when the task is the head). -/
theorem vListRemove_loop_present (mem : Mem) (x : Nat) (post : List Nat) :
    ∀ (pre : List Nat) (cur prev : Option Nat) (extra : Nat),
      IsList mem cur (pre ++ x :: post) → x ∉ pre →
      vListRemove_loop (extra + pre.length + 1) mem x cur prev
        = Outcome.done (some x, if pre = [] then prev else pre.getLast?) := by
  intro pre
  induction pre with
  | nil =>
    intro cur prev extra hl _
    have e : cur = some x := hl.1
    subst e
    simp [vListRemove_loop]
  | cons a pre ih =>
    intro cur prev extra hl hx
    have e : cur = some a := hl.1
    subst e
    have hax : a ≠ x := fun e => hx (by rw [e]; exact List.mem_cons_self _ _)
    have hf : extra + (a :: pre).length + 1 = (extra + pre.length + 1) + 1 := by
      simp only [List.length_cons]; omega
    rw [hf]
    show (if a ≠ x then vListRemove_loop (extra + pre.length + 1) mem x (mem a).pxNext (some a)
      else Outcome.done (some a, prev)) = _
    rw [if_pos hax, ih (mem a).pxNext (some a) extra hl.2 (fun hm => hx (List.mem_cons_of_mem _ hm))]
    cases pre with
    | nil => simp
    | cons b t => simp

/-- Unlinking the task `x` that follows the task `p`: the list keeps its other tasks in order. -/
theorem IsList_unlink (mem : Mem) (x p : Nat) (post : List Nat) :
    ∀ (pre : List Nat) (h : Option Nat), IsList mem h (pre ++ p :: x :: post) →
      (pre ++ p :: x :: post).Nodup →
      IsList (setNext (setNext mem p (mem x).pxNext) x none) h (pre ++ p :: post) := by
  intro pre
  induction pre with
  | nil =>
    intro h hl hnd
    obtain ⟨e, _, hpost⟩ := hl
    have hnd1 := List.nodup_cons.1 hnd
    have hnd2 := List.nodup_cons.1 hnd1.2
    have hpx : p ≠ x := fun e => hnd1.1 (by rw [e]; exact List.mem_cons_self _ _)
    refine ⟨e, ?_⟩
    have hp : (setNext (setNext mem p (mem x).pxNext) x none p).pxNext = (mem x).pxNext := by
      simp [setNext, hpx]
    rw [hp]
    apply IsList_congr mem _ post _ _ hpost
    intro a ha
    have hax : a ≠ x := fun e => hnd2.1 (e ▸ ha)
    have hap : a ≠ p := fun e => hnd1.1 (List.mem_cons_of_mem _ (e ▸ ha))
    simp [setNext, hax, hap]
  | cons a pre ih =>
    intro h hl hnd
    have hnd1 := List.nodup_cons.1 hnd
    have hap : a ≠ p := fun e => hnd1.1 (by rw [e]; simp)
    have hax : a ≠ x := fun e => hnd1.1 (by rw [e]; simp)
    refine ⟨hl.1, ?_⟩
    have ha : (setNext (setNext mem p (mem x).pxNext) x none a).pxNext = (mem a).pxNext := by
      simp [setNext, hax, hap]
    rw [ha]
    exact ih _ hl.2 hnd1.2

/-- Removing a task that is in the list: `vListRemove` returns, the list holds the other tasks in
their order, and the `pxNext` of the removed task is `NULL`. -/
theorem vListRemove_present (mem : Mem) (h : Option Nat) (l : List Nat) (x extra : Nat)
    (hl : IsList mem h l) (hx : x ∈ l) :
    ∃ mem1 l1, vListRemove (extra + l.length + 1) mem { pxHead := h } x = Outcome.done (mem1, l1) ∧
      IsList mem1 l1.pxHead (l.erase x) ∧ (mem1 x).pxNext = none := by
  have hnd := IsList_nodup mem l h hl
  obtain ⟨pre, post, hsplit⟩ := List.append_of_mem hx
  subst hsplit
  have hxpre : x ∉ pre := fun hm => (List.nodup_append.1 hnd).2.2 hm (by simp)
  have hxpost : x ∉ post := (List.nodup_cons.1 (List.nodup_append.1 hnd).2.1).1
  have herase : (pre ++ x :: post).erase x = pre ++ post := by
    rw [List.erase_append_right _ hxpre, List.erase_cons_head]
  have hf : extra + (pre ++ x :: post).length + 1 = (extra + post.length + 1) + pre.length + 1 := by
    simp only [List.length_append, List.length_cons]; omega
  have hloop := vListRemove_loop_present mem x post pre h none (extra + post.length + 1) hl hxpre
  have hxs := IsList_suffix mem x post pre h hl
  unfold vListRemove
  rw [hf]
  simp only [hloop, if_true]
  rw [herase]
  rcases List.eq_nil_or_concat pre with hnil | ⟨pre1, p, hp⟩
  · subst hnil
    simp only [if_true]
    refine ⟨_, _, rfl, ?_, by simp [setNext]⟩
    apply IsList_congr mem _ post _ _ hxs.2
    intro a ha
    have hax : a ≠ x := fun e => hxpost (e ▸ ha)
    simp [setNext, hax]
  · rw [List.concat_eq_append] at hp
    subst hp
    have hne : pre1 ++ [p] ≠ [] := by simp
    have hlast : (pre1 ++ [p]).getLast? = some p := by simp
    simp only [if_neg hne, hlast]
    refine ⟨_, _, rfl, ?_, by simp [setNext]⟩
    have hl1 : IsList mem h (pre1 ++ p :: x :: post) := by
      rw [List.append_assoc, List.singleton_append] at hl; exact hl
    have hnd1 : (pre1 ++ p :: x :: post).Nodup := by
      rw [List.append_assoc, List.singleton_append] at hnd; exact hnd
    have := IsList_unlink mem x p post pre1 h hl1 hnd1
    rw [List.append_assoc, List.singleton_append]
    exact this

/-- Removing a task that is not in the list: `vListRemove` returns normally and changes
nothing. -/
theorem vListRemove_absent (mem : Mem) (h : Option Nat) (l : List Nat) (x extra : Nat)
    (hl : IsList mem h l) (hx : x ∉ l) :
    vListRemove (extra + l.length + 1) mem { pxHead := h } x
      = Outcome.done (mem, { pxHead := h }) := by
  obtain ⟨p, hp⟩ := vListRemove_loop_absent mem x l h none extra hl hx
  unfold vListRemove
  simp [hp]

/-- C20 (as claimed) fails.  Task 1 is linked in no list; removing it from the list that
holds task 0 returns normally, with nothing changed and no error reported.  Likewise the
second removal of task 0 from that list returns normally and changes nothing. -/
theorem vListRemove_silent_counterexample :
    vListRemove 3 memTail { pxHead := some 0 } 1
        = Outcome.done (memTail, { pxHead := some 0 }) ∧
      ∃ mem1 l1, vListRemove 3 memTail { pxHead := some 0 } 0 = Outcome.done (mem1, l1) ∧
        l1.pxHead = none ∧ vListRemove 3 mem1 l1 0 = Outcome.done (mem1, l1) :=
  ⟨rfl, _, _, rfl, rfl, rfl⟩

/-- C20 (amended).  `vListRemove` of `基础概念.c` returns `void` and reports no error.
On a `NULL`-terminated list holding the tasks `l`: removing a task that is not in the
list returns normally and leaves the list and every task unchanged; removing a task of
the list returns, leaves the other tasks in their order and sets the `pxNext` of the task
to `NULL`, and a second removal of the same task then returns normally and changes
nothing. -/
theorem vListRemove_absent_silent (mem : Mem) (h : Option Nat) (l : List Nat) (x extra : Nat)
    (hl : IsList mem h l) :
    (x ∉ l → vListRemove (extra + l.length + 1) mem { pxHead := h } x
        = Outcome.done (mem, { pxHead := h })) ∧
    (x ∈ l → ∃ mem1 l1,
        vListRemove (extra + l.length + 1) mem { pxHead := h } x = Outcome.done (mem1, l1) ∧
        IsList mem1 l1.pxHead (l.erase x) ∧ (mem1 x).pxNext = none ∧
        vListRemove (extra + l.length + 1) mem1 l1 x = Outcome.done (mem1, l1)) := by
  refine ⟨vListRemove_absent mem h l x extra hl, fun hx => ?_⟩
  obtain ⟨mem1, l1, hrun, hl1, hnone⟩ := vListRemove_present mem h l x extra hl hx
  refine ⟨mem1, l1, hrun, hl1, hnone, ?_⟩
  have hnd := IsList_nodup mem l h hl
  have hx1 : x ∉ l.erase x := fun hm => (hnd.mem_erase_iff.1 hm).1 rfl
  have hlen : (l.erase x).length + 1 = l.length := by
    rw [List.length_erase_of_mem hx]
    have := List.length_pos_of_mem hx
    omega
  have hf : extra + l.length + 1 = (extra + 1) + (l.erase x).length + 1 := by omega
  rw [hf]
  exact vListRemove_absent mem1 l1.pxHead (l.erase x) x (extra + 1) hl1 hx1

/-- The amended C20 on the list A (task 0), C (task 1) of `memMiddle`: removing the
detached task 2 changes nothing; removing task 1 leaves the list A, and removing task 1
once more changes nothing. -/
theorem vListRemove_absent_silent_witness :
    vListRemove 3 memMiddle { pxHead := some 0 } 2
        = Outcome.done (memMiddle, { pxHead := some 0 }) ∧
      ∃ mem1 l1, vListRemove 3 memMiddle { pxHead := some 0 } 1 = Outcome.done (mem1, l1) ∧
        IsList mem1 l1.pxHead [0] ∧ vListRemove 3 mem1 l1 1 = Outcome.done (mem1, l1) := by
  refine ⟨(vListRemove_absent_silent memMiddle (some 0) [0, 1] 2 0 (by decide)).1 (by decide), ?_⟩
  obtain ⟨mem1, l1, a1, a2, _, a4⟩ :=
    (vListRemove_absent_silent memMiddle (some 0) [0, 1] 1 0 (by decide)).2 (by decide)
  exact ⟨mem1, l1, a1, a2, a4⟩

/-! ## The generic form of `portGET_HIGHEST_PRIORITY` -/

/-- A number between `2^k` and `2^(k+1)` has bit `k` set. -/
theorem testBit_of_range (b k : Nat) (h1 : 2 ^ k ≤ b) (h2 : b < 2 ^ (k + 1)) :
    b.testBit k = true := by
  have hpos : 0 < 2 ^ k := Nat.pow_pos (by decide)
  have hdiv : b / 2 ^ k = 1 := by
    have h3 : b / 2 ^ k < 2 := by
      rw [Nat.div_lt_iff_lt_mul hpos]
      rw [Nat.pow_succ] at h2
      omega
    have h4 : 0 < b / 2 ^ k := Nat.div_pos h1 hpos
    omega
  rw [Nat.testBit_to_div_mod, hdiv]
  rfl

/-- The test of the loop: masking with the bit of index `k` gives 0 exactly when bit `k`
is clear. -/
theorem and_top_eq_zero (b k : Nat) : b &&& 2 ^ k = 0 ↔ b.testBit k = false := by
  rw [Nat.and_two_pow]
  have hpos : 0 < 2 ^ k := Nat.pow_pos (by decide)
  cases h : b.testBit k with
  | false => simp
  | true => simp

/-- The shift loop with `portTOP_BIT_OF_BYTE = 2^(M-1)`, `M ≤ 32`, on a word whose highest
set bit is `d` places below bit `M - 1`: it stops after `d` shifts. -/
theorem generic_loop_spec (M : Nat) (hM : M ≤ 32) :
    ∀ (d b n fuel : Nat), d + 1 ≤ M → 2 ^ (M - 1 - d) ≤ b → b < 2 ^ (M - d) →
      n + d < WORD →
      portGET_HIGHEST_PRIORITY_generic_loop (2 ^ (M - 1)) (fuel + d + 1) b n
        = Outcome.done (b * 2 ^ d, n + d) := by
  intro d
  induction d with
  | zero =>
    intro b n fuel hd h1 h2 _
    have e : M - 1 + 1 = M := by omega
    have ht : b.testBit (M - 1) = true :=
      testBit_of_range b (M - 1) (by simpa using h1) (by rw [e]; simpa using h2)
    have hne : ¬ (b &&& 2 ^ (M - 1) = 0) := by
      rw [and_top_eq_zero, ht]; simp
    show (if b &&& 2 ^ (M - 1) = 0 then _ else _) = _
    rw [if_neg hne]
    simp
  | succ d ih =>
    intro b n fuel hd h1 h2 hn
    have hlt : b < 2 ^ (M - 1) := by
      have e : M - (d + 1) ≤ M - 1 := by omega
      exact Nat.lt_of_lt_of_le h2 (Nat.pow_le_pow_right (by decide) e)
    have hz : b &&& 2 ^ (M - 1) = 0 := by
      rw [and_top_eq_zero]
      exact Nat.testBit_lt_two_pow hlt
    have e1 : M - 1 - d = (M - 1 - (d + 1)) + 1 := by omega
    have e2 : M - d = (M - (d + 1)) + 1 := by omega
    have hb2 : 2 * b < 2 ^ (M - d) := by
      rw [e2, Nat.pow_succ]; omega
    have hb1 : 2 ^ (M - 1 - d) ≤ 2 * b := by
      rw [e1, Nat.pow_succ]; omega
    have hword : 2 * b < WORD := by
      have : 2 ^ (M - d) ≤ 2 ^ 32 := Nat.pow_le_pow_right (by decide) (by omega)
      unfold WORD
      omega
    have hshift : (b <<< 1) % WORD = 2 * b := by
      rw [Nat.shiftLeft_eq, Nat.pow_one, Nat.mul_comm, Nat.mod_eq_of_lt hword]
    have hn1 : (n + 1) % WORD = n + 1 := Nat.mod_eq_of_lt (by omega)
    have hf : fuel + (d + 1) + 1 = (fuel + d + 1) + 1 := by omega
    rw [hf]
    show (if b &&& 2 ^ (M - 1) = 0 then _ else _) = _
    rw [if_pos hz, hshift, hn1, ih (2 * b) (n + 1) fuel (by omega) hb1 hb2 (by omega)]
    congr 2
    · rw [Nat.pow_succ]; ring
    · omega

/-- The shift loop never ends on the bitmap 0. -/
theorem generic_loop_zero (top : Nat) :
    ∀ (fuel n : Nat), portGET_HIGHEST_PRIORITY_generic_loop top fuel 0 n = Outcome.outOfFuel := by
  intro fuel
  induction fuel with
  | zero => intro n; rfl
  | succ fuel ih =>
    intro n
    show (if 0 &&& top = 0 then _ else _) = _
    rw [if_pos (by simp)]
    simpa using ih ((n + 1) % WORD)

/-- The generic form on a non-zero bitmap below `2^M` (`M = configMAX_PRIORITIES ≤ 32`,
`portTOP_BIT_OF_BYTE = 2^(M-1)`): it returns the priority `p` with `2^p ≤ b < 2^(p+1)` and
leaves the bitmap shifted left by `M - 1 - p` places. -/
theorem generic_spec (M b fuel : Nat) (hM1 : 1 ≤ M) (hM : M ≤ 32) (h0 : 0 < b)
    (hb : b < 2 ^ M) :
    ∃ p, portGET_HIGHEST_PRIORITY_generic M (2 ^ (M - 1)) (fuel + M) b
        = Outcome.done (p, b * 2 ^ (M - 1 - p)) ∧
      portGET_HIGHEST_PRIORITY b = some p ∧ p < M ∧ 2 ^ p ≤ b ∧ b < 2 ^ (p + 1) := by
  have hbw : b < WORD :=
    Nat.lt_of_lt_of_le hb (by unfold WORD; exact Nat.pow_le_pow_right (by decide) hM)
  obtain ⟨p, hp, _, hp1, hp2, _, _⟩ := highest_priority_of_bitmap b h0 hbw
  have hpM : p < M := by
    by_contra hge
    have : 2 ^ M ≤ 2 ^ p := Nat.pow_le_pow_right (by decide) (by omega)
    omega
  refine ⟨p, ?_, hp, hpM, hp1, hp2⟩
  have e1 : M - 1 - (M - 1 - p) = p := by omega
  have e2 : M - (M - 1 - p) = p + 1 := by omega
  have hloop := generic_loop_spec M hM (M - 1 - p) b 0 (fuel + p) (by omega)
    (by rw [e1]; exact hp1) (by rw [e2]; exact hp2) (by unfold WORD; omega)
  have hf : fuel + p + (M - 1 - p) + 1 = fuel + M := by omega
  rw [hf] at hloop
  unfold portGET_HIGHEST_PRIORITY_generic
  rw [hloop]
  simp only [Nat.zero_add]
  congr 2
  unfold WORD
  omega

/-- The CLZ form of the selection does not write the ready bitmap. -/
theorem vDebugTaskSelect_bitmap (st st1 : SchedState)
    (h : vDebugTaskSelect st = Outcome.done st1) :
    st1.uxTopReadyPriority = st.uxTopReadyPriority := by
  unfold vDebugTaskSelect at h
  simp only at h
  split at h
  · cases h
  · split at h
    · injection h with h
      subst h
      split <;> rfl
    all_goals cases h

/-- The generic form of the selection leaves the ready bitmap shifted: with
`M = configMAX_PRIORITIES ≤ 32` and `portTOP_BIT_OF_BYTE = 2^(M-1)`, a bitmap `b` whose
highest set bit is `p` is `b * 2^(M-1-p)` afterwards. -/
theorem vDebugTaskSelect_generic_bitmap (M fuel : Nat) (st st1 : SchedState) (hM1 : 1 ≤ M)
    (hM : M ≤ 32) (h0 : 0 < st.uxTopReadyPriority) (hb : st.uxTopReadyPriority < 2 ^ M)
    (h : vDebugTaskSelect_generic M (2 ^ (M - 1)) (fuel + M) st = Outcome.done st1) :
    ∃ p, 2 ^ p ≤ st.uxTopReadyPriority ∧ st.uxTopReadyPriority < 2 ^ (p + 1) ∧ p < M ∧
      st1.uxTopReadyPriority = st.uxTopReadyPriority * 2 ^ (M - 1 - p) := by
  obtain ⟨p, hp, _, hpM, hp1, hp2⟩ := generic_spec M st.uxTopReadyPriority fuel hM1 hM h0 hb
  refine ⟨p, hp1, hp2, hpM, ?_⟩
  unfold vDebugTaskSelect_generic at h
  simp only [hp] at h
  split at h
  · injection h with h
    subst h
    split <;> rfl
  all_goals cases h

/-- C25.  With `M = configMAX_PRIORITIES` between 1 and 32 and `portTOP_BIT_OF_BYTE` the bit
of index `M - 1`: for every non-zero ready bitmap `b < 2^M` the shift loop of the generic
form of `portGET_HIGHEST_PRIORITY` ends (`M` loop tests suffice) and the macro yields the
same priority as the CLZ form `31 - clz(b)`. -/
theorem generic_agrees_with_clz (M b fuel : Nat) (hM1 : 1 ≤ M) (hM : M ≤ 32) (h0 : 0 < b)
    (hb : b < 2 ^ M) :
    ∃ p b1, portGET_HIGHEST_PRIORITY_generic M (2 ^ (M - 1)) (fuel + M) b
        = Outcome.done (p, b1) ∧
      portGET_HIGHEST_PRIORITY b = some p ∧ p < M := by
  obtain ⟨p, h1, h2, h3, _⟩ := generic_spec M b fuel hM1 hM h0 hb
  exact ⟨p, _, h1, h2, h3⟩

/-- C25 at the bitmap `0b1100` of Scenario C with five priorities: both forms give 3. -/
theorem generic_agrees_with_clz_witness :
    ∃ p b1, portGET_HIGHEST_PRIORITY_generic 5 16 5 12 = Outcome.done (p, b1) ∧
      portGET_HIGHEST_PRIORITY 12 = some p ∧ p < 5 :=
  generic_agrees_with_clz 5 12 0 (by decide) (by decide) (by decide) (by decide)

/-- C27 (code defect).  In Scenario C (bitmap `0b1100`, priorities 2 and 3 ready) with five
priorities and `portTOP_BIT_OF_BYTE = 0b10000`: `vDebugTaskSelect` with the CLZ form
selects task 103 and leaves the bitmap at 12, whereas with the generic form it selects
task 103 and leaves the bitmap at 24 (`0b11000`): bit 2 is lost, bit 4 is set although
no task of priority 4 exists, and the next selection dereferences the `NULL` cursor of
the uninitialised list 4. -/
theorem vDebugTaskSelect_generic_shifts_bitmap :
    scenarioC.uxTopReadyPriority = 12 ∧
    (∃ st1, vDebugTaskSelect scenarioC = Outcome.done st1 ∧
      st1.uxTopReadyPriority = 12 ∧ st1.pxCurrentTCB = some 103) ∧
    (∃ st1, vDebugTaskSelect_generic 5 16 5 scenarioC = Outcome.done st1 ∧
      st1.uxTopReadyPriority = 24 ∧ st1.uxTopReadyPriority ≠ scenarioC.uxTopReadyPriority ∧
      st1.pxCurrentTCB = some 103 ∧
      vDebugTaskSelect_generic 5 16 5 st1 = Outcome.nullDeref) :=
  ⟨rfl, ⟨_, rfl, rfl, rfl⟩, ⟨_, rfl, rfl, by decide, rfl, rfl⟩⟩

/-- C21 as stated fails.  In the initial state with task 0 running the ready list is
empty; `vTaskSwitchContext` returns normally and the current task is `NULL`. -/
theorem vTaskSwitchContext_null_counterexample :
    stateFresh.pxReadyList.pxHead = none ∧
    ∃ s1, vTaskSwitchContext 1 stateFresh = Outcome.done s1 ∧ s1.pxCurrentTask = none :=
  ⟨rfl, _, rfl, rfl⟩

/-- C21 (amended).  No selection fails with `NoReadyTask`.  With an empty ready list
`vTaskSwitchContext` returns normally, sets `pxCurrentTask` to `NULL` and changes nothing
else.  For the ready bitmap 0 `portGET_HIGHEST_PRIORITY` yields no priority: the CLZ form
takes `__builtin_clz(0)`, which has no defined result, so `vDebugTaskSelect` has none
either, and the shift loop of the generic form never ends. -/
theorem vTaskSwitchContext_empty_ready (fuel : Nat) (s : State)
    (hR : s.pxReadyList.pxHead = none) :
    vTaskSwitchContext fuel s = Outcome.done { s with pxCurrentTask := none } ∧
    portGET_HIGHEST_PRIORITY 0 = none ∧
    (∀ st, st.uxTopReadyPriority = 0 → vDebugTaskSelect st = Outcome.undefined) ∧
    (∀ M top fuel2, portGET_HIGHEST_PRIORITY_generic M top fuel2 0 = Outcome.outOfFuel) := by
  refine ⟨?_, rfl, ?_, ?_⟩
  · unfold vTaskSwitchContext
    rw [hR]
  · intro st hst
    unfold vDebugTaskSelect
    simp only [hst]
    rfl
  · intro M top fuel2
    unfold portGET_HIGHEST_PRIORITY_generic
    rw [generic_loop_zero]

/-- The amended C21 at the initial state: the call returns with no current task. -/
theorem vTaskSwitchContext_empty_ready_witness :
    vTaskSwitchContext 0 stateFresh = Outcome.done { stateFresh with pxCurrentTask := none } :=
  (vTaskSwitchContext_empty_ready 0 stateFresh rfl).1

/-! ## A delay of zero ticks -/

/-- The call `vTaskDelay(0)` when the normal delayed list is empty or its head (not the
caller) wakes later than the current tick: the caller is put in front of the normal list
and the context switch follows. -/
theorem vTaskDelay_zero_eq (fuel cur : Nat) (s : State) (ht : s.xTickCount < WORD)
    (hcur : s.pxCurrentTask = some cur)
    (hne : s.pxDelayedTaskList.pxHead ≠ some cur)
    (hlater : ∀ a, s.pxDelayedTaskList.pxHead = some a → s.xTickCount < (s.mem a).xWakeTime) :
    vTaskDelay (fuel + 1) 0 s = vTaskSwitchContext (fuel + 1)
      { s with
          mem := setNext (setWake (setReady s.mem cur 0) cur s.xTickCount) cur
            s.pxDelayedTaskList.pxHead,
          pxDelayedTaskList := { pxHead := some cur },
          xNextTaskUnblockTime := vTaskDelay_next s.xNextTaskUnblockTime s.xTickCount } := by
  unfold vTaskDelay
  rw [hcur]
  simp only [Nat.add_zero, Nat.mod_eq_of_lt ht, Nat.lt_irrefl, if_false]
  cases hh : s.pxDelayedTaskList.pxHead with
  | none =>
    have hN2 : s.pxDelayedTaskList = { pxHead := none } := by
      rw [List_t_eta s.pxDelayedTaskList, hh]
    rw [hN2, vListInsert_empty]
  | some c =>
    have hN2 : s.pxDelayedTaskList = { pxHead := some c } := by
      rw [List_t_eta s.pxDelayedTaskList, hh]
    have hcc : c ≠ cur := fun e => hne (by rw [hh, e])
    have hkey : (setWake (setReady s.mem cur 0) cur s.xTickCount cur).xWakeTime
        < (setWake (setReady s.mem cur 0) cur s.xTickCount c).xWakeTime := by
      rw [setWake_wake_self, setWake_other _ _ _ _ hcc, setReady_wake]
      exact hlater c hh
    rw [hN2, vListInsert_front _ _ _ _ hkey]

/-- C22.  A zero-tick delay yields a reselection.  In a state with 32-bit tick count whose
current task `cur` is in neither the normal delayed list `ld` nor the ready list `lr`
(two `NULL`-terminated lists without a common task), and in which the normal list is
empty or its head wakes later than the current tick: `vTaskDelay(0)` returns; the caller
has `bReady = 0` and wake time `xTickCount` and is the head of the normal delayed list,
in front of the tasks that were there; `pxCurrentTask` is the former head of the ready
list, which has left that list, or `NULL` when the ready list was empty, and is never
the caller. -/
theorem vTaskDelay_zero_reselects (fuel cur : Nat) (s : State) (ld lr : List Nat)
    (ht : s.xTickCount < WORD) (hcur : s.pxCurrentTask = some cur)
    (hD : IsList s.mem s.pxDelayedTaskList.pxHead ld) (hcd : cur ∉ ld)
    (hR : IsList s.mem s.pxReadyList.pxHead lr) (hcr : cur ∉ lr)
    (hdisj : ∀ a ∈ ld, a ∉ lr)
    (hlater : ∀ a, s.pxDelayedTaskList.pxHead = some a → s.xTickCount < (s.mem a).xWakeTime) :
    ∃ s1, vTaskDelay (fuel + 1) 0 s = Outcome.done s1 ∧
      (s1.mem cur).bReady = 0 ∧ (s1.mem cur).xWakeTime = s.xTickCount ∧
      IsList s1.mem s1.pxDelayedTaskList.pxHead (cur :: ld) ∧
      s1.pxCurrentTask = s.pxReadyList.pxHead ∧ s1.pxCurrentTask = lr.head? ∧
      IsList s1.mem s1.pxReadyList.pxHead lr.tail ∧
      s1.pxCurrentTask ≠ some cur ∧
      s1.pxOverflowDelayedTaskList = s.pxOverflowDelayedTaskList ∧
      s1.xTickCount = s.xTickCount := by
  have hne : s.pxDelayedTaskList.pxHead ≠ some cur := by
    intro e
    cases ld with
    | nil =>
      have : s.pxDelayedTaskList.pxHead = none := hD
      rw [this] at e; cases e
    | cons a l =>
      have h1 : s.pxDelayedTaskList.pxHead = some a := hD.1
      rw [h1] at e
      exact hcd (by rw [← Option.some.inj e]; exact List.mem_cons_self _ _)
  have hm3 : ∀ a, a ≠ cur →
      setNext (setWake (setReady s.mem cur 0) cur s.xTickCount) cur
        s.pxDelayedTaskList.pxHead a = s.mem a := by
    intro a ha
    rw [setNext_other _ _ _ _ ha, setWake_other _ _ _ _ ha, setReady_other _ _ _ _ ha]
  rw [vTaskDelay_zero_eq fuel cur s ht hcur hne hlater, vTaskSwitchContext_eq]
  simp only
  cases lr with
  | nil =>
    have hh : s.pxReadyList.pxHead = none := hR
    rw [hh]
    refine ⟨_, rfl, by simp, by simp, ⟨rfl, ?_⟩, rfl, rfl, hh, by simp, rfl, rfl⟩
    simp only [setNext_next_self]
    exact IsList_congr s.mem _ ld _ (fun a ha => hm3 a (fun e => hcd (e ▸ ha))) hD
  | cons r lr1 =>
    have hh : s.pxReadyList.pxHead = some r := hR.1
    have hrc : r ≠ cur := fun e => hcr (by rw [← e]; exact List.mem_cons_self _ _)
    have hcr2 : cur ≠ r := fun e => hrc e.symm
    have hnd := IsList_nodup s.mem _ _ hR
    have hr1 : r ∉ lr1 := (List.nodup_cons.1 hnd).1
    rw [hh]
    simp only
    refine ⟨_, rfl, ?_, ?_, ⟨rfl, ?_⟩, rfl, rfl, ?_, ?_, rfl, rfl⟩
    · simp
    · simp
    · simp only
      rw [setNext_other _ _ _ _ hcr2, setNext_next_self]
      apply IsList_congr s.mem _ ld _ _ hD
      intro a ha
      have har : a ≠ r := fun e => hdisj a ha (by rw [e]; exact List.mem_cons_self _ _)
      rw [setNext_other _ _ _ _ har]
      exact hm3 a (fun e => hcd (e ▸ ha))
    · simp only [List.tail_cons]
      rw [hm3 r hrc]
      apply IsList_congr s.mem _ lr1 _ _ hR.2
      intro a ha
      have har : a ≠ r := fun e => hr1 (e ▸ ha)
      rw [setNext_other _ _ _ _ har]
      exact hm3 a (fun e => hcr (List.mem_cons_of_mem _ (e ▸ ha)))
    · intro e
      exact hrc (Option.some.inj e)

/-- C22 on a state with one delayed task (wake time 20) and two ready tasks at tick 10:
after `vTaskDelay(0)` the caller, task 0, heads the normal list with wake time 10 and
task 2, the former head of the ready list, runs. -/
theorem vTaskDelay_zero_reselects_witness :
    ∃ s1, vTaskDelay 1 0 stateZeroDelay = Outcome.done s1 ∧
      (s1.mem 0).bReady = 0 ∧ (s1.mem 0).xWakeTime = 10 ∧
      IsList s1.mem s1.pxDelayedTaskList.pxHead [0, 1] ∧
      s1.pxCurrentTask = some 2 ∧ IsList s1.mem s1.pxReadyList.pxHead [3] := by
  obtain ⟨s1, a1, a2, a3, a4, a5, _, a7, _⟩ :=
    vTaskDelay_zero_reselects 0 0 stateZeroDelay [1] [2, 3] (by decide) rfl (by decide)
      (by decide) (by decide) (by decide) (by decide) (by decide)
  exact ⟨s1, a1, a2, a3, a4, a5, a7⟩

/-- A zero-tick delay below the last tick before the wrap, with the normal delayed list and
the ready list empty: the
next `SysTick_Handler` call returns and puts the task back in the ready list with
`bReady = 1`. -/
theorem delay_zero_wakes_next_tick (fuel c : Nat) (s : State) (ht : s.xTickCount + 1 < WORD)
    (hcur : s.pxCurrentTask = some c)
    (hN : s.pxDelayedTaskList.pxHead = none) (hR : s.pxReadyList.pxHead = none) :
    ∃ s2, delayThenTicks (fuel + 2) 0 1 s = Outcome.done s2 ∧
      IsList s2.mem s2.pxReadyList.pxHead [c] ∧ (s2.mem c).bReady = 1 ∧
      s2.xTickCount = s.xTickCount + 1 := by
  have ht0 : s.xTickCount < WORD := by omega
  have hne : s.pxDelayedTaskList.pxHead ≠ some c := by rw [hN]; intro e; cases e
  have hlater : ∀ a, s.pxDelayedTaskList.pxHead = some a →
      s.xTickCount < (s.mem a).xWakeTime := by
    intro a ha; rw [hN] at ha; cases ha
  unfold delayThenTicks
  rw [vTaskDelay_zero_eq (fuel + 1) c s ht0 hcur hne hlater, vTaskSwitchContext_eq]
  simp only [hR, hN]
  have hmax : s.xTickCount ≠ UINT32_MAX := by unfold UINT32_MAX; unfold WORD at ht; omega
  have hadv := SysTick_advance_plain
    { xTickCount := s.xTickCount,
      xNextTaskUnblockTime := vTaskDelay_next s.xNextTaskUnblockTime s.xTickCount,
      pxDelayedTaskList := { pxHead := some c },
      pxOverflowDelayedTaskList := s.pxOverflowDelayedTaskList,
      pxCurrentTask := none, pxReadyList := s.pxReadyList,
      mem := setNext (setWake (setReady s.mem c 0) c s.xTickCount) c none } ht0 hmax
  have hcursor : vTaskDelay_next s.xNextTaskUnblockTime s.xTickCount ≤ s.xTickCount + 1 := by
    unfold vTaskDelay_next
    split
    · omega
    · rename_i h
      omega
  obtain ⟨s2, h1, h2, _, _, h5, h6⟩ := vTaskCheckDelayedTasks_single fuel c
    { xTickCount := s.xTickCount + 1,
      xNextTaskUnblockTime := vTaskDelay_next s.xNextTaskUnblockTime s.xTickCount,
      pxDelayedTaskList := { pxHead := some c },
      pxOverflowDelayedTaskList := s.pxOverflowDelayedTaskList,
      pxCurrentTask := none, pxReadyList := s.pxReadyList,
      mem := setNext (setWake (setReady s.mem c 0) c s.xTickCount) c none }
    rfl (by simp) (by simp) hR
  unfold ticks SysTick_Handler
  rw [hadv]
  simp only [ge_iff_le, hcursor, if_true, h1]
  exact ⟨s2, rfl, h5, h6, h2⟩

/-- C30 (code defect).  At `xTickCount = 0xFFFFFFFF` with all lists empty, task 0 calls
`vTaskDelay(0)`: it enters the normal delayed list with wake time `0xFFFFFFFF`.  The next
`SysTick_Handler` call wraps the counter to 0 and swaps the lists before any wake-up
test, so the task lands in the overflow list, the cursor is `0xFFFFFFFF`, and the
wake-up test `0 >= 0xFFFFFFFF` fails: after that call, and still after three calls, the
ready list is empty and the task has `bReady = 0`. -/
theorem delay_zero_at_wrap_stranded :
    stateMaxTick.pxDelayedTaskList.pxHead = none ∧
    stateMaxTick.pxOverflowDelayedTaskList.pxHead = none ∧
    (∃ s1, vTaskDelay 2 0 stateMaxTick = Outcome.done s1 ∧
      IsList s1.mem s1.pxDelayedTaskList.pxHead [0] ∧ (s1.mem 0).xWakeTime = 4294967295) ∧
    (∃ s2, delayThenTicks 2 0 1 stateMaxTick = Outcome.done s2 ∧
      s2.xTickCount = 0 ∧ s2.pxReadyList.pxHead = none ∧ (s2.mem 0).bReady = 0 ∧
      s2.pxDelayedTaskList.pxHead = none ∧
      IsList s2.mem s2.pxOverflowDelayedTaskList.pxHead [0] ∧
      s2.xNextTaskUnblockTime = 4294967295) ∧
    (∃ s3, delayThenTicks 2 0 3 stateMaxTick = Outcome.done s3 ∧
      s3.xTickCount = 2 ∧ s3.pxReadyList.pxHead = none ∧ (s3.mem 0).bReady = 0) :=
  ⟨rfl, rfl, ⟨_, rfl, by decide, rfl⟩, ⟨_, rfl, rfl, rfl, rfl, rfl, by decide, rfl⟩,
    ⟨_, rfl, rfl, rfl, rfl⟩⟩

/-! ## The unblock cursor and the smallest wake time -/

/-- The head of a list sorted by wake time has the smallest wake time. -/
theorem smallestWake_sorted (mem : Mem) (a : Nat) (l : List Nat)
    (h : (wakeTimes mem (a :: l)).Sorted (· ≤ ·)) :
    smallestWake mem (a :: l) = some (mem a).xWakeTime := by
  unfold smallestWake wakeTimes at *
  rw [List.map_cons] at h ⊢
  rw [List.min?_cons']
  congr 1
  have hall := (List.sorted_cons.1 h).1
  generalize (List.map (fun a => (mem a).xWakeTime) l) = ws at hall
  induction ws with
  | nil => rfl
  | cons w ws ih =>
    rw [List.foldl_cons]
    have h1 : (mem a).xWakeTime ≤ w := hall w (List.mem_cons_self _ _)
    rw [Nat.min_eq_left h1]
    exact ih (fun b hb => hall b (List.mem_cons_of_mem _ hb))

/-- When `vTaskCheckDelayedTasks` returns, the cursor is the head-derived value. -/
theorem vTaskCheckDelayedTasks_cursor (fuel : Nat) (s s1 : State)
    (h : vTaskCheckDelayedTasks fuel s = Outcome.done s1) :
    s1.xNextTaskUnblockTime = headWakeTime s1 := by
  unfold vTaskCheckDelayedTasks at h
  split at h
  · cases h
    exact updateNextUnblock_next _
  all_goals cases h

/-- The head-derived value of the cursor in terms of the two delayed lists: the smallest
wake time of the normal list when it is not empty and sorted, else the smallest wake
time of the overflow list when that is not empty and sorted, else `UINT32_MAX`. -/
theorem headWakeTime_smallest (s : State) (ln lo : List Nat)
    (hN : IsList s.mem s.pxDelayedTaskList.pxHead ln)
    (hO : IsList s.mem s.pxOverflowDelayedTaskList.pxHead lo)
    (hsn : (wakeTimes s.mem ln).Sorted (· ≤ ·)) (hso : (wakeTimes s.mem lo).Sorted (· ≤ ·)) :
    (ln ≠ [] → smallestWake s.mem ln = some (headWakeTime s)) ∧
    (ln = [] → lo ≠ [] → smallestWake s.mem lo = some (headWakeTime s)) ∧
    (ln = [] → lo = [] → headWakeTime s = UINT32_MAX) := by
  unfold headWakeTime
  cases ln with
  | cons a l =>
    have h1 : s.pxDelayedTaskList.pxHead = some a := hN.1
    refine ⟨fun _ => ?_, fun e _ => List.noConfusion e, fun e _ => List.noConfusion e⟩
    rw [h1, smallestWake_sorted s.mem a l hsn]
  | nil =>
    have h1 : s.pxDelayedTaskList.pxHead = none := hN
    rw [h1]
    cases lo with
    | cons b l =>
      have h2 : s.pxOverflowDelayedTaskList.pxHead = some b := hO.1
      refine ⟨fun e => absurd rfl e, fun _ _ => ?_, fun _ e => List.noConfusion e⟩
      rw [h2, smallestWake_sorted s.mem b l hso]
    | nil =>
      have h2 : s.pxOverflowDelayedTaskList.pxHead = none := hO
      rw [h2]
      exact ⟨fun e => absurd rfl e, fun _ e => absurd rfl e, fun _ _ => rfl⟩

/-- C26 as stated fails.  At tick 40 the normal list holds task 1 (wake time 100) and task 0
delays itself by `0xFFFFFFDD` ticks: its wake time wraps to 5 and it goes into the
overflow list.  The next `SysTick_Handler` call (tick 41) wakes nobody and recomputes
the cursor from the head of the normal list: `xNextTaskUnblockTime = 100`, although the
smallest wake time over both lists is 5. -/
theorem next_unblock_not_smallest_counterexample :
    ∃ s1 s2, vTaskDelay 2 4294967261 stateTwoLists = Outcome.done s1 ∧
      SysTick_Handler 2 s1 = Outcome.done s2 ∧
      IsList s2.mem s2.pxDelayedTaskList.pxHead [1] ∧
      IsList s2.mem s2.pxOverflowDelayedTaskList.pxHead [0] ∧
      wakeTimes s2.mem ([1] ++ [0]) = [100, 5] ∧
      smallestWake s2.mem ([1] ++ [0]) = some 5 ∧
      s2.xNextTaskUnblockTime = 100 :=
  ⟨_, _, rfl, rfl, by decide, by decide, rfl, rfl, rfl⟩

/-- C26 (amended).  Whenever `vTaskCheckDelayedTasks` returns, and whenever a
`SysTick_Handler` call that wrapped the counter or reached the cursor returns,
`xNextTaskUnblockTime` is the wake time of the head of the normal delayed list, which is
the smallest wake time of that list when it is sorted; the overflow list is looked at
only when the normal list is empty, and the value is `UINT32_MAX` when both are empty.
Whenever `vTaskDelay(d)` returns, the cursor is the caller's wake time if that is below
the old value or the old value was 0, and the old value otherwise.
`vTaskCheckDelayedTasks` does return when the normal list is empty or its head is not
due. -/
theorem next_unblock_head_first (fuel : Nat) (s : State) :
    (∀ s1, vTaskCheckDelayedTasks fuel s = Outcome.done s1 → CursorHeadFirst s1) ∧
    (∀ s1, SysTick_Handler fuel s = Outcome.done s1 →
      (s.xTickCount = UINT32_MAX ∨
        (SysTick_advance s).xNextTaskUnblockTime ≤ (SysTick_advance s).xTickCount) →
      CursorHeadFirst s1) ∧
    (∀ d cur s1, s.pxCurrentTask = some cur → vTaskDelay fuel d s = Outcome.done s1 →
      s1.xNextTaskUnblockTime
        = vTaskDelay_next s.xNextTaskUnblockTime ((s.xTickCount + d) % WORD)) ∧
    ((∀ a, s.pxDelayedTaskList.pxHead = some a → s.xTickCount < (s.mem a).xWakeTime) →
      ∃ s1, vTaskCheckDelayedTasks (fuel + 1) s = Outcome.done s1 ∧ CursorHeadFirst s1) := by
  have key : ∀ s1 : State, s1.xNextTaskUnblockTime = headWakeTime s1 → CursorHeadFirst s1 := by
    intro s1 h ln lo hN hO hsn hso
    rw [h]
    exact headWakeTime_smallest s1 ln lo hN hO hsn hso
  refine ⟨fun s1 h => key s1 (vTaskCheckDelayedTasks_cursor fuel s s1 h), ?_, ?_, ?_⟩
  · intro s1 h hcond
    unfold SysTick_Handler at h
    simp only at h
    split at h
    · exact key s1 (vTaskCheckDelayedTasks_cursor fuel _ s1 h)
    · rename_i hno
      cases h
      rcases hcond with hwrap | hreach
      · rw [SysTick_advance_wrap s hwrap]
        exact key _ (updateNextUnblock_next _)
      · exact absurd hreach hno
  · intro d cur s1 hcur h
    exact (vTaskDelay_returns fuel d cur s s1 hcur h).2.2.2.1
  · intro hidle
    have hrun : vTaskCheckDelayedTasks (fuel + 1) s = Outcome.done (updateNextUnblock s) := by
      unfold vTaskCheckDelayedTasks
      rw [vTaskCheckDelayedTasks_loop_idle fuel s hidle]
    exact ⟨_, hrun, key _ (updateNextUnblock_next _)⟩

/-! ## The bank transfer (`safe_transfer_money`) -/

/-- The function `find_account` finds an account exactly when one has the id, and the
account found has the id. -/
theorem find_account_spec (g : Fin 4 → BankAccount_t) (account_id : Nat) :
    (∀ i, find_account g account_id = some i → (g i).account_id = account_id) ∧
    (find_account g account_id = none ↔ ∀ i, (g i).account_id ≠ account_id) := by
  unfold find_account
  constructor
  · intro i h
    have := List.find?_some h
    simpa using this
  · rw [List.find?_eq_none]
    constructor
    · intro h i
      have := h i (List.mem_finRange i)
      simpa using this
    · intro h i _
      simpa using h i

/-- A value in the range of `int32_t` is stored unchanged. -/
theorem wrapInt32_id (x : Int) (h1 : INT32_MIN ≤ x) (h2 : x ≤ INT32_MAX) : wrapInt32 x = x := by
  unfold wrapInt32
  unfold INT32_MIN at h1
  unfold INT32_MAX at h2
  omega

/-- Every call of `safe_transfer_money` is one of two kinds.  Either the amount is positive,
the ids differ, both accounts are found and the source balance covers the amount: then
the call returns 0, the two balances are rewritten and the transfer is counted as a
success.  Or one of these fails: then the call returns -1, no account changes, and the
statistics are untouched or count one failure. -/
theorem safe_transfer_money_result (st : BankState) (from_id to_id : Nat) (amount : Int) :
    (∃ f t, 0 < amount ∧ from_id ≠ to_id ∧ find_account st.g_accounts from_id = some f ∧
      find_account st.g_accounts to_id = some t ∧ f ≠ t ∧
      amount ≤ (st.g_accounts f).balance ∧
      (safe_transfer_money st from_id to_id amount).2 = 0 ∧
      ((safe_transfer_money st from_id to_id amount).1.g_accounts f).balance
        = wrapInt32 ((st.g_accounts f).balance - amount) ∧
      ((safe_transfer_money st from_id to_id amount).1.g_accounts t).balance
        = wrapInt32 ((st.g_accounts t).balance + amount) ∧
      (∀ k, k ≠ f → k ≠ t →
        ((safe_transfer_money st from_id to_id amount).1.g_accounts k).balance
          = (st.g_accounts k).balance) ∧
      (safe_transfer_money st from_id to_id amount).1.g_bank_stats.total_transactions
        = (st.g_bank_stats.total_transactions + 1) % WORD ∧
      (safe_transfer_money st from_id to_id amount).1.g_bank_stats.successful_transfers
        = (st.g_bank_stats.successful_transfers + 1) % WORD ∧
      (safe_transfer_money st from_id to_id amount).1.g_bank_stats.failed_transfers
        = st.g_bank_stats.failed_transfers) ∨
    (¬ (0 < amount ∧ from_id ≠ to_id ∧ ∃ f t, find_account st.g_accounts from_id = some f ∧
        find_account st.g_accounts to_id = some t ∧ amount ≤ (st.g_accounts f).balance) ∧
      (safe_transfer_money st from_id to_id amount).2 = -1 ∧
      (safe_transfer_money st from_id to_id amount).1.g_accounts = st.g_accounts ∧
      ((safe_transfer_money st from_id to_id amount).1.g_bank_stats = st.g_bank_stats ∨
        ((safe_transfer_money st from_id to_id amount).1.g_bank_stats.total_transactions
            = (st.g_bank_stats.total_transactions + 1) % WORD ∧
          (safe_transfer_money st from_id to_id amount).1.g_bank_stats.failed_transfers
            = (st.g_bank_stats.failed_transfers + 1) % WORD ∧
          (safe_transfer_money st from_id to_id amount).1.g_bank_stats.successful_transfers
            = st.g_bank_stats.successful_transfers))) := by
  by_cases hpar : amount ≤ 0 ∨ from_id = to_id
  · right
    have hrun : safe_transfer_money st from_id to_id amount = (st, -1) := by
      unfold safe_transfer_money
      rw [if_pos hpar]
    rw [hrun]
    refine ⟨?_, rfl, rfl, Or.inl rfl⟩
    rintro ⟨h1, h2, _⟩
    rcases hpar with h | h
    · omega
    · exact h2 h
  · have hpos : 0 < amount := by
      by_contra h
      exact hpar (Or.inl (by omega))
    have hids : from_id ≠ to_id := fun h => hpar (Or.inr h)
    cases hf : find_account st.g_accounts from_id with
    | none =>
      right
      have hrun : safe_transfer_money st from_id to_id amount = (st, -1) := by
        unfold safe_transfer_money
        rw [if_neg hpar, hf]
      rw [hrun]
      refine ⟨?_, rfl, rfl, Or.inl rfl⟩
      rintro ⟨_, _, f, t, h, _⟩
      cases h
    | some f =>
      cases ht : find_account st.g_accounts to_id with
      | none =>
        right
        have hrun : safe_transfer_money st from_id to_id amount = (st, -1) := by
          unfold safe_transfer_money
          rw [if_neg hpar, hf, ht]
        rw [hrun]
        refine ⟨?_, rfl, rfl, Or.inl rfl⟩
        rintro ⟨_, _, f1, t1, _, h, _⟩
        cases h
      | some t =>
        have hft : f ≠ t := by
          intro e
          have h1 := (find_account_spec st.g_accounts from_id).1 f hf
          have h2 := (find_account_spec st.g_accounts to_id).1 t ht
          rw [e] at h1
          exact hids (h1.symm.trans h2)
        have htf : t ≠ f := fun e => hft e.symm
        by_cases hbal : (st.g_accounts f).balance ≥ amount
        · left
          refine ⟨f, t, hpos, hids, rfl, rfl, hft, hbal, ?_⟩
          unfold safe_transfer_money
          rw [if_neg hpar, hf, ht]
          simp only [if_pos hbal]
          refine ⟨trivial, ?_, ?_, ?_, trivial, trivial, trivial⟩
          · simp [setAccount, hft]
          · simp [setAccount, htf]
          · intro k hk1 hk2
            simp [setAccount, hk1, hk2]
        · right
          unfold safe_transfer_money
          rw [if_neg hpar, hf, ht]
          simp only [if_neg hbal]
          refine ⟨?_, trivial, trivial, Or.inr ⟨trivial, trivial, trivial⟩⟩
          rintro ⟨_, _, f1, t1, h1, _, h3⟩
          cases h1
          exact hbal h3

/-- Moving an amount from one of four accounts to another keeps the sum. -/
theorem sum_four_transfer (g g1 : Fin 4 → Int) (f t : Fin 4) (a : Int) (hft : f ≠ t)
    (hf : g1 f = g f - a) (ht : g1 t = g t + a) (hk : ∀ k, k ≠ f → k ≠ t → g1 k = g k) :
    g1 0 + g1 1 + g1 2 + g1 3 = g 0 + g 1 + g 2 + g 3 := by
  have h0 := hk 0
  have h1 := hk 1
  have h2 := hk 2
  have h3 := hk 3
  fin_cases f <;> fin_cases t <;> simp at hft h0 h1 h2 h3 hf ht <;> omega

/-- Outside the states the program reaches, the `int32_t` addition can overflow.  With the
balance of account 1002 set to `INT32_MAX`, the transfer of 1 from account 1001 meets
every condition and returns 0; the source balance drops by 1 and the destination
balance becomes `INT32_MIN`. -/
theorem safe_transfer_money_overflow_counterexample :
    (bankFull.g_accounts 0).balance = 10000 ∧ (bankFull.g_accounts 1).balance = 2147483647 ∧
    find_account bankFull.g_accounts 1001 = some 0 ∧
    find_account bankFull.g_accounts 1002 = some 1 ∧
    (safe_transfer_money bankFull 1001 1002 1).2 = 0 ∧
    ((safe_transfer_money bankFull 1001 1002 1).1.g_accounts 0).balance = 9999 ∧
    ((safe_transfer_money bankFull 1001 1002 1).1.g_accounts 1).balance = -2147483648 ∧
    ((safe_transfer_money bankFull 1001 1002 1).1.g_accounts 1).balance
      ≠ (bankFull.g_accounts 1).balance + 1 := by
  decide

/-- The contract of `safe_transfer_money` on an arbitrary state with balances in the range
of `int32_t`: it returns 0
if and only if the amount is positive, the ids differ, both ids name an account and the
balance of the source account (the first account with `from_id`) is at least the amount.
In that case the source balance decreases by the amount, the destination balance
increases by the amount provided the sum does not exceed `INT32_MAX`, and no other
balance changes.  In every other case it returns -1 and all four balances are
unchanged. -/
theorem safe_transfer_money_contract (st : BankState) (from_id to_id : Nat) (amount : Int)
    (hrange : ∀ k, INT32_MIN ≤ (st.g_accounts k).balance ∧
      (st.g_accounts k).balance ≤ INT32_MAX) :
    ((safe_transfer_money st from_id to_id amount).2 = 0 ↔
      (0 < amount ∧ from_id ≠ to_id ∧ (∃ i, (st.g_accounts i).account_id = from_id) ∧
        (∃ j, (st.g_accounts j).account_id = to_id) ∧
        ∀ f, find_account st.g_accounts from_id = some f →
          amount ≤ (st.g_accounts f).balance)) ∧
    ((safe_transfer_money st from_id to_id amount).2 = 0 →
      ∃ f t, find_account st.g_accounts from_id = some f ∧
        find_account st.g_accounts to_id = some t ∧ f ≠ t ∧
        ((safe_transfer_money st from_id to_id amount).1.g_accounts f).balance
          = (st.g_accounts f).balance - amount ∧
        ((st.g_accounts t).balance + amount ≤ INT32_MAX →
          ((safe_transfer_money st from_id to_id amount).1.g_accounts t).balance
            = (st.g_accounts t).balance + amount) ∧
        ∀ k, k ≠ f → k ≠ t →
          ((safe_transfer_money st from_id to_id amount).1.g_accounts k).balance
            = (st.g_accounts k).balance) ∧
    ((safe_transfer_money st from_id to_id amount).2 ≠ 0 →
      (safe_transfer_money st from_id to_id amount).2 = -1 ∧
      ∀ k, ((safe_transfer_money st from_id to_id amount).1.g_accounts k).balance
        = (st.g_accounts k).balance) := by
  have hex : ∀ id, (∃ i, (st.g_accounts i).account_id = id) ↔
      ∃ f, find_account st.g_accounts id = some f := by
    intro id
    have hs := find_account_spec st.g_accounts id
    constructor
    · rintro ⟨i, hi⟩
      cases hfa : find_account st.g_accounts id with
      | none => exact absurd hi (hs.2.1 hfa i)
      | some f => exact ⟨f, rfl⟩
    · rintro ⟨f, hf⟩
      exact ⟨f, hs.1 f hf⟩
  rcases safe_transfer_money_result st from_id to_id amount with
    ⟨f, t, hpos, hids, hf, ht, hft, hbal, hret, hbf, hbt, hbk, _⟩ |
    ⟨hnot, hret, hacc, _⟩
  · have hsrc : wrapInt32 ((st.g_accounts f).balance - amount)
        = (st.g_accounts f).balance - amount := by
      apply wrapInt32_id
      · unfold INT32_MIN; omega
      · have := (hrange f).2; omega
    refine ⟨⟨fun _ => ⟨hpos, hids, (hex from_id).2 ⟨f, hf⟩, (hex to_id).2 ⟨t, ht⟩, ?_⟩,
        fun _ => hret⟩, fun _ => ⟨f, t, hf, ht, hft, by rw [hbf, hsrc], ?_, hbk⟩, ?_⟩
    · intro f1 hf1
      rw [hf] at hf1
      cases hf1
      exact hbal
    · intro hno
      rw [hbt]
      apply wrapInt32_id
      · have := (hrange t).1; omega
      · exact hno
    · intro hne
      exact absurd hret hne
  · refine ⟨⟨fun h0 => ?_, fun hc => ?_⟩, fun h0 => ?_, fun _ => ⟨hret, fun k => by rw [hacc]⟩⟩
    · rw [hret] at h0
      cases h0
    · exfalso
      obtain ⟨hpos, hids, hi, hj, hb⟩ := hc
      obtain ⟨f, hf⟩ := (hex from_id).1 hi
      obtain ⟨t, ht⟩ := (hex to_id).1 hj
      exact hnot ⟨hpos, hids, f, t, hf, ht, hb f hf⟩
    · rw [hret] at h0
      cases h0

/-- The contract on the initial accounts: 200 from account 1001 to account 1002 returns
0 and leaves the balances 9800, 5200, 8000, 15000. -/
theorem safe_transfer_money_contract_witness :
    (safe_transfer_money bankInitial 1001 1002 200).2 = 0 ∧
    ∃ f t, find_account bankInitial.g_accounts 1001 = some f ∧
      find_account bankInitial.g_accounts 1002 = some t ∧
      ((safe_transfer_money bankInitial 1001 1002 200).1.g_accounts f).balance
        = (bankInitial.g_accounts f).balance - 200 := by
  have h := safe_transfer_money_contract bankInitial 1001 1002 200 (by decide)
  have h0 : (safe_transfer_money bankInitial 1001 1002 200).2 = 0 := by decide
  obtain ⟨f, t, a1, a2, _, a4, _⟩ := h.2.1 h0
  exact ⟨h0, f, t, a1, a2, a4⟩

/-- Two different accounts of four hold at most the sum of all when no balance is negative. -/
theorem two_le_sum_four (g : Fin 4 → Int) (f t : Fin 4) (hft : f ≠ t) (h : ∀ k, 0 ≤ g k) :
    g f + g t ≤ g 0 + g 1 + g 2 + g 3 := by
  have h0 := h 0
  have h1 := h 1
  have h2 := h 2
  have h3 := h 3
  fin_cases f <;> fin_cases t <;> simp at hft ⊢ <;> omega

/-- On a state without negative balances whose sum fits in an `int32_t`, a call of
`safe_transfer_money` either moves exactly the amount between two different accounts and
returns 0, or changes no balance and returns -1; the state after the call is of the same
kind, with the same sum. -/
theorem safe_transfer_money_sound (st : BankState) (from_id to_id : Nat) (amount : Int)
    (hs : BankSound st) :
    BankSound (safe_transfer_money st from_id to_id amount).1 ∧
    totalBalance (safe_transfer_money st from_id to_id amount).1 = totalBalance st ∧
    ((safe_transfer_money st from_id to_id amount).2 = 0 →
      ∃ f t, find_account st.g_accounts from_id = some f ∧
        find_account st.g_accounts to_id = some t ∧ f ≠ t ∧
        ((safe_transfer_money st from_id to_id amount).1.g_accounts f).balance
          = (st.g_accounts f).balance - amount ∧
        ((safe_transfer_money st from_id to_id amount).1.g_accounts t).balance
          = (st.g_accounts t).balance + amount ∧
        ∀ k, k ≠ f → k ≠ t →
          ((safe_transfer_money st from_id to_id amount).1.g_accounts k).balance
            = (st.g_accounts k).balance) := by
  obtain ⟨hnn, hsum⟩ := hs
  rcases safe_transfer_money_result st from_id to_id amount with
    ⟨f, t, hpos, _, hf, ht, hft, hbal, hret, hbf, hbt, hbk, _⟩ |
    ⟨_, hret, hacc, _⟩
  · have htwo := two_le_sum_four (fun k => (st.g_accounts k).balance) f t hft hnn
    have htot : (st.g_accounts f).balance + (st.g_accounts t).balance ≤ INT32_MAX :=
      Int.le_trans htwo hsum
    have hsrc : wrapInt32 ((st.g_accounts f).balance - amount)
        = (st.g_accounts f).balance - amount := by
      apply wrapInt32_id
      · unfold INT32_MIN; omega
      · have := hnn t; omega
    have hdst : wrapInt32 ((st.g_accounts t).balance + amount)
        = (st.g_accounts t).balance + amount := by
      apply wrapInt32_id
      · have := hnn t; unfold INT32_MIN; omega
      · omega
    have hsame : totalBalance (safe_transfer_money st from_id to_id amount).1
        = totalBalance st := by
      unfold totalBalance
      exact sum_four_transfer (fun k => (st.g_accounts k).balance)
        (fun k => ((safe_transfer_money st from_id to_id amount).1.g_accounts k).balance)
        f t amount hft (by simp only [hbf, hsrc]) (by simp only [hbt, hdst]) hbk
    refine ⟨⟨fun k => ?_, by rw [hsame]; exact hsum⟩, hsame,
      fun _ => ⟨f, t, hf, ht, hft, by rw [hbf, hsrc], by rw [hbt, hdst], hbk⟩⟩
    by_cases hkf : k = f
    · rw [hkf, hbf, hsrc]; omega
    · by_cases hkt : k = t
      · rw [hkt, hbt, hdst]
        have := hnn t
        omega
      · rw [hbk k hkf hkt]; exact hnn k
  · have hsame : totalBalance (safe_transfer_money st from_id to_id amount).1
        = totalBalance st := by
      unfold totalBalance
      rw [hacc]
    refine ⟨⟨fun k => by rw [hacc]; exact hnn k, by rw [hsame]; exact hsum⟩, hsame, fun h0 => ?_⟩
    rw [hret] at h0
    cases h0

/-- Every state the program reaches has no negative balance and the sum 38000. -/
theorem runTransfers_sound : ∀ (calls : List TransferCall) (st : BankState), BankSound st →
    BankSound (runTransfers calls st) ∧
      totalBalance (runTransfers calls st) = totalBalance st := by
  intro calls
  induction calls with
  | nil => intro st hs; exact ⟨hs, rfl⟩
  | cons c cs ih =>
    intro st hs
    obtain ⟨h1, h2, _⟩ := safe_transfer_money_sound st c.from_id c.to_id c.amount hs
    obtain ⟨h3, h4⟩ := ih _ h1
    exact ⟨h3, h4.trans h2⟩

/-- The initial accounts: no negative balance, sum 38000. -/
theorem bankInitial_sound : BankSound bankInitial ∧ totalBalance bankInitial = 38000 := by
  refine ⟨⟨?_, by decide⟩, by decide⟩
  intro k
  fin_cases k <;> decide

/-- C23.  On every state the program can reach (the initial accounts followed by any
sequence of `safe_transfer_money` calls): `safe_transfer_money(from_id, to_id, amount)`
returns 0 if and only if the amount is positive, the ids differ, both ids name an
account and the balance of the source account is at least the amount; in that case the
source balance decreases by the amount, the destination balance increases by the amount
and no other balance changes; in every other case it returns -1 and all four balances
are unchanged.  (On these states no balance is negative and the sum is 38000, so the
`int32_t` addition cannot overflow.) -/
theorem safe_transfer_money_reachable (calls : List TransferCall) (from_id to_id : Nat)
    (amount : Int) :
    ((safe_transfer_money (bankAfter calls) from_id to_id amount).2 = 0 ↔
      (0 < amount ∧ from_id ≠ to_id ∧
        (∃ i, ((bankAfter calls).g_accounts i).account_id = from_id) ∧
        (∃ j, ((bankAfter calls).g_accounts j).account_id = to_id) ∧
        ∀ f, find_account (bankAfter calls).g_accounts from_id = some f →
          amount ≤ ((bankAfter calls).g_accounts f).balance)) ∧
    ((safe_transfer_money (bankAfter calls) from_id to_id amount).2 = 0 →
      ∃ f t, find_account (bankAfter calls).g_accounts from_id = some f ∧
        find_account (bankAfter calls).g_accounts to_id = some t ∧ f ≠ t ∧
        ((safe_transfer_money (bankAfter calls) from_id to_id amount).1.g_accounts f).balance
          = ((bankAfter calls).g_accounts f).balance - amount ∧
        ((safe_transfer_money (bankAfter calls) from_id to_id amount).1.g_accounts t).balance
          = ((bankAfter calls).g_accounts t).balance + amount ∧
        ∀ k, k ≠ f → k ≠ t →
          ((safe_transfer_money (bankAfter calls) from_id to_id amount).1.g_accounts k).balance
            = ((bankAfter calls).g_accounts k).balance) ∧
    ((safe_transfer_money (bankAfter calls) from_id to_id amount).2 ≠ 0 →
      (safe_transfer_money (bankAfter calls) from_id to_id amount).2 = -1 ∧
      ∀ k, ((safe_transfer_money (bankAfter calls) from_id to_id amount).1.g_accounts k).balance
        = ((bankAfter calls).g_accounts k).balance) ∧
    (∀ k, 0 ≤ ((bankAfter calls).g_accounts k).balance) ∧
    totalBalance (bankAfter calls) = 38000 := by
  have hsound := runTransfers_sound calls bankInitial bankInitial_sound.1
  have hs : BankSound (bankAfter calls) := hsound.1
  have htot : totalBalance (bankAfter calls) = 38000 := hsound.2.trans bankInitial_sound.2
  have hrange : ∀ k, INT32_MIN ≤ ((bankAfter calls).g_accounts k).balance ∧
      ((bankAfter calls).g_accounts k).balance ≤ INT32_MAX := by
    intro k
    have h1 := hs.1 k
    have h2 := two_le_sum_four (fun i => ((bankAfter calls).g_accounts i).balance) k
      (if k = 0 then 1 else 0) (by split <;> simp_all) hs.1
    have h3 := hs.1 (if k = 0 then 1 else 0)
    have h4 := hs.2
    unfold totalBalance at h4
    simp only at h2
    unfold INT32_MIN
    constructor
    · omega
    · omega
  obtain ⟨c1, _, c3⟩ := safe_transfer_money_contract (bankAfter calls) from_id to_id amount hrange
  obtain ⟨_, _, d3⟩ := safe_transfer_money_sound (bankAfter calls) from_id to_id amount hs
  exact ⟨c1, d3, c3, hs.1, htot⟩

/-- C28.  For balances in the range of `int32_t`, and assuming that the destination balance
plus the amount does not exceed `INT32_MAX`: every call of `safe_transfer_money`, with
whatever arguments and whether it returns 0 or -1, leaves the sum of the four balances
unchanged; and if `total_transactions` equals `successful_transfers + failed_transfers`
(in `uint32_t` arithmetic) before the call, it does so after the call. -/
theorem safe_transfer_money_conserves (st : BankState) (from_id to_id : Nat) (amount : Int)
    (hrange : ∀ k, INT32_MIN ≤ (st.g_accounts k).balance ∧
      (st.g_accounts k).balance ≤ INT32_MAX)
    (hno : ∀ t, find_account st.g_accounts to_id = some t →
      (st.g_accounts t).balance + amount ≤ INT32_MAX) :
    totalBalance (safe_transfer_money st from_id to_id amount).1 = totalBalance st ∧
    (st.g_bank_stats.total_transactions
        = (st.g_bank_stats.successful_transfers + st.g_bank_stats.failed_transfers) % WORD →
      (safe_transfer_money st from_id to_id amount).1.g_bank_stats.total_transactions
        = ((safe_transfer_money st from_id to_id amount).1.g_bank_stats.successful_transfers
            + (safe_transfer_money st from_id to_id amount).1.g_bank_stats.failed_transfers)
          % WORD) := by
  rcases safe_transfer_money_result st from_id to_id amount with
    ⟨f, t, hpos, _, _, ht, hft, hbal, _, hbf, hbt, hbk, hs1, hs2, hs3⟩ |
    ⟨_, _, hacc, hst⟩
  · have hsrc : wrapInt32 ((st.g_accounts f).balance - amount)
        = (st.g_accounts f).balance - amount := by
      apply wrapInt32_id
      · unfold INT32_MIN; omega
      · have := (hrange f).2; omega
    have hdst : wrapInt32 ((st.g_accounts t).balance + amount)
        = (st.g_accounts t).balance + amount := by
      apply wrapInt32_id
      · have := (hrange t).1; omega
      · exact hno t ht
    constructor
    · unfold totalBalance
      exact sum_four_transfer (fun k => (st.g_accounts k).balance)
        (fun k => ((safe_transfer_money st from_id to_id amount).1.g_accounts k).balance)
        f t amount hft (by simp only [hbf, hsrc]) (by simp only [hbt, hdst]) hbk
    · intro hinv
      rw [hs1, hs2, hs3, hinv]
      unfold WORD
      omega
  · constructor
    · unfold totalBalance
      rw [hacc]
    · intro hinv
      rcases hst with h | ⟨h1, h2, h3⟩
      · rw [h]; exact hinv
      · rw [h1, h2, h3, hinv]
        unfold WORD
        omega

/-- C28 on the initial accounts: the transfer of 2000 from account 1001 to account 1004
keeps the sum 38000 and the statistics consistent. -/
theorem safe_transfer_money_conserves_witness :
    totalBalance (safe_transfer_money bankInitial 1001 1004 2000).1 = 38000 ∧
    (safe_transfer_money bankInitial 1001 1004 2000).1.g_bank_stats.total_transactions = 1 := by
  have h := safe_transfer_money_conserves bankInitial 1001 1004 2000 (by decide) (by decide)
  exact ⟨h.1.trans (by decide), (h.2 (by decide)).trans (by decide)⟩

/-! ## The ring buffer -/

/-- C24 (code defect).  On the empty buffer `ring_buffer_write(&p)` stores the packet at
index 0 and makes `head = 1` and `count = 1`, and on the full buffer it only increments
`write_failures`; but in both cases no value is returned: the function ends without a
`return` statement.  Only the `NULL` packet returns -1. -/
theorem ring_buffer_write_returns_nothing :
    (∃ rb1, ring_buffer_write ringInitial (some (packetNo 7)) = Outcome.done (rb1, none) ∧
      rb1.buffer 0 = packetNo 7 ∧ rb1.head = 1 ∧ rb1.count = 1 ∧ rb1.tail = 0 ∧
      rb1.total_written = 1) ∧
    ringFull.count = 16 ∧
    (∃ rb1, ring_buffer_write ringFull (some (packetNo 17)) = Outcome.done (rb1, none) ∧
      rb1.count = 16 ∧ rb1.head = ringFull.head ∧ rb1.tail = ringFull.tail ∧
      rb1.write_failures = 1 ∧ ringFull.write_failures = 0 ∧
      ∀ k, k < 16 → rb1.buffer k = ringFull.buffer k) ∧
    (∃ rb1, ring_buffer_write ringInitial none = Outcome.done (rb1, some (-1))) := by
  refine ⟨⟨_, rfl, rfl, rfl, rfl, rfl, rfl⟩, by decide,
    ⟨_, rfl, by decide, rfl, rfl, by decide, by decide, ?_⟩, ⟨_, rfl⟩⟩
  intro k _
  rfl

/-- A small run of the ring buffer: two writes, three reads, one more write and a read. -/
theorem ringRun_example :
    ∃ r, ringRun [RingOp.write (some (packetNo 1)), RingOp.write (some (packetNo 2)),
        RingOp.read, RingOp.read, RingOp.read, RingOp.write none,
        RingOp.write (some (packetNo 3)), RingOp.read]
        { rb := ringInitial, written := [], delivered := [] } = Outcome.done r ∧
      r.written = [packetNo 1, packetNo 2, packetNo 3] ∧
      r.delivered = [packetNo 1, packetNo 2, packetNo 3] ∧
      r.rb.read_failures = 1 ∧ r.rb.count = 0 ∧ r.rb.head = 3 ∧ r.rb.tail = 3 :=
  ⟨_, rfl, by decide, by decide, by decide, by decide, by decide, by decide⟩

end FreeRTOSDemo
